import Mathlib

/-!
# tgzfs: a gzip-compressed tar archive served as a read-only file system

Shallow embedding of `pkg/fusefs/tgzfs.go` and `pkg/types/inode.go`.

Conventions of the embedding:

* A Go `string` is a list of characters, one character per byte.
* `fuseops.InodeID`, `fuseops.DirOffset`, `uint64` sizes and `int` lengths are
  natural numbers.  The tar reader only hands out headers with a non-negative
  `int64` size, so `uint64(ent.size)` keeps the value.
* A Go map is an association list (`tableGet`, `tableSet`).
* The archive is the list of tar members the opener yields, in stream order.
  A scan that hits a damaged stream is outside the model.
* The decompressed stream is one gzip member without flush markers and lays
  the tar members out one after the other, each as one header block of 512
  bytes (no extended headers) followed by its content padded to whole blocks.
  A read of the stream is short at the window boundaries of the inflater
  (`gzipRead`); `ReadFile` calls `tr.Read` once per buffer and sees them.
* A run-time panic (explicit `panic`, nil dereference) is `none` during the
  build and `Failure.Panic` in the file system operations.
-/

namespace Tgzfs

/-- A Go string: one character per byte. -/
abbrev GoString := List Char

/-! ## Library functions of the Go standard library and of jacobsa/fuse -/

/-- Go's `strings.Compare`: bytewise lexicographic three-way comparison. -/
def stringsCompare : GoString → GoString → Int
  | [], [] => 0
  | [], _ :: _ => -1
  | _ :: _, [] => 1
  | a :: as, b :: bs =>
    if a.toNat < b.toNat then -1
    else if b.toNat < a.toNat then 1
    else stringsCompare as bs

/-- Go's `strings.Index(s, "/")`; `none` stands for `-1`. -/
def stringsIndexSlash : GoString → Option Nat
  | [] => none
  | c :: cs => if c = '/' then some 0 else (stringsIndexSlash cs).map (· + 1)

/-- Go's `strings.Split(s, "/")`. -/
def splitSlash : GoString → List GoString
  | [] => [[]]
  | c :: cs =>
    if c = '/' then [] :: splitSlash cs
    else
      match splitSlash cs with
      | [] => [[c]]
      | s :: ss => (c :: s) :: ss

/-- Go's `strings.Join(segs, "/")`. -/
def joinSlash : List GoString → GoString
  | [] => []
  | [s] => s
  | s :: t :: ss => s ++ '/' :: joinSlash (t :: ss)

/-- The path element `..`. -/
def dotdot : GoString := ['.', '.']

/-- One path element processed by `filepath.Clean`; `stack` holds the elements
kept so far, last one first.  Empty elements and `.` are dropped; `..` removes
the last kept real element, is kept itself at the start of a relative path, and
is dropped at the start of a rooted one. -/
def cleanStep (rooted : Bool) (stack : List GoString) (seg : GoString) : List GoString :=
  if seg = [] ∨ seg = ['.'] then stack
  else if seg = dotdot then
    match stack with
    | [] => if rooted then [] else [dotdot]
    | top :: rest =>
      if top = dotdot then (if rooted then stack else dotdot :: stack) else rest
  else seg :: stack

/-- Go's `filepath.Clean` with the Unix separator, following its documented
rules: multiple separators collapse, `.` elements vanish, an inner `..` removes
the element before it, `..` at the start of a rooted path vanishes, the result
of an empty path is `.`. -/
def filepathClean (path : GoString) : GoString :=
  if path = [] then ['.']
  else
    let rooted : Bool := path.head? = some '/'
    let segs := ((splitSlash path).foldl (cleanStep rooted) []).reverse
    if rooted then '/' :: joinSlash segs
    else if segs = [] then ['.']
    else joinSlash segs

/-- Go's `filepath.Join(a, b)`: empty elements are ignored, the rest is joined
with the separator and cleaned; the result is empty when both are empty. -/
def filepathJoin (a b : GoString) : GoString :=
  if a ≠ [] then filepathClean (a ++ '/' :: b)
  else if b ≠ [] then filepathClean b
  else []

/-- The `fs.ModeDir` bit of `fs.FileMode`. -/
def ModeDir : Nat := 2 ^ 31

/-- The kind tag of a directory entry (`fuseutil.DirentType`); only the two
values the program stores are modelled. -/
inductive DirentType where
  | DT_File
  | DT_Directory
  deriving DecidableEq

/-- Record `fuseutil.Dirent`. -/
structure Dirent where
  Offset : Nat
  Inode : Nat
  Name : GoString
  Typ : DirentType
  deriving DecidableEq

/-- Record `fuseops.InodeAttributes`; the fields the program never sets
(times, owner) stay at their zero value and are left out. -/
structure InodeAttributes where
  Size : Nat
  Nlink : Nat
  Mode : Nat
  deriving DecidableEq

/-- Serialised length `fuseutil.WriteDirent` needs for one entry: a 24 byte
header, the name, and padding of the name to a multiple of 8. -/
def direntLen (d : Dirent) : Nat :=
  let padLen := if d.Name.length % 8 ≠ 0 then 8 - d.Name.length % 8 else 0
  24 + d.Name.length + padLen

/-- Function `fuseutil.WriteDirent(buf, d)` for a buffer of `bufLen` bytes:
the number of bytes written, `0` when the entry does not fit. -/
def WriteDirent (bufLen : Nat) (d : Dirent) : Nat :=
  if direntLen d > bufLen then 0 else direntLen d

/-- The reserved id of the root inode, `fuseops.RootInodeID`. -/
def RootInodeID : Nat := 1

/-! ## pkg/types/inode.go -/

/-- Record `types.InodeInfo`. -/
structure InodeInfo where
  Attributes : InodeAttributes
  Dir : Bool
  Children : List Dirent
  deriving DecidableEq

/-! ## Go maps as association lists -/

/-- Map read `m[k]`. -/
def tableGet {β : Type} : List (Nat × β) → Nat → Option β
  | [], _ => none
  | (k1, v) :: rest, k => if k1 = k then some v else tableGet rest k

/-- Map write `m[k] = v`. -/
def tableSet {β : Type} : List (Nat × β) → Nat → β → List (Nat × β)
  | [], k, v => [(k, v)]
  | (k1, v1) :: rest, k, v =>
    if k1 = k then (k, v) :: rest else (k1, v1) :: tableSet rest k v

/-! ## The archive -/

/-- One member of the tar stream as the reader presents it: the header name,
`th.FileInfo().IsDir()`, `th.FileInfo().Size()`, and the bytes `tr.Read`
delivers for the member. -/
structure TarEntry where
  Name : GoString
  IsDir : Bool
  Size : Nat
  Data : GoString
  deriving DecidableEq

/-- The local record `entry` of `buildInodeTable`. -/
structure entry where
  filePath : GoString
  isDir : Bool
  size : Nat
  deriving DecidableEq

/-- Lines 59-69: one scan, every header turned into an `entry` with a cleaned
path. -/
def scanEntries (archive : List TarEntry) : List entry :=
  archive.map fun th =>
    { filePath := filepathClean th.Name, isDir := th.IsDir, size := th.Size }

/-- The comparison handed to `sort.Slice`:
`strings.Compare(temp[i].filePath, temp[j].filePath) <= 0`. -/
def lessEntry (a b : entry) : Bool :=
  stringsCompare a.filePath b.filePath ≤ 0

/-- Inner loop of the library's insertion sort: `x` sits right of the sorted
run `run` (given last element first) and moves left while `less x y` holds
for its left neighbour `y`. -/
def insertLeft (x : entry) : List entry → List entry
  | [] => [x]
  | y :: ys => if lessEntry x y then y :: insertLeft x ys else x :: y :: ys

/-- Go's `sort.Slice(temp, less)` as plain insertion sort, the algorithm the
library runs on short slices.  On longer slices the library's quicksort may
leave entries of equal path in another order; entries of pairwise different
paths have one sorted order only. -/
def sortSlice (temp : List entry) : List entry :=
  (temp.foldl (fun run x => insertLeft x run) []).reverse

/-! ## pkg/fusefs/tgzfs.go: buildInodeTable -/

/-- The state the closures of `buildInodeTable` share: the inode table of the
receiver and the counter `nextFuseInodeID`. -/
structure BuildState where
  inodeTable : List (Nat × InodeInfo)
  nextFuseInodeID : Nat
  deriving DecidableEq

/-- Lines 74-81: the root inode. -/
def rootInode : InodeInfo :=
  { Attributes := { Size := 0, Nlink := 1, Mode := 0o555 ||| ModeDir },
    Dir := true,
    Children := [] }

/-- Closure `findInodeInfo`: `none` is the panic on an unknown id. -/
def findInodeInfo (st : BuildState) (inodeId : Nat) : Option InodeInfo :=
  tableGet st.inodeTable inodeId

/-- Lines 129-136: the scan of the children for `pfx`; it does not stop at a
hit, so the last child of that name decides. -/
def findChild (pfx : GoString) (children : List Dirent) : Bool × Nat :=
  children.foldl (fun acc d => if d.Name = pfx then (true, d.Inode) else acc) (false, 0)

/-- Lines 106-124: the inode of a leaf. -/
def leafInode (ent : entry) : InodeInfo :=
  if ent.isDir then
    { Attributes := { Size := 0, Nlink := 1, Mode := 0o555 ||| ModeDir },
      Dir := true, Children := [] }
  else
    { Attributes := { Size := ent.size, Nlink := 1, Mode := 0o444 },
      Dir := false, Children := [] }

/-- Lines 139-145: the inode of a directory created for an intermediate path
segment; the literal sets the mode only. -/
def impliedDirInode : InodeInfo :=
  { Attributes := { Size := 0, Nlink := 0, Mode := 0o555 ||| ModeDir },
    Dir := true, Children := [] }

/-- Closure `buildHelper`, with the recursion bounded by `fuel`.  `ii` is a
pointer in the source: the append changes the object the table held under
`inodeId` when `findInodeInfo` ran, so the model writes it back before it
stores the new inode (the same table also if the two keys were equal). -/
def buildHelperFuel : Nat → BuildState → Nat → entry → Option BuildState
  | 0, _, _, _ => none
  | fuel + 1, st, inodeId, ent =>
    match findInodeInfo st inodeId with
    | none => none
    | some ii =>
      match stringsIndexSlash ent.filePath with
      | none =>
        let nextInodeID := st.nextFuseInodeID
        let newDirent : Dirent :=
          { Offset := ii.Children.length + 1, Inode := nextInodeID, Name := ent.filePath,
            Typ := if ent.isDir then DirentType.DT_Directory else DirentType.DT_File }
        some
          { inodeTable :=
              tableSet
                (tableSet st.inodeTable inodeId { ii with Children := ii.Children ++ [newDirent] })
                nextInodeID (leafInode ent),
            nextFuseInodeID := st.nextFuseInodeID + 1 }
      | some slashIdx =>
        let pfx := ent.filePath.take slashIdx
        let rest : entry :=
          { filePath := ent.filePath.drop (slashIdx + 1), isDir := ent.isDir, size := ent.size }
        match findChild pfx ii.Children with
        | (true, buildInodeID) => buildHelperFuel fuel st buildInodeID rest
        | (false, _) =>
          let nextInodeID := st.nextFuseInodeID
          let newDirent : Dirent :=
            { Offset := ii.Children.length + 1, Inode := nextInodeID, Name := pfx,
              Typ := DirentType.DT_Directory }
          buildHelperFuel fuel
            { inodeTable :=
                tableSet
                  (tableSet st.inodeTable inodeId { ii with Children := ii.Children ++ [newDirent] })
                  nextInodeID impliedDirInode,
              nextFuseInodeID := st.nextFuseInodeID + 1 }
            nextInodeID rest

/-- Closure `buildHelper`: every recursive call shortens the path, so its
length bounds the depth. -/
def buildHelper (st : BuildState) (inodeId : Nat) (ent : entry) : Option BuildState :=
  buildHelperFuel (ent.filePath.length + 1) st inodeId ent

/-- Closure `buildDentry`, with the recursion depth bounded by `fuel`; `none`
is the nil dereference on an unknown id (or the exhausted bound). -/
def buildDentryFuel : Nat → List (Nat × InodeInfo) → GoString → Nat →
    List (Nat × GoString) → Option (List (Nat × GoString))
  | 0, _, _, _, _ => none
  | fuel + 1, inodeTable, pfx, inodeId, direntTable =>
    match tableGet inodeTable inodeId with
    | none => none
    | some ii =>
      ii.Children.foldlM
        (fun dt d =>
          if d.Typ = DirentType.DT_Directory then
            buildDentryFuel fuel inodeTable (filepathJoin pfx d.Name) d.Inode dt
          else
            some (tableSet dt d.Inode (filepathJoin pfx d.Name)))
        direntTable

/-- Lines 74-176: the root inode and one `buildHelper` call per sorted entry. -/
def buildTree (temp : List entry) : Option BuildState :=
  temp.foldlM (fun st ent => buildHelper st RootInodeID ent)
    { inodeTable := tableSet [] RootInodeID rootInode, nextFuseInodeID := RootInodeID + 1 }

/-- Record `Tgz`: the opener (the archive it yields) and the two tables. -/
structure Tgz where
  opener : List TarEntry
  inodeTable : List (Nat × InodeInfo)
  direntTable : List (Nat × GoString)
  deriving DecidableEq

/-- Method `(*Tgz).buildInodeTable` on the fresh receiver of `NewGzipFs`.  A
walk of `buildDentry` never goes deeper than the number of inodes. -/
def buildInodeTable (archive : List TarEntry) : Option Tgz :=
  match buildTree (sortSlice (scanEntries archive)) with
  | none => none
  | some st =>
    match buildDentryFuel st.inodeTable.length st.inodeTable [] RootInodeID [] with
    | none => none
    | some dt => some { opener := archive, inodeTable := st.inodeTable, direntTable := dt }

/-! ## pkg/fusefs/tgzfs.go: the file system operations -/

/-- How an operation fails: the two error numbers the program returns, or a
run-time panic. -/
inductive Failure where
  | ENOENT
  | EIO
  | Panic
  deriving DecidableEq

/-- Outcome of an operation. -/
inductive Outcome (α : Type) where
  | ok (a : α)
  | fail (e : Failure)
  deriving DecidableEq

/-- Method `(*Tgz).GetInodeAttributes`. -/
def GetInodeAttributes (t : Tgz) (inode : Nat) : Outcome InodeAttributes :=
  match tableGet t.inodeTable inode with
  | none => .fail .ENOENT
  | some info => .ok info.Attributes

/-- Function `findChildInode`: the first entry of that name. -/
def findChildInode (name : GoString) : List Dirent → Outcome Nat
  | [] => .fail .ENOENT
  | d :: ds => if d.Name = name then .ok d.Inode else findChildInode name ds

/-- Method `(*Tgz).LookUpInode`; the read of the child's attributes panics when
the child id has no inode. -/
def LookUpInode (t : Tgz) (parent : Nat) (name : GoString) : Outcome (Nat × InodeAttributes) :=
  match tableGet t.inodeTable parent with
  | none => .fail .ENOENT
  | some parentInfo =>
    match findChildInode name parentInfo.Children with
    | .fail e => .fail e
    | .ok childInode =>
      match tableGet t.inodeTable childInode with
      | none => .fail .Panic
      | some info => .ok (childInode, info.Attributes)

/-- The loop of `ReadDir` over `entries`, with `written` the entries already
serialised into `op.Dst` and `bytesRead` the value of `op.BytesRead`. -/
def readDirLoop (dstLen : Nat) : List Dirent → List Dirent → Nat → List Dirent × Nat
  | [], written, bytesRead => (written, bytesRead)
  | e :: es, written, bytesRead =>
    let n := WriteDirent (dstLen - bytesRead) e
    if n = 0 then (written, bytesRead)
    else readDirLoop dstLen es (written ++ [e]) (bytesRead + n)

/-- Method `(*Tgz).ReadDir` for `op.Inode`, `op.Offset` and a buffer `op.Dst`
of `dstLen` bytes: the entries serialised into the buffer and `op.BytesRead`. -/
def ReadDir (t : Tgz) (inode offset dstLen : Nat) : Outcome (List Dirent × Nat) :=
  match tableGet t.inodeTable inode with
  | none => .fail .ENOENT
  | some info =>
    if !info.Dir then .fail Failure.EIO
    else if offset > info.Children.length then .fail Failure.EIO
    else .ok (readDirLoop dstLen (info.Children.drop offset) [] 0)

/-- Size of a block of the tar format. -/
def blockSize : Nat := 512

/-- Size of the window of the inflater of `compress/flate` below the
`gzip.Reader`. -/
def flateWindow : Nat := 32768

/-- Bytes a member with `n` bytes of content takes in the stream after its
header: the content padded to whole blocks. -/
def paddedSize (n : Nat) : Nat :=
  (n + (blockSize - 1)) / blockSize * blockSize

/-- Method `Read(b)` of the `gzip.Reader` with `len(b) = want` at position
`pos` of the decompressed stream, where the stream has at least `want` more
bytes: the number of bytes the one call delivers.  The inflater hands its
window out each time the window is full, so a call never delivers bytes
across a multiple of `flateWindow`. -/
def gzipRead (pos want : Nat) : Nat :=
  min want (flateWindow - pos % flateWindow)

/-- Method `tr.Read(b)` of the tar reader with `len(b) = n` on a member with
`left` unread bytes, the first of them at position `pos` of the decompressed
stream: the bytes read, the bytes still unread, and whether the error is
`io.EOF` (nothing left after the read).  The reader cuts `b` to the bytes the
member still has and calls `Read` of the underlying stream once. -/
def tarRead (pos : Nat) (left : GoString) (n : Nat) : GoString × GoString × Bool :=
  let m := gzipRead pos (min n left.length)
  (left.take m, left.drop m, (left.drop m).isEmpty)

/-- The loop of `ReadFile` over the members `tr.Next()` yields, with `pos` the
position in the decompressed stream of the header of the next member; the end
of the archive is the error branch. -/
def readFileLoop (filename : GoString) (offset dstLen : Nat) :
    Nat → List TarEntry → Outcome GoString
  | _, [] => .fail Failure.EIO
  | pos, th :: rest =>
    let next := pos + blockSize + paddedSize th.Data.length
    if filepathClean th.Name = filename then
      let skipped := tarRead (pos + blockSize) th.Data offset
      let got := tarRead (pos + blockSize + skipped.1.length) skipped.2.1 dstLen
      if got.2.2 then .ok got.1 else readFileLoop filename offset dstLen next rest
    else readFileLoop filename offset dstLen next rest

/-- Method `(*Tgz).ReadFile` for `op.Inode`, `op.Offset` and a buffer `op.Dst`
of `dstLen` bytes: the bytes `op.Dst[:op.BytesRead]`. -/
def ReadFile (t : Tgz) (inode offset dstLen : Nat) : Outcome GoString :=
  match tableGet t.direntTable inode with
  | none => .fail .ENOENT
  | some filename => readFileLoop filename offset dstLen 0 t.opener

/-! ## Auxiliary definitions for the proofs -/

/-- The state after `buildHelper` hung a new child under `inodeId`: the entry
is appended to the children of `ii` and `newInode` is stored under the next
free id. -/
def addChild (st : BuildState) (inodeId : Nat) (ii : InodeInfo) (name : GoString)
    (typ : DirentType) (newInode : InodeInfo) : BuildState :=
  { inodeTable :=
      tableSet
        (tableSet st.inodeTable inodeId
          { ii with Children := ii.Children ++
              [{ Offset := ii.Children.length + 1, Inode := st.nextFuseInodeID,
                 Name := name, Typ := typ }] })
        st.nextFuseInodeID newInode,
    nextFuseInodeID := st.nextFuseInodeID + 1 }

/-- Closure `buildHelper` read on the list of path segments instead of the
path string. -/
def insertSegs (isDir : Bool) (size : Nat) : BuildState → Nat → List GoString → Option BuildState
  | _, _, [] => none
  | st, inodeId, [x] =>
    match findInodeInfo st inodeId with
    | none => none
    | some ii =>
      some (addChild st inodeId ii x
        (if isDir then DirentType.DT_Directory else DirentType.DT_File)
        (leafInode { filePath := x, isDir := isDir, size := size }))
  | st, inodeId, x :: y :: rest =>
    match findInodeInfo st inodeId with
    | none => none
    | some ii =>
      match findChild x ii.Children with
      | (true, buildInodeID) => insertSegs isDir size st buildInodeID (y :: rest)
      | (false, _) =>
        insertSegs isDir size
          (addChild st inodeId ii x DirentType.DT_Directory impliedDirInode)
          st.nextFuseInodeID (y :: rest)

/-- Shape of the inode table at any point of the build: the keys are the ids
from the root id up to the counter, every child id is a later id than its
parent and below the counter, and the offsets count the children from 1. -/
structure WF (st : BuildState) : Prop where
  keys : st.inodeTable.map Prod.fst = List.range' 1 (st.nextFuseInodeID - 1)
  next_ge : 2 ≤ st.nextFuseInodeID
  child_lt : ∀ k ii, tableGet st.inodeTable k = some ii →
    ∀ d ∈ ii.Children, k < d.Inode ∧ d.Inode < st.nextFuseInodeID
  offsets : ∀ k ii, tableGet st.inodeTable k = some ii →
    ∀ i (h : i < ii.Children.length), (ii.Children.get ⟨i, h⟩).Offset = i + 1

/-- The build only grows the table: `st2` keeps every inode of `st1` with its
attributes and kind, and its children as the leading children. -/
def Ext (st1 st2 : BuildState) : Prop :=
  st1.nextFuseInodeID ≤ st2.nextFuseInodeID ∧
  ∀ k ii, tableGet st1.inodeTable k = some ii →
    ∃ ii2, tableGet st2.inodeTable k = some ii2 ∧ ii2.Attributes = ii.Attributes ∧
      ii2.Dir = ii.Dir ∧ ii.Children <+: ii2.Children

/-- The path segments of an entry. -/
def segsOf (e : entry) : List GoString := splitSlash e.filePath

/-- Descent from `inodeId` along the names `segs`, each step the way
`findChildInode` picks a child. -/
def walk (tbl : List (Nat × InodeInfo)) : Nat → List GoString → Option Nat
  | inodeId, [] => some inodeId
  | inodeId, x :: xs =>
    match tableGet tbl inodeId with
    | none => none
    | some ii =>
      match findChildInode x ii.Children with
      | .ok c => walk tbl c xs
      | .fail _ => none

/-- The tree of a build over entries of pairwise different paths, with `gp`
the path of segments that leads to each inode: child entries extend the path
of their parent by their name, names are unique within a directory, every
inode is found by walking its path from the root, the path of every inode
but the root satisfies `C`, the path of every non-directory inode satisfies
`F`, and a child entry is tagged a directory exactly when its inode is one. -/
structure TreeInv (st : BuildState) (C F : List GoString → Prop)
    (gp : Nat → List GoString) : Prop where
  root : gp RootInodeID = []
  child_path : ∀ k ii, tableGet st.inodeTable k = some ii →
    ∀ d ∈ ii.Children, gp d.Inode = gp k ++ [d.Name]
  names : ∀ k ii, tableGet st.inodeTable k = some ii → (ii.Children.map Dirent.Name).Nodup
  reach : ∀ k ii, tableGet st.inodeTable k = some ii →
    walk st.inodeTable RootInodeID (gp k) = some k
  covered : ∀ k ii, tableGet st.inodeTable k = some ii → k ≠ RootInodeID →
    C (gp k) ∧ gp k ≠ []
  file_inode : ∀ k ii, tableGet st.inodeTable k = some ii → ii.Dir = false → F (gp k)
  kind : ∀ k ii, tableGet st.inodeTable k = some ii → ∀ d ∈ ii.Children,
    ∃ ci, tableGet st.inodeTable d.Inode = some ci ∧
      (d.Typ = DirentType.DT_Directory ↔ ci.Dir = true)

/-- The entry `e` has its inode: the inode at the path of `e` carries the
attributes and the kind of a leaf made for `e`. -/
def Resolved (st : BuildState) (gp : Nat → List GoString) (e : entry) : Prop :=
  ∃ k ii, gp k = segsOf e ∧ tableGet st.inodeTable k = some ii ∧
    ii.Attributes = (leafInode e).Attributes ∧ ii.Dir = e.isDir

/-- A path of segments lies on the way to one of the entries `done`. -/
def covBy (done : List entry) (q : List GoString) : Prop :=
  ∃ e ∈ done, q <+: segsOf e

/-- A path of segments is the path of a non-directory entry of `done`. -/
def fileBy (done : List entry) (q : List GoString) : Prop :=
  ∃ f ∈ done, f.isDir = false ∧ segsOf f = q

/-- Resolution of a path, segment by segment, with `LookUpInode`: the result of
the lookup of the last segment, or the first failure. -/
def resolvePath (t : Tgz) : Nat → List GoString → Outcome (Nat × InodeAttributes)
  | _, [] => .fail .ENOENT
  | parent, [x] => LookUpInode t parent x
  | parent, x :: y :: rest =>
    match LookUpInode t parent x with
    | .ok (child, _) => resolvePath t child (y :: rest)
    | .fail e => .fail e

/-- The normalized entry paths of an archive are pairwise different. -/
def DistinctPaths (archive : List TarEntry) : Prop :=
  (archive.map fun th => filepathClean th.Name).Nodup

instance (archive : List TarEntry) : Decidable (DistinctPaths archive) := by
  unfold DistinctPaths; infer_instance

/-- The path segments of the normalized name of a tar member. -/
def memberSegs (th : TarEntry) : List GoString := splitSlash (filepathClean th.Name)

/-- The proper, non-empty prefixes of a path of segments: the directories on
the way to it. -/
def properPrefixes (segs : List GoString) : List (List GoString) :=
  segs.inits.filter fun q => decide (q ≠ [] ∧ q ≠ segs)

/-- The directory paths an archive induces: the paths of its directory
members and the proper prefixes of the paths of all members. -/
def dirPaths (archive : List TarEntry) : List (List GoString) :=
  (archive.filter fun th => th.IsDir).map memberSegs
    ++ archive.flatMap fun th => properPrefixes (memberSegs th)

/-- The number `D` of distinct directory paths of an archive. -/
def countD (archive : List TarEntry) : Nat := (dirPaths archive).dedup.length

/-- The number `F` of file members of an archive. -/
def countF (archive : List TarEntry) : Nat := (archive.filter fun th => !th.IsDir).length

/-- No file member's path is a directory on the way to another member. -/
def NoFileAsDir (archive : List TarEntry) : Prop :=
  ∀ f ∈ archive, f.IsDir = false →
    ∀ e ∈ archive, ¬ (memberSegs f <+: memberSegs e ∧ memberSegs f ≠ memberSegs e)

instance (archive : List TarEntry) : Decidable (NoFileAsDir archive) := by
  unfold NoFileAsDir; infer_instance

/-- Two directory members with the same name. -/
def twoDirs : List TarEntry :=
  [ { Name := "a/".toList, IsDir := true, Size := 0, Data := [] },
    { Name := "a/".toList, IsDir := true, Size := 0, Data := [] } ]

/-- A file member `a` and a file member below it, `a/b`. -/
def fileAsDir : List TarEntry :=
  [ { Name := "a".toList, IsDir := false, Size := 1, Data := "x".toList },
    { Name := "a/b".toList, IsDir := false, Size := 1, Data := "y".toList } ]

/-- The path `buildDentry` hands down along the names `segs` from the root:
`filepath.Join` of the path so far and the next name, starting from the
empty path. -/
def recon (segs : List GoString) : GoString := segs.foldl filepathJoin []

/-- A path element that `filepath.Clean` keeps as it is. -/
def isReal (s : GoString) : Prop := s ≠ [] ∧ s ≠ ['.'] ∧ s ≠ dotdot ∧ '/' ∉ s

/-- The elements of a cleaned relative path: some `..` first, then elements
kept as they are. -/
def Normal (segs : List GoString) : Prop :=
  ∃ dd reals, segs = dd ++ reals ∧ (∀ s ∈ dd, s = dotdot) ∧ ∀ s ∈ reals, isReal s

/-- Inode `k2` is reached from `k` through child entries tagged as
directories: the inodes the walk of `buildDentry` from `k` visits. -/
inductive DirReach (tbl : List (Nat × InodeInfo)) : Nat → Nat → Prop
  | refl (k : Nat) : DirReach tbl k k
  | step {k k2 : Nat} {ii : InodeInfo} {d : Dirent} :
      tableGet tbl k = some ii → d ∈ ii.Children → d.Typ = DirentType.DT_Directory →
      DirReach tbl d.Inode k2 → DirReach tbl k k2

/-- Two file members with the same name and different content. -/
def twoFiles : List TarEntry :=
  [ { Name := "a".toList, IsDir := false, Size := 1, Data := "x".toList },
    { Name := "a".toList, IsDir := false, Size := 1, Data := "y".toList } ]

/-- A file member with a rooted name. -/
def rootedFile : List TarEntry :=
  [ { Name := "/a".toList, IsDir := false, Size := 1, Data := "x".toList } ]

/-! ## Concrete archives -/

/-- Scenario 1 of the specification: two files under `a`. -/
def scenario1 : List TarEntry :=
  [ { Name := "a/b.txt".toList, IsDir := false, Size := 2, Data := "hi".toList },
    { Name := "a/c/d.txt".toList, IsDir := false, Size := 2, Data := "yo".toList } ]

/-- The receiver `buildInodeTable` leaves for `scenario1`. -/
def scenario1Tgz : Tgz :=
  { opener := scenario1,
    inodeTable :=
      [ (1, { Attributes := { Size := 0, Nlink := 1, Mode := 0o555 ||| ModeDir }, Dir := true,
              Children := [{ Offset := 1, Inode := 2, Name := "a".toList,
                             Typ := DirentType.DT_Directory }] }),
        (2, { Attributes := { Size := 0, Nlink := 0, Mode := 0o555 ||| ModeDir }, Dir := true,
              Children := [{ Offset := 1, Inode := 3, Name := "b.txt".toList,
                             Typ := DirentType.DT_File },
                           { Offset := 2, Inode := 4, Name := "c".toList,
                             Typ := DirentType.DT_Directory }] }),
        (3, { Attributes := { Size := 2, Nlink := 1, Mode := 0o444 }, Dir := false,
              Children := [] }),
        (4, { Attributes := { Size := 0, Nlink := 0, Mode := 0o555 ||| ModeDir }, Dir := true,
              Children := [{ Offset := 1, Inode := 5, Name := "d.txt".toList,
                             Typ := DirentType.DT_File }] }),
        (5, { Attributes := { Size := 2, Nlink := 1, Mode := 0o444 }, Dir := false,
              Children := [] }) ],
    direntTable := [(3, "a/b.txt".toList), (5, "a/c/d.txt".toList)] }

/-- An archive of one file `a` with the two bytes `hi`. -/
def oneFile : List TarEntry :=
  [ { Name := "a".toList, IsDir := false, Size := 2, Data := "hi".toList } ]

/-- The receiver `buildInodeTable` leaves for `oneFile`. -/
def oneFileTgz : Tgz :=
  { opener := oneFile,
    inodeTable :=
      [ (1, { Attributes := { Size := 0, Nlink := 1, Mode := 0o555 ||| ModeDir }, Dir := true,
              Children := [{ Offset := 1, Inode := 2, Name := "a".toList,
                             Typ := DirentType.DT_File }] }),
        (2, { Attributes := { Size := 2, Nlink := 1, Mode := 0o444 }, Dir := false,
              Children := [] }) ],
    direntTable := [(2, "a".toList)] }

/-- Two file members of the same name that differ in size. -/
def tiedFiles : List TarEntry :=
  [ { Name := "a".toList, IsDir := false, Size := 1, Data := "x".toList },
    { Name := "a".toList, IsDir := false, Size := 2, Data := "yz".toList } ]

/-- Scenario 1 with its two members in the other order. -/
def scenario1Rev : List TarEntry :=
  [ { Name := "a/c/d.txt".toList, IsDir := false, Size := 2, Data := "yo".toList },
    { Name := "a/b.txt".toList, IsDir := false, Size := 2, Data := "hi".toList } ]

/-- A file below the directory `d`, followed by the directory member `d/`
itself. -/
def nestedFirst : List TarEntry :=
  [ { Name := "d/f".toList, IsDir := false, Size := 1, Data := "x".toList },
    { Name := "d/".toList, IsDir := true, Size := 0, Data := [] } ]

/-- The file `big` of 40000 bytes: 35000 bytes `x`, then 5000 bytes `y`. -/
def bigMember : TarEntry :=
  { Name := "big".toList, IsDir := false, Size := 40000,
    Data := List.replicate 35000 'x' ++ List.replicate 5000 'y' }

/-- The archive of the one file `big`. -/
def bigFile : List TarEntry := [bigMember]

/-- Length of the decompressed stream up to the end of the last member of the
archive. -/
def streamLen (archive : List TarEntry) : Nat :=
  (archive.map fun th => blockSize + paddedSize th.Data.length).sum

/-- The child ids of all child lists of the inode table, one occurrence per
directory entry. -/
def allChildIds (tbl : List (Nat × InodeInfo)) : List Nat :=
  tbl.flatMap fun p => p.2.Children.map Dirent.Inode

/-- Inode `k2` is reached from `k` by following child entries. -/
inductive Reach (tbl : List (Nat × InodeInfo)) : Nat → Nat → Prop
  | refl (k : Nat) : Reach tbl k k
  | step {k k2 : Nat} {ii : InodeInfo} {d : Dirent} :
      tableGet tbl k = some ii → d ∈ ii.Children → Reach tbl d.Inode k2 → Reach tbl k k2

/-- Every id after the root id and below the counter is the child id of
exactly one directory entry of the table. -/
def ChildIds (st : BuildState) : Prop :=
  (allChildIds st.inodeTable).Perm (List.range' 2 (st.nextFuseInodeID - 2))

/-- Descent from `inodeId` along the names `segs`, each step the way
`buildHelper` picks a child: the last child of that name. -/
def walkL (tbl : List (Nat × InodeInfo)) : Nat → List GoString → Option Nat
  | inodeId, [] => some inodeId
  | inodeId, x :: xs =>
    match tableGet tbl inodeId with
    | none => none
    | some ii =>
      match findChild x ii.Children with
      | (true, c) => walkL tbl c xs
      | (false, _) => none

/-- Inode `k` lies at the path of names `q` below the root. -/
inductive PathTo (tbl : List (Nat × InodeInfo)) : Nat → List GoString → Prop
  | root : PathTo tbl RootInodeID []
  | step {k : Nat} {q : List GoString} {ii : InodeInfo} {d : Dirent} :
      PathTo tbl k q → tableGet tbl k = some ii → d ∈ ii.Children →
      PathTo tbl d.Inode (q ++ [d.Name])

/-- The part of the tree invariant that holds for every archive, with `gp` the
path of segments that leads to each inode: child entries extend the path of
their parent by their name, the path of every inode but the root satisfies
`C`, the path of every non-directory inode satisfies `F`, and a child entry is
tagged a directory exactly when its inode is one. -/
structure PathInv (st : BuildState) (C F : List GoString → Prop)
    (gp : Nat → List GoString) : Prop where
  root : gp RootInodeID = []
  child_path : ∀ k ii, tableGet st.inodeTable k = some ii →
    ∀ d ∈ ii.Children, gp d.Inode = gp k ++ [d.Name]
  covered : ∀ k ii, tableGet st.inodeTable k = some ii → k ≠ RootInodeID →
    C (gp k) ∧ gp k ≠ []
  file_inode : ∀ k ii, tableGet st.inodeTable k = some ii → ii.Dir = false → F (gp k)
  kind : ∀ k ii, tableGet st.inodeTable k = some ii → ∀ d ∈ ii.Children,
    ∃ ci, tableGet st.inodeTable d.Inode = some ci ∧
      (d.Typ = DirentType.DT_Directory ↔ ci.Dir = true)

/-- The part of the tree invariant that rests on the sorted order: every inode
with children is the one `buildHelper` finds at its path, and two inodes share
a path only if `cnt` counts at least two entries for it. -/
structure LastInv (st : BuildState) (cnt : List GoString → Nat)
    (gp : Nat → List GoString) : Prop where
  lastwalk : ∀ k ii, tableGet st.inodeTable k = some ii → ii.Children ≠ [] →
    walkL st.inodeTable RootInodeID (gp k) = some k
  uniq : ∀ k1 k2 i1 i2, tableGet st.inodeTable k1 = some i1 →
    tableGet st.inodeTable k2 = some i2 → gp k1 = gp k2 → k1 ≠ k2 → 2 ≤ cnt (gp k1)

/-- The number of entries of `done` with the path of segments `q`. -/
def cntBy (done : List entry) (q : List GoString) : Nat :=
  (done.filter fun e => decide (segsOf e = q)).length

/-- The ids of the children of every inode are pairwise different. -/
def ChildNodup (st : BuildState) : Prop :=
  ∀ k ii, tableGet st.inodeTable k = some ii → (ii.Children.map Dirent.Inode).Nodup

/-! ## Association lists -/

theorem tableGet_tableSet {β : Type} (m : List (Nat × β)) (k k2 : Nat) (v : β) :
    tableGet (tableSet m k v) k2 = if k = k2 then some v else tableGet m k2 := by
  induction m with
  | nil => simp [tableSet, tableGet]
  | cons p m ih =>
    obtain ⟨k1, v1⟩ := p
    by_cases h1 : k1 = k
    · subst h1
      by_cases h2 : k1 = k2 <;> simp [tableSet, tableGet, h2]
    · by_cases h2 : k = k2
      · subst h2
        simp [tableSet, tableGet, h1, ih]
      · simp [tableSet, tableGet, h1, ih, h2]

theorem tableGet_isSome_iff {β : Type} (m : List (Nat × β)) (k : Nat) :
    (∃ v, tableGet m k = some v) ↔ k ∈ m.map Prod.fst := by
  induction m with
  | nil => simp [tableGet]
  | cons p m ih =>
    obtain ⟨k1, v1⟩ := p
    by_cases h1 : k1 = k
    · simp [tableGet, h1]
    · have h2 : ¬ k = k1 := fun h => h1 h.symm
      simp [tableGet, h1, h2, ih]

theorem tableGet_eq_none_iff {β : Type} (m : List (Nat × β)) (k : Nat) :
    tableGet m k = none ↔ k ∉ m.map Prod.fst := by
  rw [← tableGet_isSome_iff]
  cases h : tableGet m k <;> simp

theorem tableSet_keys_of_mem {β : Type} (m : List (Nat × β)) (k : Nat) (v : β)
    (h : k ∈ m.map Prod.fst) : (tableSet m k v).map Prod.fst = m.map Prod.fst := by
  induction m with
  | nil => simp at h
  | cons p m ih =>
    obtain ⟨k1, v1⟩ := p
    by_cases h1 : k1 = k
    · simp [tableSet, h1]
    · have h2 : ¬ k = k1 := fun h => h1 h.symm
      have hm : k ∈ m.map Prod.fst := by simpa [h2] using h
      simp [tableSet, h1, ih hm]

theorem tableSet_keys_of_not_mem {β : Type} (m : List (Nat × β)) (k : Nat) (v : β)
    (h : k ∉ m.map Prod.fst) : (tableSet m k v).map Prod.fst = m.map Prod.fst ++ [k] := by
  induction m with
  | nil => simp [tableSet]
  | cons p m ih =>
    obtain ⟨k1, v1⟩ := p
    have h1 : ¬ k1 = k := by
      intro e; apply h; simp [e]
    have hm : k ∉ m.map Prod.fst := by
      intro e; apply h; simp only [List.map_cons, List.mem_cons]; exact Or.inr e
    simp [tableSet, h1, ih hm]

/-! ## Shape of the inode table during the build -/

theorem WF.mem_iff {st : BuildState} (h : WF st) (k : Nat) :
    (∃ ii, tableGet st.inodeTable k = some ii) ↔ 1 ≤ k ∧ k < st.nextFuseInodeID := by
  rw [tableGet_isSome_iff, h.keys, List.mem_range']
  have := h.next_ge
  constructor
  · rintro ⟨i, hi, rfl⟩; omega
  · rintro ⟨h1, h2⟩; exact ⟨k - 1, by omega, by omega⟩

theorem WF.next_not_mem {st : BuildState} (h : WF st) :
    tableGet st.inodeTable st.nextFuseInodeID = none := by
  cases hg : tableGet st.inodeTable st.nextFuseInodeID with
  | none => rfl
  | some ii => have := (h.mem_iff _).1 ⟨ii, hg⟩; omega

theorem tableGet_addChild (st : BuildState) (inodeId : Nat) (ii : InodeInfo) (name : GoString)
    (typ : DirentType) (newInode : InodeInfo) (k : Nat) :
    tableGet (addChild st inodeId ii name typ newInode).inodeTable k =
      if st.nextFuseInodeID = k then some newInode
      else if inodeId = k then
        some { ii with Children := ii.Children ++
          [{ Offset := ii.Children.length + 1, Inode := st.nextFuseInodeID,
             Name := name, Typ := typ }] }
      else tableGet st.inodeTable k := by
  simp [addChild, tableGet_tableSet]

theorem wf_init :
    WF { inodeTable := tableSet [] RootInodeID rootInode, nextFuseInodeID := RootInodeID + 1 } := by
  refine ⟨by simp [tableSet, RootInodeID], by simp [RootInodeID], ?_, ?_⟩
  · intro k ii hk d hd
    simp only [tableSet, tableGet] at hk
    split at hk
    · cases hk; simp [rootInode] at hd
    · cases hk
  · intro k ii hk i hi
    simp only [tableSet, tableGet] at hk
    split at hk
    · cases hk; simp [rootInode] at hi
    · cases hk

theorem wf_addChild {st : BuildState} (h : WF st) {inodeId : Nat} {ii : InodeInfo}
    (hget : tableGet st.inodeTable inodeId = some ii) (name : GoString) (typ : DirentType)
    (newInode : InodeInfo) (hnew : newInode.Children = []) :
    WF (addChild st inodeId ii name typ newInode) := by
  have hid := (h.mem_iff inodeId).1 ⟨ii, hget⟩
  have hne : st.nextFuseInodeID ≠ inodeId := by omega
  refine ⟨?_, ?_, ?_, ?_⟩
  · have hmem : inodeId ∈ st.inodeTable.map Prod.fst := (tableGet_isSome_iff _ _).1 ⟨ii, hget⟩
    have hk1 := tableSet_keys_of_mem st.inodeTable inodeId
      { ii with Children := ii.Children ++
          [{ Offset := ii.Children.length + 1, Inode := st.nextFuseInodeID,
             Name := name, Typ := typ }] } hmem
    have hnot : st.nextFuseInodeID ∉ st.inodeTable.map Prod.fst :=
      (tableGet_eq_none_iff _ _).1 h.next_not_mem
    have hge := h.next_ge
    simp only [addChild]
    rw [tableSet_keys_of_not_mem _ _ _ (by rw [hk1]; exact hnot), hk1, h.keys]
    have e1 : st.nextFuseInodeID + 1 - 1 = (st.nextFuseInodeID - 1) + 1 := by omega
    rw [e1, List.range'_1_concat]
    congr 2
    omega
  · have := h.next_ge
    simp only [addChild]; omega
  · intro k ii2 hk d hd
    rw [tableGet_addChild] at hk
    simp only [addChild]
    split at hk
    · cases hk; simp [hnew] at hd
    · split at hk
      · cases hk
        rename_i hik
        subst hik
        simp only [List.mem_append, List.mem_singleton] at hd
        rcases hd with hd | hd
        · have := h.child_lt _ _ hget d hd; omega
        · subst hd; simp only; omega
      · have := h.child_lt _ _ hk d hd; omega
  · intro k ii2 hk i hi
    rw [tableGet_addChild] at hk
    split at hk
    · cases hk; simp [hnew] at hi
    · split at hk
      · cases hk
        simp only [List.length_append, List.length_singleton] at hi
        by_cases hlt : i < ii.Children.length
        · simp only [List.get_eq_getElem]
          rw [List.getElem_append_left hlt]
          simpa using h.offsets _ _ hget i hlt
        · have hi2 : i = ii.Children.length := by omega
          subst hi2
          simp [List.get_eq_getElem]
      · exact h.offsets _ _ hk i hi

theorem ext_refl (st : BuildState) : Ext st st :=
  ⟨Nat.le_refl _, fun _ ii hk => ⟨ii, hk, rfl, rfl, List.prefix_refl _⟩⟩

theorem ext_trans {a b c : BuildState} (h1 : Ext a b) (h2 : Ext b c) : Ext a c := by
  refine ⟨Nat.le_trans h1.1 h2.1, ?_⟩
  intro k ii hk
  obtain ⟨ii2, hk2, ha2, hd2, hp2⟩ := h1.2 k ii hk
  obtain ⟨ii3, hk3, ha3, hd3, hp3⟩ := h2.2 k ii2 hk2
  exact ⟨ii3, hk3, ha3.trans ha2, hd3.trans hd2, hp2.trans hp3⟩

theorem ext_addChild {st : BuildState} (h : WF st) {inodeId : Nat} {ii : InodeInfo}
    (hget : tableGet st.inodeTable inodeId = some ii) (name : GoString) (typ : DirentType)
    (newInode : InodeInfo) : Ext st (addChild st inodeId ii name typ newInode) := by
  refine ⟨by simp [addChild], ?_⟩
  intro k ii1 hk
  have hkn : st.nextFuseInodeID ≠ k := by
    intro e; subst e; rw [h.next_not_mem] at hk; cases hk
  rw [tableGet_addChild]
  by_cases hik : inodeId = k
  · subst hik
    rw [hget] at hk; cases hk
    refine ⟨{ ii with Children := ii.Children ++
          [{ Offset := ii.Children.length + 1, Inode := st.nextFuseInodeID,
             Name := name, Typ := typ }] }, by simp [hkn], rfl, rfl, List.prefix_append _ _⟩
  · exact ⟨ii1, by simp [hkn, hik, hk], rfl, rfl, List.prefix_refl _⟩

/-- Closure `findChild` reports a child of the table when it reports a hit. -/
theorem findChild_true {pfx : GoString} {cs : List Dirent} {c : Nat}
    (h : findChild pfx cs = (true, c)) : ∃ d ∈ cs, d.Name = pfx ∧ d.Inode = c := by
  unfold findChild at h
  have key : ∀ (cs : List Dirent) (acc : Bool × Nat),
      cs.foldl (fun acc d => if d.Name = pfx then (true, d.Inode) else acc) acc = (true, c) →
      acc = (true, c) ∨ ∃ d ∈ cs, d.Name = pfx ∧ d.Inode = c := by
    intro cs
    induction cs with
    | nil => intro acc h; exact Or.inl (by simpa using h)
    | cons d ds ih =>
      intro acc h
      simp only [List.foldl_cons] at h
      rcases ih _ h with h1 | ⟨d2, hd2, hn, hi⟩
      · by_cases hn : d.Name = pfx
        · simp only [hn, if_true] at h1
          right; exact ⟨d, by simp, hn, by simpa using h1⟩
        · simp only [hn, if_false] at h1
          exact Or.inl h1
      · right; exact ⟨d2, by simp [hd2], hn, hi⟩
  rcases key cs _ h with h1 | h1
  · simp at h1
  · exact h1

theorem findChild_false {pfx : GoString} {cs : List Dirent} {c : Nat}
    (h : findChild pfx cs = (false, c)) : ∀ d ∈ cs, d.Name ≠ pfx := by
  unfold findChild at h
  have key : ∀ (cs : List Dirent) (acc : Bool × Nat),
      (cs.foldl (fun acc d => if d.Name = pfx then (true, d.Inode) else acc) acc).1 = false →
      acc.1 = false ∧ ∀ d ∈ cs, d.Name ≠ pfx := by
    intro cs
    induction cs with
    | nil => intro acc h; exact ⟨by simpa using h, by simp⟩
    | cons d ds ih =>
      intro acc h
      simp only [List.foldl_cons] at h
      obtain ⟨h1, h2⟩ := ih _ h
      by_cases hn : d.Name = pfx
      · simp [hn] at h1
      · simp only [hn, if_false] at h1
        refine ⟨h1, ?_⟩
        intro d2 hd2
        simp only [List.mem_cons] at hd2
        rcases hd2 with rfl | hd2
        · exact hn
        · exact h2 d2 hd2
  exact (key cs _ (by rw [h])).2

/-- On a well-shaped table `buildHelper` returns, keeps the shape and only
grows the table. -/
theorem insertSegs_wf (isDir : Bool) (size : Nat) :
    ∀ (segs : List GoString) (st : BuildState) (inodeId : Nat), segs ≠ [] → WF st →
      (∃ ii, tableGet st.inodeTable inodeId = some ii) →
      ∃ st2, insertSegs isDir size st inodeId segs = some st2 ∧ WF st2 ∧ Ext st st2 := by
  intro segs
  induction segs with
  | nil => intro st inodeId h; exact absurd rfl h
  | cons x rest ih =>
    intro st inodeId _ hwf ⟨ii, hget⟩
    cases rest with
    | nil =>
      refine ⟨addChild st inodeId ii x
        (if isDir then DirentType.DT_Directory else DirentType.DT_File)
        (leafInode { filePath := x, isDir := isDir, size := size }),
        by simp [insertSegs, findInodeInfo, hget], ?_, ?_⟩
      · apply wf_addChild hwf hget
        unfold leafInode; split <;> rfl
      · exact ext_addChild hwf hget _ _ _
    | cons y rest =>
      cases hf : findChild x ii.Children with
      | mk found c =>
        cases found with
        | true =>
          obtain ⟨d, hd, _, hc⟩ := findChild_true hf
          have hlt := hwf.child_lt _ _ hget d hd
          have hmem : ∃ ii2, tableGet st.inodeTable c = some ii2 :=
            (hwf.mem_iff c).2 (by omega)
          obtain ⟨st2, h1, h2, h3⟩ := ih st c (by simp) hwf hmem
          exact ⟨st2, by simp [insertSegs, findInodeInfo, hget, hf, h1], h2, h3⟩
        | false =>
          have hwf2 := wf_addChild hwf hget x DirentType.DT_Directory impliedDirInode rfl
          have hext := ext_addChild hwf hget x DirentType.DT_Directory impliedDirInode
          have hmem : ∃ ii2, tableGet
              (addChild st inodeId ii x DirentType.DT_Directory impliedDirInode).inodeTable
              st.nextFuseInodeID = some ii2 :=
            ⟨impliedDirInode, by simp [tableGet_addChild]⟩
          obtain ⟨st2, h1, h2, h3⟩ := ih _ st.nextFuseInodeID (by simp) hwf2 hmem
          exact ⟨st2, by simp [insertSegs, findInodeInfo, hget, hf, h1], h2, ext_trans hext h3⟩

/-! ## Paths and their segments -/

theorem splitSlash_ne_nil (p : GoString) : splitSlash p ≠ [] := by
  cases p with
  | nil => simp [splitSlash]
  | cons c cs =>
    unfold splitSlash
    split
    · simp
    · split <;> simp

theorem splitSlash_of_index_none {p : GoString} (h : stringsIndexSlash p = none) :
    splitSlash p = [p] := by
  induction p with
  | nil => rfl
  | cons c cs ih =>
    unfold stringsIndexSlash at h
    by_cases hc : c = '/'
    · simp [hc] at h
    · simp only [hc, if_false, Option.map_eq_none'] at h
      simp [splitSlash, hc, ih h]

theorem splitSlash_of_index_some {p : GoString} {i : Nat} (h : stringsIndexSlash p = some i) :
    splitSlash p = p.take i :: splitSlash (p.drop (i + 1)) ∧ (p.drop (i + 1)).length < p.length := by
  induction p generalizing i with
  | nil => simp [stringsIndexSlash] at h
  | cons c cs ih =>
    unfold stringsIndexSlash at h
    by_cases hc : c = '/'
    · simp only [hc, if_true, Option.some.injEq] at h
      subst h
      simp [splitSlash, hc]
    · simp only [hc, if_false, Option.map_eq_some'] at h
      obtain ⟨j, hj, rfl⟩ := h
      obtain ⟨h1, h2⟩ := ih hj
      refine ⟨?_, ?_⟩
      · simp [splitSlash, hc, h1]
      · simp only [List.drop_succ_cons, List.length_cons]
        omega

/-- Closure `buildHelper` on a path is `insertSegs` on the segments of the
path, whenever the bound exceeds the length of the path. -/
theorem buildHelperFuel_eq_insertSegs (isDir : Bool) (size : Nat) :
    ∀ (fuel : Nat) (st : BuildState) (inodeId : Nat) (p : GoString), p.length < fuel →
      buildHelperFuel fuel st inodeId { filePath := p, isDir := isDir, size := size }
        = insertSegs isDir size st inodeId (splitSlash p) := by
  intro fuel
  induction fuel with
  | zero => intro st inodeId p h; omega
  | succ fuel ih =>
    intro st inodeId p hlen
    cases hget : findInodeInfo st inodeId with
    | none =>
      obtain ⟨x, rest, hs⟩ := List.exists_cons_of_ne_nil (splitSlash_ne_nil p)
      rw [hs]
      cases rest <;> simp [buildHelperFuel, insertSegs, hget]
    | some ii =>
      cases hidx : stringsIndexSlash p with
      | none =>
        rw [splitSlash_of_index_none hidx]
        simp [buildHelperFuel, insertSegs, hget, hidx, addChild]
      | some i =>
        obtain ⟨hs, hl⟩ := splitSlash_of_index_some hidx
        obtain ⟨y, rest, hs2⟩ := List.exists_cons_of_ne_nil (splitSlash_ne_nil (p.drop (i + 1)))
        rw [hs, hs2]
        simp only [buildHelperFuel, insertSegs, hget, hidx]
        cases hf : findChild (List.take i p) ii.Children with
        | mk found c =>
          cases found with
          | true =>
            simp only []
            rw [ih _ _ _ (by omega), hs2]
          | false =>
            simp only []
            rw [ih _ _ _ (by omega), hs2]
            rfl

theorem buildHelper_eq_insertSegs (st : BuildState) (inodeId : Nat) (ent : entry) :
    buildHelper st inodeId ent
      = insertSegs ent.isDir ent.size st inodeId (splitSlash ent.filePath) := by
  unfold buildHelper
  exact buildHelperFuel_eq_insertSegs ent.isDir ent.size _ st inodeId ent.filePath (by omega)

theorem wf_root_mem {st : BuildState} (h : WF st) :
    ∃ ii, tableGet st.inodeTable RootInodeID = some ii :=
  (h.mem_iff _).2 ⟨by simp [RootInodeID], by have := h.next_ge; simp [RootInodeID]; omega⟩

/-- One `buildHelper` call from the root returns and keeps the shape. -/
theorem buildHelper_wf {st : BuildState} (h : WF st) (ent : entry) :
    ∃ st2, buildHelper st RootInodeID ent = some st2 ∧ WF st2 ∧ Ext st st2 := by
  rw [buildHelper_eq_insertSegs]
  exact insertSegs_wf _ _ _ _ _ (splitSlash_ne_nil _) h (wf_root_mem h)

theorem foldlM_buildHelper_wf (temp : List entry) :
    ∀ st, WF st →
      ∃ st2, temp.foldlM (fun st ent => buildHelper st RootInodeID ent) st = some st2 ∧
        WF st2 ∧ Ext st st2 := by
  induction temp with
  | nil => intro st h; exact ⟨st, rfl, h, ext_refl st⟩
  | cons e es ih =>
    intro st h
    obtain ⟨st1, h1, hw1, he1⟩ := buildHelper_wf h e
    obtain ⟨st2, h2, hw2, he2⟩ := ih st1 hw1
    exact ⟨st2, by simp [List.foldlM_cons, h1, h2], hw2, ext_trans he1 he2⟩

/-- The loop over the sorted entries never panics. -/
theorem buildTree_wf (temp : List entry) :
    ∃ st, buildTree temp = some st ∧ WF st := by
  obtain ⟨st, h1, h2, _⟩ := foldlM_buildHelper_wf temp _ wf_init
  exact ⟨st, h1, h2⟩

/-! ## The walk of `buildDentry` returns -/

theorem foldlM_option_inv {α β : Type} (P : β → Prop) (f : β → α → Option β) (l : List α)
    (step : ∀ a ∈ l, ∀ b, P b → ∃ b2, f b a = some b2 ∧ P b2) :
    ∀ b, P b → ∃ b2, l.foldlM f b = some b2 ∧ P b2 := by
  induction l with
  | nil => intro b hb; exact ⟨b, rfl, hb⟩
  | cons a l ih =>
    intro b hb
    obtain ⟨b1, h1, hp1⟩ := step a (by simp) b hb
    obtain ⟨b2, h2, hp2⟩ := ih (fun a2 ha2 => step a2 (by simp [ha2])) b1 hp1
    exact ⟨b2, by simp [List.foldlM_cons, h1, h2], hp2⟩

/-- With a bound of at least the number of ids from `inodeId` up to the
counter, `buildDentry` returns on a well-shaped table. -/
theorem buildDentryFuel_isSome {st : BuildState} (h : WF st) :
    ∀ (fuel inodeId : Nat) (pfx : GoString) (dt : List (Nat × GoString)),
      1 ≤ inodeId → inodeId < st.nextFuseInodeID → st.nextFuseInodeID - inodeId ≤ fuel →
      ∃ dt2, buildDentryFuel fuel st.inodeTable pfx inodeId dt = some dt2 := by
  intro fuel
  induction fuel with
  | zero => intro inodeId pfx dt h1 h2 h3; omega
  | succ fuel ih =>
    intro inodeId pfx dt h1 h2 h3
    obtain ⟨ii, hget⟩ := (h.mem_iff inodeId).2 ⟨h1, h2⟩
    simp only [buildDentryFuel, hget]
    have := foldlM_option_inv (fun _ => True)
      (fun dt d =>
        if d.Typ = DirentType.DT_Directory then
          buildDentryFuel fuel st.inodeTable (filepathJoin pfx d.Name) d.Inode dt
        else some (tableSet dt d.Inode (filepathJoin pfx d.Name)))
      ii.Children
      (by
        intro d hd b _
        have hlt := h.child_lt _ _ hget d hd
        by_cases ht : d.Typ = DirentType.DT_Directory
        · obtain ⟨dt2, h2⟩ := ih d.Inode (filepathJoin pfx d.Name) b (by omega) hlt.2 (by omega)
          exact ⟨dt2, by simp [ht, h2], trivial⟩
        · exact ⟨tableSet b d.Inode (filepathJoin pfx d.Name), by simp [ht], trivial⟩)
      dt trivial
    obtain ⟨dt2, h2, _⟩ := this
    exact ⟨dt2, h2⟩

theorem WF.length_eq {st : BuildState} (h : WF st) :
    st.inodeTable.length = st.nextFuseInodeID - 1 := by
  have := congrArg List.length h.keys
  simpa using this

/-- Method `buildInodeTable` returns for every archive: the tree of the sorted
entries, well-shaped, and the path index of the walk from the root. -/
theorem buildInodeTable_total (archive : List TarEntry) :
    ∃ st dt, buildTree (sortSlice (scanEntries archive)) = some st ∧ WF st ∧
      buildDentryFuel st.inodeTable.length st.inodeTable [] RootInodeID [] = some dt ∧
      buildInodeTable archive
        = some { opener := archive, inodeTable := st.inodeTable, direntTable := dt } := by
  obtain ⟨st, hst, hwf⟩ := buildTree_wf (sortSlice (scanEntries archive))
  have hge := hwf.next_ge
  obtain ⟨dt, hdt⟩ := buildDentryFuel_isSome hwf st.inodeTable.length RootInodeID [] []
    (by simp [RootInodeID]) (by simp [RootInodeID]; omega)
    (by rw [hwf.length_eq]; simp [RootInodeID])
  exact ⟨st, dt, hst, hwf, hdt, by simp [buildInodeTable, hst, hdt]⟩

/-! ## ReadDir -/

theorem direntLen_pos (d : Dirent) : 0 < direntLen d := by
  unfold direntLen; simp

theorem writeDirent_eq_zero_iff (n : Nat) (d : Dirent) :
    WriteDirent n d = 0 ↔ n < direntLen d := by
  have hp := direntLen_pos d
  unfold WriteDirent
  split <;> omega

theorem writeDirent_of_fit (n : Nat) (d : Dirent) (h : direntLen d ≤ n) :
    WriteDirent n d = direntLen d := by
  unfold WriteDirent
  split <;> omega

/-- The loop of `ReadDir` writes the longest run of leading entries whose
serialised sizes fit into the space left. -/
theorem readDirLoop_spec (dstLen : Nat) (es : List Dirent) :
    ∀ (written : List Dirent) (b : Nat), b ≤ dstLen →
      ∃ m, m ≤ es.length ∧
        readDirLoop dstLen es written b
          = (written ++ es.take m, b + ((es.take m).map direntLen).sum) ∧
        b + ((es.take m).map direntLen).sum ≤ dstLen ∧
        ∀ h : m < es.length,
          dstLen < b + ((es.take m).map direntLen).sum + direntLen (es.get ⟨m, h⟩) := by
  induction es with
  | nil =>
    intro written b hb
    exact ⟨0, by simp, by simp [readDirLoop], by simpa using hb, by intro h; simp at h⟩
  | cons e es ih =>
    intro written b hb
    by_cases hfit : direntLen e ≤ dstLen - b
    · obtain ⟨m, hm, hrun, hsum, hnext⟩ := ih (written ++ [e]) (b + direntLen e) (by omega)
      refine ⟨m + 1, by simpa using hm, ?_, ?_, ?_⟩
      · have hne : direntLen e ≠ 0 := (direntLen_pos e).ne'
        simp [readDirLoop, writeDirent_of_fit _ _ hfit, hne, hrun, Nat.add_assoc]
      · simpa [Nat.add_assoc] using hsum
      · intro h
        have h1 : m < es.length := by simpa using h
        simpa [Nat.add_assoc] using hnext h1
    · have hz : WriteDirent (dstLen - b) e = 0 := (writeDirent_eq_zero_iff _ _).2 (by omega)
      refine ⟨0, by simp, by simp [readDirLoop, hz], by simpa using hb, ?_⟩
      intro _
      simp
      omega

/-- A buffer with room for every entry receives every entry. -/
theorem readDirLoop_all (dstLen : Nat) (es : List Dirent) :
    ∀ (written : List Dirent) (b : Nat), b + (es.map direntLen).sum ≤ dstLen →
      readDirLoop dstLen es written b = (written ++ es, b + (es.map direntLen).sum) := by
  induction es with
  | nil => intro written b _; simp [readDirLoop]
  | cons e es ih =>
    intro written b hb
    simp only [List.map_cons, List.sum_cons] at hb
    have hfit : direntLen e ≤ dstLen - b := by omega
    have hne : direntLen e ≠ 0 := (direntLen_pos e).ne'
    simp [readDirLoop, writeDirent_of_fit _ _ hfit, hne, ih (written ++ [e]) (b + direntLen e)
      (by omega), Nat.add_assoc]

/-- Children whose offsets count up from `base + 1`: the ones with an offset
above `s` are the ones from position `s - base` on. -/
theorem filter_offset_eq_drop (s : Nat) :
    ∀ (cs : List Dirent) (base : Nat),
      (∀ i (h : i < cs.length), (cs.get ⟨i, h⟩).Offset = base + i + 1) →
      cs.filter (fun d => decide (s < d.Offset)) = cs.drop (s - base) := by
  intro cs
  induction cs with
  | nil => intro base _; simp
  | cons c cs ih =>
    intro base h
    have h0 : c.Offset = base + 1 := by simpa using h 0 (by simp)
    have hrest : ∀ i (hi : i < cs.length), (cs.get ⟨i, hi⟩).Offset = (base + 1) + i + 1 := by
      intro i hi
      have := h (i + 1) (by simpa using hi)
      simp only [List.get_eq_getElem, List.getElem_cons_succ] at this
      simp only [List.get_eq_getElem]
      omega
    have ih2 := ih (base + 1) hrest
    by_cases hs : s ≤ base
    · have e1 : s - base = 0 := by omega
      have e2 : s - (base + 1) = 0 := by omega
      rw [e2, List.drop_zero] at ih2
      rw [e1, List.drop_zero, List.filter_cons, ih2]
      simp [h0]; omega
    · have e1 : s - base = (s - (base + 1)) + 1 := by omega
      rw [e1, List.drop_succ_cons, List.filter_cons, ih2]
      simp [h0]; omega

/-! ## LookUpInode -/

theorem findChildInode_ok {name : GoString} {cs : List Dirent} {c : Nat}
    (h : findChildInode name cs = .ok c) : ∃ d ∈ cs, d.Name = name ∧ d.Inode = c := by
  induction cs with
  | nil => simp [findChildInode] at h
  | cons d ds ih =>
    unfold findChildInode at h
    split at h
    · rename_i hn
      exact ⟨d, by simp, hn, by simpa using h⟩
    · obtain ⟨d2, hd2, hn2, hi2⟩ := ih h
      exact ⟨d2, by simp [hd2], hn2, hi2⟩

theorem findChildInode_fail {name : GoString} {cs : List Dirent} {e : Failure}
    (h : findChildInode name cs = .fail e) : e = .ENOENT ∧ ∀ d ∈ cs, d.Name ≠ name := by
  induction cs with
  | nil =>
    simp only [findChildInode, Outcome.fail.injEq] at h
    exact ⟨h.symm, by simp⟩
  | cons d ds ih =>
    unfold findChildInode at h
    split at h
    · cases h
    · rename_i hn
      obtain ⟨h1, h2⟩ := ih h
      refine ⟨h1, ?_⟩
      intro d2 hd2
      simp only [List.mem_cons] at hd2
      rcases hd2 with rfl | hd2
      · exact hn
      · exact h2 d2 hd2

/-! ## The order of `strings.Compare` and the sort -/

theorem stringsCompare_refl (a : GoString) : stringsCompare a a = 0 := by
  induction a with
  | nil => rfl
  | cons c cs ih => simp [stringsCompare, ih]

theorem stringsCompare_total (a b : GoString) :
    stringsCompare a b ≤ 0 ∨ stringsCompare b a ≤ 0 := by
  induction a generalizing b with
  | nil => cases b <;> simp [stringsCompare]
  | cons c cs ih =>
    cases b with
    | nil => simp [stringsCompare]
    | cons d ds =>
      simp only [stringsCompare]
      by_cases h1 : c.toNat < d.toNat
      · simp [h1]
      · by_cases h2 : d.toNat < c.toNat
        · simp [h1, h2]
        · simpa [h1, h2] using ih ds

theorem stringsCompare_trans (a b c : GoString) :
    stringsCompare a b ≤ 0 → stringsCompare b c ≤ 0 → stringsCompare a c ≤ 0 := by
  induction a generalizing b c with
  | nil => intro _ _; cases c <;> simp [stringsCompare]
  | cons x xs ih =>
    cases b with
    | nil => simp [stringsCompare]
    | cons y ys =>
      cases c with
      | nil => intro _ h; simp [stringsCompare] at h
      | cons z zs =>
        simp only [stringsCompare]
        intro h1 h2
        by_cases hxy : x.toNat < y.toNat
        · by_cases hyz : y.toNat < z.toNat
          · have : x.toNat < z.toNat := by omega
            simp [this]
          · by_cases hzy : z.toNat < y.toNat
            · simp [hyz, hzy] at h2
            · have : x.toNat < z.toNat := by omega
              simp [this]
        · by_cases hyx : y.toNat < x.toNat
          · simp [hxy, hyx] at h1
          · simp only [hxy, hyx, if_false] at h1
            by_cases hyz : y.toNat < z.toNat
            · have : x.toNat < z.toNat := by omega
              simp [this]
            · by_cases hzy : z.toNat < y.toNat
              · simp [hyz, hzy] at h2
              · simp only [hyz, hzy, if_false] at h2
                have e1 : ¬ x.toNat < z.toNat := by omega
                have e2 : ¬ z.toNat < x.toNat := by omega
                simpa [e1, e2] using ih ys zs h1 h2

/-- A path that continues another one compares greater. -/
theorem stringsCompare_append_pos (a q : GoString) (hq : q ≠ []) :
    stringsCompare (a ++ q) a = 1 := by
  induction a with
  | nil =>
    cases q with
    | nil => exact absurd rfl hq
    | cons c cs => rfl
  | cons c cs ih => simp [stringsCompare, ih]

theorem insertLeft_perm (x : entry) (run : List entry) :
    (insertLeft x run).Perm (x :: run) := by
  induction run with
  | nil => simp [insertLeft]
  | cons y ys ih =>
    unfold insertLeft
    split
    · exact (List.Perm.cons y ih).trans (List.Perm.swap x y ys)
    · exact List.Perm.refl _

theorem insertLeft_sorted (x : entry) (run : List entry)
    (h : run.Pairwise (fun a b => lessEntry b a = true)) :
    (insertLeft x run).Pairwise (fun a b => lessEntry b a = true) := by
  induction run with
  | nil => simp [insertLeft]
  | cons y ys ih =>
    obtain ⟨hy, hys⟩ := List.pairwise_cons.1 h
    unfold insertLeft
    split
    · rename_i hxy
      refine List.pairwise_cons.2 ⟨?_, ih hys⟩
      intro z hz
      rcases (List.mem_cons.1 ((insertLeft_perm x ys).subset hz)) with rfl | hz
      · exact hxy
      · exact hy z hz
    · rename_i hxy
      have hyx : lessEntry y x = true := by
        rcases stringsCompare_total x.filePath y.filePath with h1 | h1
        · exact absurd (by simpa [lessEntry] using h1) hxy
        · simpa [lessEntry] using h1
      refine List.pairwise_cons.2 ⟨?_, h⟩
      intro z hz
      rcases List.mem_cons.1 hz with rfl | hz
      · exact hyx
      · have hzy := hy z hz
        simp only [lessEntry, decide_eq_true_eq] at hzy hyx ⊢
        exact stringsCompare_trans _ _ _ hzy hyx

theorem foldl_insertLeft_spec (temp : List entry) :
    ∀ run : List entry, run.Pairwise (fun a b => lessEntry b a = true) →
      (temp.foldl (fun run x => insertLeft x run) run).Pairwise (fun a b => lessEntry b a = true) ∧
      (temp.foldl (fun run x => insertLeft x run) run).Perm (temp.reverse ++ run) := by
  induction temp with
  | nil => intro run h; exact ⟨h, by simp⟩
  | cons x xs ih =>
    intro run h
    obtain ⟨h1, h2⟩ := ih (insertLeft x run) (insertLeft_sorted x run h)
    refine ⟨h1, h2.trans ?_⟩
    simp only [List.reverse_cons, List.append_assoc, List.singleton_append]
    exact List.Perm.append_left _ (insertLeft_perm x run)

/-- The sort returns a permutation of its input. -/
theorem sortSlice_perm (temp : List entry) : (sortSlice temp).Perm temp := by
  have h := (foldl_insertLeft_spec temp [] List.Pairwise.nil).2
  simp only [List.append_nil] at h
  exact (List.reverse_perm _).trans (h.trans (List.reverse_perm _))

/-- The sort returns the entries in non-decreasing order of path. -/
theorem sortSlice_sorted (temp : List entry) :
    (sortSlice temp).Pairwise (fun a b => lessEntry a b = true) := by
  have h := (foldl_insertLeft_spec temp [] List.Pairwise.nil).1
  exact List.pairwise_reverse.2 h

/-! ## Walks through the tree -/

theorem findChildInode_prefix {x : GoString} {cs cs2 : List Dirent} {c : Nat}
    (h : findChildInode x cs = .ok c) (hp : cs <+: cs2) : findChildInode x cs2 = .ok c := by
  obtain ⟨t, rfl⟩ := hp
  induction cs with
  | nil => simp [findChildInode] at h
  | cons d ds ih =>
    simp only [List.cons_append]
    unfold findChildInode at h ⊢
    split
    · rename_i hn; simpa [hn] using h
    · rename_i hn; simp only [hn, if_false] at h; exact ih h

theorem findChildInode_append_new {x : GoString} {cs : List Dirent} (d : Dirent)
    (hno : ∀ c ∈ cs, c.Name ≠ x) (hd : d.Name = x) :
    findChildInode x (cs ++ [d]) = .ok d.Inode := by
  induction cs with
  | nil => simp [findChildInode, hd]
  | cons c cs ih =>
    have h1 : ¬ c.Name = x := hno c (by simp)
    simp only [List.cons_append, findChildInode, h1, if_false]
    exact ih (fun c2 hc2 => hno c2 (by simp [hc2]))

theorem walk_mono {st1 st2 : BuildState} (hext : Ext st1 st2) :
    ∀ (segs : List GoString) (s r : Nat), walk st1.inodeTable s segs = some r →
      walk st2.inodeTable s segs = some r := by
  intro segs
  induction segs with
  | nil => intro s r h; simpa [walk] using h
  | cons x xs ih =>
    intro s r h
    simp only [walk] at h ⊢
    cases hg : tableGet st1.inodeTable s with
    | none => simp [hg] at h
    | some ii =>
      obtain ⟨ii2, hg2, _, _, hp⟩ := hext.2 s ii hg
      simp only [hg] at h
      cases hc : findChildInode x ii.Children with
      | fail e => simp [hc] at h
      | ok c =>
        simp only [hc] at h
        simp only [hg2, findChildInode_prefix hc hp]
        exact ih c r h

theorem walk_append (tbl : List (Nat × InodeInfo)) :
    ∀ (q r : List GoString) (s : Nat),
      walk tbl s (q ++ r) = (walk tbl s q).bind (fun k => walk tbl k r) := by
  intro q
  induction q with
  | nil => intro r s; simp [walk]
  | cons x xs ih =>
    intro r s
    simp only [List.cons_append, walk]
    cases hg : tableGet tbl s with
    | none => simp
    | some ii =>
      cases hc : findChildInode x ii.Children with
      | fail e => simp [hc]
      | ok c => simp only [hc]; exact ih r c

/-! ## The tree invariant -/

theorem TreeInv.mono {st : BuildState} {C F C2 F2 : List GoString → Prop}
    {gp : Nat → List GoString} (h : TreeInv st C F gp)
    (hC : ∀ q, C q → C2 q) (hF : ∀ q, F q → F2 q) : TreeInv st C2 F2 gp :=
  { root := h.root
    child_path := h.child_path
    names := h.names
    reach := h.reach
    covered := fun k ii hk hr => ⟨hC _ (h.covered k ii hk hr).1, (h.covered k ii hk hr).2⟩
    file_inode := fun k ii hk hd => hF _ (h.file_inode k ii hk hd)
    kind := h.kind }

theorem treeInv_init :
    TreeInv { inodeTable := tableSet [] RootInodeID rootInode, nextFuseInodeID := RootInodeID + 1 }
      (fun _ => False) (fun _ => False) (fun _ => []) := by
  have hget : ∀ k ii, tableGet (tableSet [] RootInodeID rootInode) k = some ii →
      k = RootInodeID ∧ ii = rootInode := by
    intro k ii hk
    simp only [tableSet, tableGet] at hk
    split at hk
    · rename_i h; cases hk; exact ⟨h.symm, rfl⟩
    · cases hk
  refine ⟨rfl, ?_, ?_, ?_, ?_, ?_, ?_⟩
  · intro k ii hk d hd
    obtain ⟨_, rfl⟩ := hget k ii hk
    simp [rootInode] at hd
  · intro k ii hk
    obtain ⟨_, rfl⟩ := hget k ii hk
    simp [rootInode]
  · intro k ii hk
    obtain ⟨rfl, _⟩ := hget k ii hk
    simp [walk]
  · intro k ii hk hne
    exact absurd (hget k ii hk).1 hne
  · intro k ii hk hd
    obtain ⟨_, rfl⟩ := hget k ii hk
    simp [rootInode] at hd
  · intro k ii hk d hd
    obtain ⟨_, rfl⟩ := hget k ii hk
    simp [rootInode] at hd

/-- Hanging a new child of a fresh name under an inode keeps the tree
invariant, with the path of the new inode the path of the parent extended by
the name. -/
theorem treeInv_addChild {st : BuildState} {C F : List GoString → Prop}
    {gp : Nat → List GoString} (hwf : WF st) (hinv : TreeInv st C F gp)
    {inodeId : Nat} {ii : InodeInfo} (hget : tableGet st.inodeTable inodeId = some ii)
    (x : GoString) (typ : DirentType) (newInode : InodeInfo)
    (hnew : newInode.Children = [])
    (hname : ∀ d ∈ ii.Children, d.Name ≠ x)
    (hcov : C (gp inodeId ++ [x]))
    (hkind : typ = DirentType.DT_Directory ↔ newInode.Dir = true)
    (hfile : newInode.Dir = false → F (gp inodeId ++ [x])) :
    TreeInv (addChild st inodeId ii x typ newInode) C F
      (Function.update gp st.nextFuseInodeID (gp inodeId ++ [x])) := by
  have hid := (hwf.mem_iff inodeId).1 ⟨ii, hget⟩
  have hge := hwf.next_ge
  have hext := ext_addChild hwf hget x typ newInode
  have hgp_old : ∀ k, k < st.nextFuseInodeID →
      Function.update gp st.nextFuseInodeID (gp inodeId ++ [x]) k = gp k := by
    intro k hk
    exact Function.update_noteq (by omega) _ _
  have hgp_new : Function.update gp st.nextFuseInodeID (gp inodeId ++ [x]) st.nextFuseInodeID
      = gp inodeId ++ [x] := Function.update_same _ _ _
  have hold : ∀ k ii2, tableGet st.inodeTable k = some ii2 → k < st.nextFuseInodeID :=
    fun k ii2 hk => ((hwf.mem_iff k).1 ⟨ii2, hk⟩).2
  refine ⟨?_, ?_, ?_, ?_, ?_, ?_, ?_⟩
  · rw [hgp_old _ (by simp [RootInodeID]; omega)]; exact hinv.root
  · intro k ii2 hk d hd
    rw [tableGet_addChild] at hk
    split at hk
    · cases hk; simp [hnew] at hd
    · split at hk
      · cases hk
        rename_i hik
        subst hik
        rw [hgp_old _ hid.2]
        simp only [List.mem_append, List.mem_singleton] at hd
        rcases hd with hd | hd
        · rw [hgp_old _ (hwf.child_lt _ _ hget d hd).2]
          exact hinv.child_path _ _ hget d hd
        · subst hd; exact hgp_new
      · rw [hgp_old _ (hold k ii2 hk), hgp_old _ (hwf.child_lt _ _ hk d hd).2]
        exact hinv.child_path _ _ hk d hd
  · intro k ii2 hk
    rw [tableGet_addChild] at hk
    split at hk
    · cases hk; simp [hnew]
    · split at hk
      · cases hk
        simp only [List.map_append, List.map_cons, List.map_nil]
        refine List.Nodup.append (hinv.names _ _ hget) (List.nodup_singleton _) ?_
        intro a ha hb
        simp only [List.mem_singleton] at hb
        subst hb
        obtain ⟨d, hd, hda⟩ := List.mem_map.1 ha
        exact hname d hd hda
      · exact hinv.names _ _ hk
  · intro k ii2 hk
    rw [tableGet_addChild] at hk
    by_cases hkn : st.nextFuseInodeID = k
    · subst hkn
      rw [hgp_new, walk_append]
      have h1 := walk_mono hext _ _ _ (hinv.reach _ _ hget)
      rw [h1]
      have hne : st.nextFuseInodeID ≠ inodeId := by omega
      simp only [Option.some_bind, walk]
      rw [tableGet_addChild]
      simp only [hne, if_false, if_true]
      rw [findChildInode_append_new _ hname rfl]
    · have hk2 : tableGet st.inodeTable k = some ii2 ∨
          (inodeId = k ∧ tableGet st.inodeTable k = some ii) := by
        simp only [hkn, if_false] at hk
        split at hk
        · rename_i hik; right; exact ⟨hik, hik ▸ hget⟩
        · left; exact hk
      have hk3 : ∃ ii3, tableGet st.inodeTable k = some ii3 := by
        rcases hk2 with h | h
        · exact ⟨_, h⟩
        · exact ⟨_, h.2⟩
      obtain ⟨ii3, hk3⟩ := hk3
      rw [hgp_old _ (hold k ii3 hk3)]
      exact walk_mono hext _ _ _ (hinv.reach _ _ hk3)
  · intro k ii2 hk hne
    rw [tableGet_addChild] at hk
    by_cases hkn : st.nextFuseInodeID = k
    · subst hkn
      rw [hgp_new]
      exact ⟨hcov, by simp⟩
    · simp only [hkn, if_false] at hk
      have hk3 : ∃ ii3, tableGet st.inodeTable k = some ii3 := by
        split at hk
        · rename_i hik; exact ⟨ii, hik ▸ hget⟩
        · exact ⟨_, hk⟩
      obtain ⟨ii3, hk3⟩ := hk3
      rw [hgp_old _ (hold k ii3 hk3)]
      exact hinv.covered _ _ hk3 hne
  · intro k ii2 hk hdir
    rw [tableGet_addChild] at hk
    by_cases hkn : st.nextFuseInodeID = k
    · subst hkn
      simp only [if_true, Option.some.injEq] at hk
      subst hk
      rw [hgp_new]
      exact hfile hdir
    · simp only [hkn, if_false] at hk
      split at hk
      · rename_i hik
        cases hk
        subst hik
        rw [hgp_old _ hid.2]
        exact hinv.file_inode _ _ hget hdir
      · rw [hgp_old _ (hold k ii2 hk)]
        exact hinv.file_inode _ _ hk hdir
  · intro k ii2 hk d hd
    have hnewget : tableGet (addChild st inodeId ii x typ newInode).inodeTable
        st.nextFuseInodeID = some newInode := by
      rw [tableGet_addChild]; simp
    have hpres : ∀ k2 (ii3 : InodeInfo) (d2 : Dirent), tableGet st.inodeTable k2 = some ii3 →
        d2 ∈ ii3.Children →
        ∃ ci, tableGet (addChild st inodeId ii x typ newInode).inodeTable d2.Inode = some ci ∧
          (d2.Typ = DirentType.DT_Directory ↔ ci.Dir = true) := by
      intro k2 ii3 d2 hk2 hd2
      obtain ⟨ci, hci, hiff⟩ := hinv.kind k2 ii3 hk2 d2 hd2
      obtain ⟨ci2, hci2, _, hdir2, _⟩ := hext.2 _ _ hci
      exact ⟨ci2, hci2, by rw [hdir2]; exact hiff⟩
    rw [tableGet_addChild] at hk
    split at hk
    · cases hk; simp [hnew] at hd
    · split at hk
      · cases hk
        simp only [List.mem_append, List.mem_singleton] at hd
        rcases hd with hd | hd
        · exact hpres _ _ _ hget hd
        · subst hd
          exact ⟨newInode, hnewget, hkind⟩
      · exact hpres _ _ _ hk hd

theorem leafInode_children (ent : entry) : (leafInode ent).Children = [] := by
  unfold leafInode; split <;> rfl

theorem leafInode_dir (ent : entry) : (leafInode ent).Dir = ent.isDir := by
  unfold leafInode; split <;> simp_all

theorem leafInode_congr (x : GoString) (ent : entry) :
    leafInode { filePath := x, isDir := ent.isDir, size := ent.size } = leafInode ent := by
  unfold leafInode; rfl

/-- One descent of `buildHelper` for an entry whose path `S` is not on the way
to an earlier entry: it returns, and the tree invariant then also accounts
for the inodes of this entry. -/
theorem insertSegs_treeInv (ent : entry) (S : List GoString)
    (C F : List GoString → Prop) (hfresh : ¬ C S) :
    ∀ (rest : List GoString) (st : BuildState) (inodeId : Nat) (gp : Nat → List GoString),
      rest ≠ [] → WF st →
      TreeInv st (fun q => C q ∨ (q <+: S ∧ q ≠ S))
        (fun q => F q ∨ (ent.isDir = false ∧ q = S)) gp →
      (∃ ii, tableGet st.inodeTable inodeId = some ii) → gp inodeId ++ rest = S →
      ∃ st2 gp2, insertSegs ent.isDir ent.size st inodeId rest = some st2 ∧ WF st2 ∧
        Ext st st2 ∧
        TreeInv st2 (fun q => C q ∨ q <+: S) (fun q => F q ∨ (ent.isDir = false ∧ q = S)) gp2 ∧
        (∀ k, k < st.nextFuseInodeID → gp2 k = gp k) ∧
        (∃ k ii, gp2 k = S ∧ tableGet st2.inodeTable k = some ii ∧
          ii.Attributes = (leafInode ent).Attributes ∧ ii.Dir = ent.isDir) := by
  intro rest
  induction rest with
  | nil => intro st inodeId gp h; exact absurd rfl h
  | cons x rest ih =>
    intro st inodeId gp _ hwf hinv ⟨ii, hget⟩ hS
    have hid := (hwf.mem_iff inodeId).1 ⟨ii, hget⟩
    cases rest with
    | nil =>
      have hname : ∀ d ∈ ii.Children, d.Name ≠ x := by
        intro d hd hdx
        have hp := hinv.child_path _ _ hget d hd
        rw [hdx, hS] at hp
        have hlt := hwf.child_lt _ _ hget d hd
        obtain ⟨ci, hci⟩ := (hwf.mem_iff d.Inode).2 ⟨by omega, hlt.2⟩
        have hc := (hinv.covered _ _ hci (by simp [RootInodeID]; omega)).1
        rw [hp] at hc
        rcases hc with hc | hc
        · exact hfresh hc
        · exact hc.2 rfl
      have hinv2 : TreeInv st (fun q => C q ∨ q <+: S)
          (fun q => F q ∨ (ent.isDir = false ∧ q = S)) gp :=
        hinv.mono (fun q hq => hq.imp id (fun h => h.1)) (fun _ h => h)
      have hnewInv := treeInv_addChild hwf hinv2 hget x
        (if ent.isDir then DirentType.DT_Directory else DirentType.DT_File)
        (leafInode { filePath := x, isDir := ent.isDir, size := ent.size })
        (leafInode_children _) hname
        (Or.inr (by rw [hS]))
        (by rw [leafInode_dir]; cases ent.isDir <;> simp)
        (by intro h; rw [leafInode_dir] at h; exact Or.inr ⟨h, hS⟩)
      refine ⟨_, _, by simp [insertSegs, findInodeInfo, hget], ?_, ?_, hnewInv, ?_, ?_⟩
      · exact wf_addChild hwf hget _ _ _ (leafInode_children _)
      · exact ext_addChild hwf hget _ _ _
      · intro k hk
        exact Function.update_noteq (by omega) _ _
      · refine ⟨st.nextFuseInodeID,
          leafInode { filePath := x, isDir := ent.isDir, size := ent.size }, ?_, ?_, ?_, ?_⟩
        · rw [Function.update_same, hS]
        · rw [tableGet_addChild]; simp
        · rw [leafInode_congr]
        · rw [leafInode_congr, leafInode_dir]
    | cons y rest =>
      cases hf : findChild x ii.Children with
      | mk found c =>
        cases found with
        | true =>
          obtain ⟨d, hd, hdx, hc⟩ := findChild_true hf
          have hlt := hwf.child_lt _ _ hget d hd
          have hmem : ∃ ii2, tableGet st.inodeTable c = some ii2 :=
            (hwf.mem_iff c).2 (by omega)
          have hp := hinv.child_path _ _ hget d hd
          rw [hdx, hc] at hp
          obtain ⟨st2, gp2, h1, h2, h3, h4, h5, h6⟩ :=
            ih st c gp (by simp) hwf hinv hmem (by rw [hp, ← hS]; simp)
          exact ⟨st2, gp2, by simp [insertSegs, findInodeInfo, hget, hf, h1], h2, h3, h4, h5, h6⟩
        | false =>
          have hname := findChild_false hf
          have hwf2 := wf_addChild hwf hget x DirentType.DT_Directory impliedDirInode rfl
          have hext := ext_addChild hwf hget x DirentType.DT_Directory impliedDirInode
          have hinv2 := treeInv_addChild hwf hinv hget x DirentType.DT_Directory impliedDirInode
            rfl hname
            (Or.inr ⟨⟨y :: rest, by rw [← hS]; simp⟩, by
              intro h
              have := congrArg List.length h
              rw [← hS] at this
              simp at this⟩)
            (by simp [impliedDirInode])
            (by simp [impliedDirInode])
          have hmem : ∃ ii2, tableGet
              (addChild st inodeId ii x DirentType.DT_Directory impliedDirInode).inodeTable
              st.nextFuseInodeID = some ii2 :=
            ⟨impliedDirInode, by simp [tableGet_addChild]⟩
          obtain ⟨st2, gp2, h1, h2, h3, h4, h5, h6⟩ :=
            ih _ st.nextFuseInodeID _ (by simp) hwf2 hinv2 hmem
              (by rw [Function.update_same, ← hS]; simp)
          refine ⟨st2, gp2, by simp [insertSegs, findInodeInfo, hget, hf, h1], h2,
            ext_trans hext h3, h4, ?_, h6⟩
          intro k hk
          rw [h5 k (by simp only [addChild]; omega)]
          exact Function.update_noteq (by omega) _ _

theorem resolved_ext {st st2 : BuildState} {gp gp2 : Nat → List GoString} {e : entry}
    (hwf : WF st) (hext : Ext st st2) (hgp : ∀ k, k < st.nextFuseInodeID → gp2 k = gp k)
    (h : Resolved st gp e) : Resolved st2 gp2 e := by
  obtain ⟨k, ii, h1, h2, h3, h4⟩ := h
  obtain ⟨ii2, hk2, ha, hd, _⟩ := hext.2 k ii h2
  have hlt := ((hwf.mem_iff k).1 ⟨ii, h2⟩).2
  exact ⟨k, ii2, by rw [hgp k hlt, h1], hk2, by rw [ha, h3], by rw [hd, h4]⟩

/-- The loop over entries none of which lies on the way to a later one keeps
the tree invariant and gives every entry its inode. -/
theorem foldlM_buildHelper_treeInv :
    ∀ (rest done : List entry) (st : BuildState) (gp : Nat → List GoString),
      (done ++ rest).Pairwise (fun a b => ¬ segsOf b <+: segsOf a) → WF st →
      TreeInv st (covBy done) (fileBy done) gp → (∀ e ∈ done, Resolved st gp e) →
      ∃ st2 gp2, rest.foldlM (fun st ent => buildHelper st RootInodeID ent) st = some st2 ∧
        WF st2 ∧ TreeInv st2 (covBy (done ++ rest)) (fileBy (done ++ rest)) gp2 ∧
        ∀ e ∈ done ++ rest, Resolved st2 gp2 e := by
  intro rest
  induction rest with
  | nil =>
    intro done st gp _ hwf hinv hres
    exact ⟨st, gp, rfl, hwf, by simpa using hinv, by simpa using hres⟩
  | cons e rest ih =>
    intro done st gp hpw hwf hinv hres
    have hfresh : ¬ covBy done (segsOf e) := by
      rintro ⟨a, ha, hpre⟩
      exact (List.pairwise_append.1 hpw).2.2 a ha e (by simp) hpre
    obtain ⟨st1, gp1, h1, hwf1, hext1, hinv1, hgp1, hres1⟩ :=
      insertSegs_treeInv e (segsOf e) (covBy done) (fileBy done) hfresh (segsOf e) st
        RootInodeID gp (splitSlash_ne_nil _) hwf
        (hinv.mono (fun _ h => Or.inl h) (fun _ h => Or.inl h)) (wf_root_mem hwf)
        (by rw [hinv.root]; rfl)
    have hinv1b : TreeInv st1 (covBy (done ++ [e])) (fileBy (done ++ [e])) gp1 := by
      refine hinv1.mono ?_ ?_
      · rintro q (⟨a, ha, hq⟩ | hq)
        · exact ⟨a, by simp [ha], hq⟩
        · exact ⟨e, by simp, hq⟩
      · rintro q (⟨a, ha, hq⟩ | ⟨hd, hq⟩)
        · exact ⟨a, by simp [ha], hq⟩
        · exact ⟨e, by simp, hd, hq.symm⟩
    have hres1b : ∀ a ∈ done ++ [e], Resolved st1 gp1 a := by
      intro a ha
      rcases List.mem_append.1 ha with ha | ha
      · exact resolved_ext hwf hext1 hgp1 (hres a ha)
      · simp only [List.mem_singleton] at ha
        subst ha
        obtain ⟨k, ii, hk1, hk2, hk3, hk4⟩ := hres1
        exact ⟨k, ii, hk1, hk2, hk3, hk4⟩
    obtain ⟨st2, gp2, h2, hwf2, hinv2, hres2⟩ :=
      ih (done ++ [e]) st1 gp1 (by simpa using hpw) hwf1 hinv1b hres1b
    refine ⟨st2, gp2, ?_, hwf2, by simpa using hinv2, by simpa using hres2⟩
    rw [List.foldlM_cons, buildHelper_eq_insertSegs]
    simp only [segsOf] at h1
    rw [h1]
    exact h2

/-! ## Sorted entries of pairwise different paths -/

theorem joinSlash_splitSlash (p : GoString) : joinSlash (splitSlash p) = p := by
  induction p with
  | nil => rfl
  | cons c cs ih =>
    unfold splitSlash
    by_cases hc : c = '/'
    · simp only [hc, if_true]
      obtain ⟨y, rest, hs⟩ := List.exists_cons_of_ne_nil (splitSlash_ne_nil cs)
      rw [hs] at ih ⊢
      simp [joinSlash, ih]
    · simp only [hc, if_false]
      obtain ⟨y, rest, hs⟩ := List.exists_cons_of_ne_nil (splitSlash_ne_nil cs)
      rw [hs] at ih ⊢
      cases rest with
      | nil => simpa [joinSlash] using ih
      | cons z zs =>
        simp only [joinSlash] at ih ⊢
        simp [← ih]

theorem joinSlash_append (a b : List GoString) (ha : a ≠ []) (hb : b ≠ []) :
    joinSlash (a ++ b) = joinSlash a ++ '/' :: joinSlash b := by
  induction a with
  | nil => exact absurd rfl ha
  | cons x xs ih =>
    cases xs with
    | nil =>
      obtain ⟨y, ys, rfl⟩ := List.exists_cons_of_ne_nil hb
      simp [joinSlash]
    | cons z zs =>
      have := ih (by simp)
      simp only [List.cons_append] at this ⊢
      simp [joinSlash, this]

/-- A path that sorts before a different path does not continue it. -/
theorem not_prefix_of_sorted {p q : GoString} (hle : stringsCompare p q ≤ 0) (hne : p ≠ q) :
    ¬ splitSlash q <+: splitSlash p := by
  rintro ⟨t, ht⟩
  cases t with
  | nil =>
    apply hne
    have := congrArg joinSlash ht
    simp only [List.append_nil, joinSlash_splitSlash] at this
    exact this.symm
  | cons y ys =>
    have := congrArg joinSlash ht
    rw [joinSlash_append _ _ (splitSlash_ne_nil q) (by simp), joinSlash_splitSlash,
      joinSlash_splitSlash] at this
    rw [← this, stringsCompare_append_pos q _ (by simp)] at hle
    omega

theorem scanEntries_paths (archive : List TarEntry) :
    (scanEntries archive).map entry.filePath = archive.map fun th => filepathClean th.Name := by
  simp [scanEntries]

/-- In the sorted entries of an archive of pairwise different normalized paths
no entry lies on the way to an earlier one. -/
theorem sorted_fresh (archive : List TarEntry) (hd : DistinctPaths archive) :
    (sortSlice (scanEntries archive)).Pairwise (fun a b => ¬ segsOf b <+: segsOf a) := by
  have hs := sortSlice_sorted (scanEntries archive)
  have hn : ((sortSlice (scanEntries archive)).map entry.filePath).Nodup := by
    have hp := (sortSlice_perm (scanEntries archive)).map entry.filePath
    rw [hp.nodup_iff, scanEntries_paths]
    exact hd
  have hn2 : (sortSlice (scanEntries archive)).Pairwise
      (fun a b => a.filePath ≠ b.filePath) := by
    unfold List.Nodup at hn
    exact List.pairwise_map.1 hn
  refine (hs.and hn2).imp ?_
  rintro a b ⟨h1, h2⟩
  simp only [lessEntry, decide_eq_true_eq] at h1
  exact not_prefix_of_sorted h1 h2

/-- The build on an archive of pairwise different normalized paths: the tree
is well-shaped, satisfies the tree invariant for the sorted entries, and every
entry has its inode. -/
theorem buildInodeTable_treeInv (archive : List TarEntry) (hd : DistinctPaths archive) :
    ∃ st dt gp, buildTree (sortSlice (scanEntries archive)) = some st ∧ WF st ∧
      TreeInv st (covBy (sortSlice (scanEntries archive)))
        (fileBy (sortSlice (scanEntries archive))) gp ∧
      (∀ e ∈ sortSlice (scanEntries archive), Resolved st gp e) ∧
      buildDentryFuel st.inodeTable.length st.inodeTable [] RootInodeID [] = some dt ∧
      buildInodeTable archive
        = some { opener := archive, inodeTable := st.inodeTable, direntTable := dt } := by
  obtain ⟨st, dt, hst, hwf, hdt, hb⟩ := buildInodeTable_total archive
  obtain ⟨st2, gp, h1, _, h3, h4⟩ :=
    foldlM_buildHelper_treeInv (sortSlice (scanEntries archive)) [] _ (fun _ => [])
      (by simpa using sorted_fresh archive hd) wf_init
      (treeInv_init.mono (fun _ h => h.elim) (fun _ h => h.elim)) (by simp)
  have heq : st2 = st := by
    have : buildTree (sortSlice (scanEntries archive)) = some st2 := h1
    rw [hst] at this
    exact (Option.some.inj this).symm
  subst heq
  exact ⟨st2, dt, gp, hst, hwf, by simpa using h3, by simpa using h4, hdt, hb⟩

/-! ## Resolution with LookUpInode -/

theorem walk_step {tbl : List (Nat × InodeInfo)} {s r : Nat} {x : GoString}
    {xs : List GoString} (h : walk tbl s (x :: xs) = some r) :
    ∃ ii c, tableGet tbl s = some ii ∧ findChildInode x ii.Children = .ok c ∧
      walk tbl c xs = some r := by
  simp only [walk] at h
  cases hg : tableGet tbl s with
  | none => simp [hg] at h
  | some ii =>
    simp only [hg] at h
    cases hc : findChildInode x ii.Children with
    | fail e => simp [hc] at h
    | ok c =>
      simp only [hc] at h
      exact ⟨ii, c, rfl, hc, h⟩

/-- A walk that ends at a stored inode is a chain of successful lookups. -/
theorem resolvePath_of_walk (t : Tgz) :
    ∀ (segs : List GoString) (s r : Nat) (ri : InodeInfo), segs ≠ [] →
      walk t.inodeTable s segs = some r → tableGet t.inodeTable r = some ri →
      resolvePath t s segs = .ok (r, ri.Attributes) := by
  intro segs
  induction segs with
  | nil => intro s r ri h; exact absurd rfl h
  | cons x xs ih =>
    intro s r ri _ hw hr
    obtain ⟨ii, c, hg, hc, hw2⟩ := walk_step hw
    cases xs with
    | nil =>
      simp only [walk, Option.some.injEq] at hw2
      subst hw2
      simp [resolvePath, LookUpInode, hg, hc, hr]
    | cons y ys =>
      obtain ⟨ci, _, hcg, _, _⟩ := walk_step hw2
      have hl : LookUpInode t s x = .ok (c, ci.Attributes) := by
        simp [LookUpInode, hg, hc, hcg]
      simp only [resolvePath, hl]
      exact ih c r ri (by simp) hw2 hr

/-! ## Counting the inodes -/

theorem mem_sortSlice_scan {archive : List TarEntry} {e : entry} :
    e ∈ sortSlice (scanEntries archive) ↔
      ∃ th ∈ archive, e = { filePath := filepathClean th.Name, isDir := th.IsDir,
                            size := th.Size } := by
  rw [(sortSlice_perm _).mem_iff]
  simp only [scanEntries, List.mem_map]
  constructor
  · rintro ⟨th, h1, h2⟩; exact ⟨th, h1, h2.symm⟩
  · rintro ⟨th, h1, h2⟩; exact ⟨th, h1, h2.symm⟩

theorem covBy_sortSlice_scan (archive : List TarEntry) (q : List GoString) :
    covBy (sortSlice (scanEntries archive)) q ↔ ∃ th ∈ archive, q <+: memberSegs th := by
  constructor
  · rintro ⟨e, he, hq⟩
    obtain ⟨th, hth, rfl⟩ := mem_sortSlice_scan.1 he
    exact ⟨th, hth, hq⟩
  · rintro ⟨th, hth, hq⟩
    exact ⟨_, mem_sortSlice_scan.2 ⟨th, hth, rfl⟩, hq⟩

/-- A walk from a stored inode ends at a stored inode whose path is the path
of the start extended by the names walked. -/
theorem walk_gp {st : BuildState} {C F : List GoString → Prop} {gp : Nat → List GoString}
    (hwf : WF st) (hinv : TreeInv st C F gp) :
    ∀ (q : List GoString) (s k : Nat), (∃ ii, tableGet st.inodeTable s = some ii) →
      walk st.inodeTable s q = some k →
      (∃ ii, tableGet st.inodeTable k = some ii) ∧ gp k = gp s ++ q := by
  intro q
  induction q with
  | nil =>
    intro s k hs hw
    simp only [walk, Option.some.injEq] at hw
    subst hw
    exact ⟨hs, by simp⟩
  | cons x xs ih =>
    intro s k _ hw
    obtain ⟨ii, c, hg, hc, hw2⟩ := walk_step hw
    obtain ⟨d, hd, hdx, hdc⟩ := findChildInode_ok hc
    have hlt := hwf.child_lt _ _ hg d hd
    have hmem : ∃ ii2, tableGet st.inodeTable c = some ii2 :=
      (hwf.mem_iff c).2 (by omega)
    obtain ⟨h1, h2⟩ := ih c k hmem hw2
    refine ⟨h1, ?_⟩
    have hp := hinv.child_path _ _ hg d hd
    rw [hdx, hdc] at hp
    rw [h2, hp]
    simp

/-- The paths of the inodes other than the root, in the order of their ids. -/
theorem inode_paths_spec {st : BuildState} {L : List entry} {gp : Nat → List GoString}
    (hwf : WF st) (hinv : TreeInv st (covBy L) (fileBy L) gp)
    (hres : ∀ e ∈ L, Resolved st gp e) :
    ((List.range' 2 (st.nextFuseInodeID - 2)).map gp).Nodup ∧
    ∀ q, q ∈ (List.range' 2 (st.nextFuseInodeID - 2)).map gp ↔ (q ≠ [] ∧ covBy L q) := by
  have hge := hwf.next_ge
  have hin : ∀ k, k ∈ List.range' 2 (st.nextFuseInodeID - 2) →
      ∃ ii, tableGet st.inodeTable k = some ii := by
    intro k hk
    rw [List.mem_range'_1] at hk
    exact (hwf.mem_iff k).2 (by omega)
  refine ⟨?_, ?_⟩
  · refine List.Nodup.map_on ?_ (List.nodup_range' _ _)
    intro a ha b hb hab
    obtain ⟨ia, hia⟩ := hin a ha
    obtain ⟨ib, hib⟩ := hin b hb
    have h1 := hinv.reach _ _ hia
    have h2 := hinv.reach _ _ hib
    rw [hab, h2] at h1
    exact (Option.some.inj h1).symm
  · intro q
    constructor
    · intro hq
      obtain ⟨k, hk, rfl⟩ := List.mem_map.1 hq
      obtain ⟨ii, hii⟩ := hin k hk
      rw [List.mem_range'_1] at hk
      have := hinv.covered _ _ hii (by simp [RootInodeID]; omega)
      exact ⟨this.2, this.1⟩
    · rintro ⟨hne, e, he, t, ht⟩
      obtain ⟨k0, ii0, hk0, hg0, _, _⟩ := hres e he
      have hw := hinv.reach _ _ hg0
      rw [hk0, ← ht, walk_append] at hw
      cases hwq : walk st.inodeTable RootInodeID q with
      | none => simp [hwq] at hw
      | some k =>
        obtain ⟨⟨ii, hii⟩, hgp⟩ := walk_gp hwf hinv q RootInodeID k (wf_root_mem hwf) hwq
        rw [hinv.root, List.nil_append] at hgp
        have hk := (hwf.mem_iff k).1 ⟨ii, hii⟩
        have hkr : k ≠ 1 := by
          intro h
          subst h
          have := hinv.root
          simp only [RootInodeID] at this
          rw [this] at hgp
          exact hne hgp.symm
        exact List.mem_map.2 ⟨k, by rw [List.mem_range'_1]; omega, hgp⟩

theorem splitSlash_injective : Function.Injective splitSlash := by
  intro a b h
  have := congrArg joinSlash h
  simpa [joinSlash_splitSlash] using this

theorem mem_properPrefixes {q segs : List GoString} :
    q ∈ properPrefixes segs ↔ q <+: segs ∧ q ≠ [] ∧ q ≠ segs := by
  simp [properPrefixes, List.mem_inits]

/-- The directory paths and the file paths of an archive, for pairwise
different normalized paths and no file on the way to another member. -/
theorem target_paths_spec (archive : List TarEntry) (hd : DistinctPaths archive)
    (hnf : NoFileAsDir archive) :
    ((dirPaths archive).dedup ++ (archive.filter fun th => !th.IsDir).map memberSegs).Nodup ∧
    ∀ q, q ∈ (dirPaths archive).dedup ++ (archive.filter fun th => !th.IsDir).map memberSegs ↔
      (q ≠ [] ∧ ∃ th ∈ archive, q <+: memberSegs th) := by
  have hinj : ∀ a ∈ archive, ∀ b ∈ archive, memberSegs a = memberSegs b → a = b := by
    intro a ha b hb hab
    exact List.inj_on_of_nodup_map hd ha hb (splitSlash_injective hab)
  refine ⟨?_, ?_⟩
  · refine List.Nodup.append (List.nodup_dedup _) ?_ ?_
    · refine List.Nodup.map_on ?_ ?_
      · intro a ha b hb hab
        exact hinj a (List.mem_filter.1 ha).1 b (List.mem_filter.1 hb).1 hab
      · exact List.Nodup.filter _ (List.Nodup.of_map _ hd)
    · intro q hq1 hq2
      rw [List.mem_dedup] at hq1
      obtain ⟨f, hf, rfl⟩ := List.mem_map.1 hq2
      obtain ⟨hfa, hfd⟩ := List.mem_filter.1 hf
      simp only [Bool.not_eq_true'] at hfd
      rcases List.mem_append.1 hq1 with h | h
      · obtain ⟨d, hdm, hdq⟩ := List.mem_map.1 h
        obtain ⟨hda, hdd⟩ := List.mem_filter.1 hdm
        have := hinj d hda f hfa hdq
        subst this
        rw [hfd] at hdd
        cases hdd
      · obtain ⟨e, he, hq⟩ := List.mem_flatMap.1 h
        obtain ⟨h1, _, h3⟩ := mem_properPrefixes.1 hq
        exact hnf f hfa hfd e he ⟨h1, h3⟩
  · intro q
    rw [List.mem_append, List.mem_dedup]
    constructor
    · rintro (h | h)
      · rcases List.mem_append.1 h with h | h
        · obtain ⟨d, hdm, rfl⟩ := List.mem_map.1 h
          exact ⟨splitSlash_ne_nil _, d, (List.mem_filter.1 hdm).1, List.prefix_refl _⟩
        · obtain ⟨e, he, hq⟩ := List.mem_flatMap.1 h
          obtain ⟨h1, h2, _⟩ := mem_properPrefixes.1 hq
          exact ⟨h2, e, he, h1⟩
      · obtain ⟨f, hf, rfl⟩ := List.mem_map.1 h
        exact ⟨splitSlash_ne_nil _, f, (List.mem_filter.1 hf).1, List.prefix_refl _⟩
    · rintro ⟨hne, th, hth, hq⟩
      by_cases heq : q = memberSegs th
      · subst heq
        cases hdir : th.IsDir with
        | true =>
          left
          exact List.mem_append.2 (Or.inl (List.mem_map.2
            ⟨th, List.mem_filter.2 ⟨hth, by simp [hdir]⟩, rfl⟩))
        | false =>
          right
          exact List.mem_map.2 ⟨th, List.mem_filter.2 ⟨hth, by simp [hdir]⟩, rfl⟩
      · left
        exact List.mem_append.2 (Or.inr (List.mem_flatMap.2
          ⟨th, hth, mem_properPrefixes.2 ⟨hq, hne, heq⟩⟩))

/-! ## filepath.Clean on cleaned paths -/

theorem splitSlash_no_slash (p : GoString) : ∀ s ∈ splitSlash p, '/' ∉ s := by
  induction p with
  | nil => simp [splitSlash]
  | cons c cs ih =>
    unfold splitSlash
    by_cases hc : c = '/'
    · simp only [hc, if_true]
      intro s hs
      rcases List.mem_cons.1 hs with rfl | hs
      · simp
      · exact ih s hs
    · simp only [hc, if_false]
      obtain ⟨y, rest, hs⟩ := List.exists_cons_of_ne_nil (splitSlash_ne_nil cs)
      rw [hs] at ih ⊢
      intro s hs2
      rcases List.mem_cons.1 hs2 with rfl | hs2
      · have := ih y (by simp)
        simp only [List.mem_cons, not_or]
        exact ⟨fun h => hc h.symm, this⟩
      · exact ih s (by simp [hs2])

theorem splitSlash_append_slash (s : GoString) (hs : '/' ∉ s) (p : GoString) :
    splitSlash (s ++ '/' :: p) = s :: splitSlash p := by
  induction s with
  | nil => simp [splitSlash]
  | cons c cs ih =>
    simp only [List.mem_cons, not_or] at hs
    have hc : ¬ c = '/' := fun h => hs.1 h.symm
    simp only [List.cons_append, splitSlash, hc, if_false, List.append_eq, ih hs.2]

theorem splitSlash_of_no_slash (s : GoString) (hs : '/' ∉ s) : splitSlash s = [s] := by
  induction s with
  | nil => rfl
  | cons c cs ih =>
    simp only [List.mem_cons, not_or] at hs
    have hc : ¬ c = '/' := fun h => hs.1 h.symm
    simp only [splitSlash, hc, if_false, ih hs.2]

theorem splitSlash_joinSlash (segs : List GoString) (hne : segs ≠ [])
    (hs : ∀ s ∈ segs, '/' ∉ s) : splitSlash (joinSlash segs) = segs := by
  induction segs with
  | nil => exact absurd rfl hne
  | cons x xs ih =>
    cases xs with
    | nil => simpa [joinSlash] using splitSlash_of_no_slash x (hs x (by simp))
    | cons y ys =>
      simp only [joinSlash]
      rw [splitSlash_append_slash x (hs x (by simp)),
        ih (by simp) (fun s h => hs s (by simp [h]))]

theorem dotdot_no_slash : '/' ∉ dotdot := by decide

theorem Normal.no_slash {segs : List GoString} (h : Normal segs) : ∀ s ∈ segs, '/' ∉ s := by
  obtain ⟨dd, reals, rfl, h1, h2⟩ := h
  intro s hs
  rcases List.mem_append.1 hs with hs | hs
  · rw [h1 s hs]; exact dotdot_no_slash
  · exact (h2 s hs).2.2.2

theorem Normal.ne_nil_of_mem {segs : List GoString} (h : Normal segs) :
    ∀ s ∈ segs, s ≠ [] := by
  obtain ⟨dd, reals, rfl, h1, h2⟩ := h
  intro s hs
  rcases List.mem_append.1 hs with hs | hs
  · rw [h1 s hs]; decide
  · exact (h2 s hs).1

theorem Normal.take {segs : List GoString} (h : Normal segs) (n : Nat) :
    Normal (segs.take n) := by
  obtain ⟨dd, reals, rfl, h1, h2⟩ := h
  refine ⟨dd.take n, reals.take (n - dd.length), List.take_append_eq_append_take, ?_, ?_⟩
  · intro s hs; exact h1 s (List.mem_of_mem_take hs)
  · intro s hs; exact h2 s (List.mem_of_mem_take hs)

theorem cleanStep_real {s : GoString} (hs : isReal s) (rooted : Bool) (stack : List GoString) :
    cleanStep rooted stack s = s :: stack := by
  obtain ⟨h1, h2, h3, _⟩ := hs
  simp [cleanStep, h1, h2, h3]

theorem foldl_cleanStep_reals (rooted : Bool) (reals : List GoString)
    (h : ∀ s ∈ reals, isReal s) :
    ∀ stack, reals.foldl (cleanStep rooted) stack = reals.reverse ++ stack := by
  induction reals with
  | nil => intro stack; rfl
  | cons x xs ih =>
    intro stack
    simp only [List.foldl_cons, cleanStep_real (h x (by simp)),
      ih (fun s hs => h s (by simp [hs]))]
    simp

theorem foldl_cleanStep_dotdots (dd : List GoString) (h : ∀ s ∈ dd, s = dotdot) :
    ∀ stack, (∀ s ∈ stack, s = dotdot) →
      dd.foldl (cleanStep false) stack = dd.reverse ++ stack := by
  induction dd with
  | nil => intro stack _; rfl
  | cons x xs ih =>
    intro stack hst
    have hx : x = dotdot := h x (by simp)
    subst hx
    have hstep : cleanStep false stack dotdot = dotdot :: stack := by
      cases stack with
      | nil => simp [cleanStep, dotdot]
      | cons t ts =>
        have ht : t = dotdot := hst t (by simp)
        subst ht
        simp [cleanStep, dotdot]
    simp only [List.foldl_cons, hstep]
    rw [ih (fun s hs => h s (by simp [hs])) _ (by
      intro s hs
      rcases List.mem_cons.1 hs with rfl | hs
      · rfl
      · exact hst s hs)]
    simp

theorem joinSlash_head {segs : List GoString} (hne : segs ≠ []) (h : Normal segs) :
    ∃ c cs, joinSlash segs = c :: cs ∧ c ≠ '/' := by
  obtain ⟨x, xs, rfl⟩ := List.exists_cons_of_ne_nil hne
  have hx1 := h.ne_nil_of_mem x (by simp)
  have hx2 := h.no_slash x (by simp)
  obtain ⟨c, cs, rfl⟩ := List.exists_cons_of_ne_nil hx1
  have hc : c ≠ '/' := by
    intro hc
    apply hx2
    simp [hc]
  cases xs with
  | nil => exact ⟨c, cs, by simp [joinSlash], hc⟩
  | cons y ys => exact ⟨c, cs ++ '/' :: joinSlash (y :: ys), by simp [joinSlash], hc⟩

/-- Function `filepath.Clean` leaves the join of normal elements as it is. -/
theorem filepathClean_joinSlash {segs : List GoString} (hne : segs ≠ []) (h : Normal segs) :
    filepathClean (joinSlash segs) = joinSlash segs := by
  obtain ⟨c, cs, hj, hc⟩ := joinSlash_head hne h
  have hsplit := splitSlash_joinSlash segs hne h.no_slash
  obtain ⟨dd, reals, rfl, h1, h2⟩ := h
  have hfold : (dd ++ reals).foldl (cleanStep false) [] = (dd ++ reals).reverse := by
    rw [List.foldl_append, foldl_cleanStep_dotdots dd h1 [] (by simp),
      foldl_cleanStep_reals false reals h2]
    simp
  unfold filepathClean
  rw [hsplit]
  have hnil : joinSlash (dd ++ reals) ≠ [] := by rw [hj]; simp
  have hroot : ((joinSlash (dd ++ reals)).head? = some '/') = False := by
    rw [hj]; simpa using hc
  simp only [hnil, if_false, hroot, decide_False, Bool.false_eq_true, hfold, List.reverse_reverse]
  simp [hne]

/-- The stack of `filepath.Clean` on a relative path: kept elements on top of
leading `..` elements. -/
theorem cleanStep_normal (stack : List GoString) (seg : GoString) (hseg : '/' ∉ seg)
    (h : Normal stack.reverse) : Normal (cleanStep false stack seg).reverse := by
  obtain ⟨dd, reals, hst, h1, h2⟩ := h
  unfold cleanStep
  split
  · exact ⟨dd, reals, hst, h1, h2⟩
  · rename_i hne
    simp only [not_or] at hne
    split
    · rename_i hdd
      cases stack with
      | nil => exact ⟨[dotdot], [], by simp, by simp, by simp⟩
      | cons top rest =>
        simp only [List.reverse_cons] at hst
        simp only [Bool.false_eq_true, if_false]
        rcases List.eq_nil_or_concat reals with hr | ⟨r2, x, hr⟩
        · subst hr
          simp only [List.append_nil] at hst
          have htop : top = dotdot := h1 top (by rw [← hst]; simp)
          simp only [htop, if_true]
          refine ⟨dd ++ [dotdot], [], by simp [← hst, htop], ?_, by simp⟩
          intro s hs
          rcases List.mem_append.1 hs with hs | hs
          · exact h1 s hs
          · simpa using hs
        · simp only [List.concat_eq_append] at hr
          subst hr
          rw [← List.append_assoc] at hst
          have hx := List.append_inj' hst (by simp)
          have hxt : top = x := by simpa using hx.2
          have hreal := h2 x (by simp)
          have hnd : ¬ top = dotdot := by rw [hxt]; exact hreal.2.2.1
          simp only [hnd, if_false]
          exact ⟨dd, r2, hx.1, h1, fun s hs => h2 s (by simp [hs])⟩
    · rename_i hnd
      refine ⟨dd, reals ++ [seg], by simp [hst], h1, ?_⟩
      intro s hs
      rcases List.mem_append.1 hs with hs | hs
      · exact h2 s hs
      · simp only [List.mem_singleton] at hs
        subst hs
        exact ⟨hne.1, hne.2, hnd, hseg⟩

theorem foldl_cleanStep_normal (segs : List GoString) (hs : ∀ s ∈ segs, '/' ∉ s) :
    ∀ stack, Normal stack.reverse → Normal (segs.foldl (cleanStep false) stack).reverse := by
  induction segs with
  | nil => intro stack h; exact h
  | cons x xs ih =>
    intro stack h
    simp only [List.foldl_cons]
    exact ih (fun s h => hs s (by simp [h])) _ (cleanStep_normal stack x (hs x (by simp)) h)

/-- A cleaned path that is not rooted is `.` or the join of normal elements. -/
theorem filepathClean_relative (p : GoString) (hrel : (filepathClean p).head? ≠ some '/') :
    filepathClean p = ['.'] ∨
      ∃ segs, segs ≠ [] ∧ Normal segs ∧ filepathClean p = joinSlash segs := by
  unfold filepathClean at hrel ⊢
  by_cases hp : p = []
  · simp [hp]
  · simp only [hp, if_false] at hrel ⊢
    by_cases hroot : p.head? = some '/'
    · simp [hroot] at hrel
    · simp only [hroot, decide_False, Bool.false_eq_true, if_false]
      by_cases hnil : (List.foldl (cleanStep false) [] (splitSlash p)).reverse = []
      · simp [hnil]
      · simp only [hnil, if_false]
        right
        exact ⟨_, hnil, foldl_cleanStep_normal _ (splitSlash_no_slash p) []
          ⟨[], [], by simp, by simp, by simp⟩, rfl⟩

/-- The path `buildDentry` rebuilds along normal elements is their join. -/
theorem recon_normal (segs : List GoString) (h : Normal segs) :
    ∀ n, 0 < n → n ≤ segs.length → recon (segs.take n) = joinSlash (segs.take n) := by
  intro n
  induction n with
  | zero => intro h0; omega
  | succ n ih =>
    intro _ hn
    have hlt : n < segs.length := by omega
    have htake : segs.take (n + 1) = segs.take n ++ [segs.get ⟨n, hlt⟩] := by
      rw [List.take_succ, List.getElem?_eq_getElem hlt]
      rfl
    have hnorm := h.take (n + 1)
    have hne : segs.take (n + 1) ≠ [] := by
      intro hq
      have := congrArg List.length hq
      rw [List.length_take] at this
      simp only [List.length_nil] at this
      omega
    have hclean := filepathClean_joinSlash hne hnorm
    rw [htake] at hclean ⊢
    simp only [recon, List.foldl_append, List.foldl_cons, List.foldl_nil]
    by_cases h0 : n = 0
    · subst h0
      have hx : segs.get ⟨0, hlt⟩ ≠ [] := h.ne_nil_of_mem _ (List.get_mem _ _ _)
      simp only [List.take_zero, List.foldl_nil, List.nil_append] at hclean ⊢
      simp only [joinSlash] at hclean ⊢
      simp only [filepathJoin, ne_eq, not_true_eq_false, if_false, hx, not_false_eq_true, if_true]
      exact hclean
    · have ih2 := ih (by omega) (by omega)
      simp only [recon] at ih2
      rw [ih2]
      have hq : segs.take n ≠ [] := by
        intro hq
        have := congrArg List.length hq
        rw [List.length_take] at this
        simp only [List.length_nil] at this
        omega
      obtain ⟨c, cs, hj, _⟩ := joinSlash_head hq (h.take n)
      rw [joinSlash_append _ _ hq (by simp)] at hclean ⊢
      simp only [joinSlash] at hclean ⊢
      simp only [filepathJoin]
      rw [if_pos (by rw [hj]; simp)]
      exact hclean

/-- For a relative normalized path, the path `buildDentry` rebuilds along its
segments is the normalized path itself. -/
theorem recon_clean (p : GoString) (hrel : (filepathClean p).head? ≠ some '/') :
    recon (splitSlash (filepathClean p)) = filepathClean p := by
  rcases filepathClean_relative p hrel with h | ⟨segs, hne, hnorm, h⟩
  · rw [h]; decide
  · rw [h, splitSlash_joinSlash segs hne hnorm.no_slash]
    have := recon_normal segs hnorm segs.length
      (List.length_pos.2 hne) (Nat.le_refl _)
    simpa using this

/-! ## The path index -/

theorem recon_snoc (q : List GoString) (x : GoString) :
    recon (q ++ [x]) = filepathJoin (recon q) x := by
  simp [recon, List.foldl_append]

/-- The walk of `buildDentry` from an inode, started with the rebuilt path of
that inode: it returns; every value it writes under a key is the rebuilt path
of that key; it drops no key; and it writes a key for every non-directory
child entry of every inode reached through directory entries. -/
theorem buildDentryFuel_spec {st : BuildState} {C F : List GoString → Prop}
    {gp : Nat → List GoString} (hwf : WF st) (hinv : TreeInv st C F gp) :
    ∀ (fuel k : Nat) (dt : List (Nat × GoString)),
      1 ≤ k → k < st.nextFuseInodeID → st.nextFuseInodeID - k ≤ fuel →
      ∃ dt2, buildDentryFuel fuel st.inodeTable (recon (gp k)) k dt = some dt2 ∧
        (∀ key v, tableGet dt2 key = some v → tableGet dt key = some v ∨ v = recon (gp key)) ∧
        (∀ key, tableGet dt key ≠ none → tableGet dt2 key ≠ none) ∧
        (∀ k2 ii2 d, DirReach st.inodeTable k k2 → tableGet st.inodeTable k2 = some ii2 →
          d ∈ ii2.Children → d.Typ ≠ DirentType.DT_Directory →
          tableGet dt2 d.Inode ≠ none) := by
  intro fuel
  induction fuel with
  | zero => intro k dt h1 h2 h3; omega
  | succ fuel ih =>
    intro k dt h1 h2 h3
    obtain ⟨ii, hget⟩ := (hwf.mem_iff k).2 ⟨h1, h2⟩
    have inner : ∀ (cs : List Dirent), (∀ d ∈ cs, d ∈ ii.Children) →
        ∀ dt0 : List (Nat × GoString),
        ∃ dt2, cs.foldlM
            (fun dt d =>
              if d.Typ = DirentType.DT_Directory then
                buildDentryFuel fuel st.inodeTable (filepathJoin (recon (gp k)) d.Name) d.Inode dt
              else some (tableSet dt d.Inode (filepathJoin (recon (gp k)) d.Name))) dt0
            = some dt2 ∧
          (∀ key v, tableGet dt2 key = some v →
            tableGet dt0 key = some v ∨ v = recon (gp key)) ∧
          (∀ key, tableGet dt0 key ≠ none → tableGet dt2 key ≠ none) ∧
          (∀ d ∈ cs,
            (d.Typ ≠ DirentType.DT_Directory → tableGet dt2 d.Inode ≠ none) ∧
            (d.Typ = DirentType.DT_Directory →
              ∀ k2 ii2 d2, DirReach st.inodeTable d.Inode k2 →
                tableGet st.inodeTable k2 = some ii2 → d2 ∈ ii2.Children →
                d2.Typ ≠ DirentType.DT_Directory → tableGet dt2 d2.Inode ≠ none)) := by
      intro cs
      induction cs with
      | nil =>
        intro _ dt0
        exact ⟨dt0, rfl, fun _ _ h => Or.inl h, fun _ h => h, by simp⟩
      | cons d ds ihcs =>
        intro hsub dt0
        have hd : d ∈ ii.Children := hsub d (by simp)
        have hlt := hwf.child_lt _ _ hget d hd
        have hpath : filepathJoin (recon (gp k)) d.Name = recon (gp d.Inode) := by
          rw [hinv.child_path _ _ hget d hd, recon_snoc]
        have hfirst : ∃ dt1,
            (if d.Typ = DirentType.DT_Directory then
                buildDentryFuel fuel st.inodeTable (filepathJoin (recon (gp k)) d.Name) d.Inode dt0
              else some (tableSet dt0 d.Inode (filepathJoin (recon (gp k)) d.Name))) = some dt1 ∧
            (∀ key v, tableGet dt1 key = some v →
              tableGet dt0 key = some v ∨ v = recon (gp key)) ∧
            (∀ key, tableGet dt0 key ≠ none → tableGet dt1 key ≠ none) ∧
            (d.Typ ≠ DirentType.DT_Directory → tableGet dt1 d.Inode ≠ none) ∧
            (d.Typ = DirentType.DT_Directory →
              ∀ k2 ii2 d2, DirReach st.inodeTable d.Inode k2 →
                tableGet st.inodeTable k2 = some ii2 → d2 ∈ ii2.Children →
                d2.Typ ≠ DirentType.DT_Directory → tableGet dt1 d2.Inode ≠ none) := by
          by_cases ht : d.Typ = DirentType.DT_Directory
          · obtain ⟨dt1, e1, e2, e3, e4⟩ := ih d.Inode dt0 (by omega) hlt.2 (by omega)
            refine ⟨dt1, ?_, e2, e3, fun h => absurd ht h, fun _ => e4⟩
            rw [if_pos ht, hpath]
            exact e1
          · refine ⟨tableSet dt0 d.Inode (recon (gp d.Inode)), ?_, ?_, ?_, ?_, fun h => absurd h ht⟩
            · rw [if_neg ht, hpath]
            · intro key v hv
              rw [tableGet_tableSet] at hv
              split at hv
              · rename_i hk
                subst hk
                right
                exact (Option.some.inj hv).symm
              · exact Or.inl hv
            · intro key hk
              rw [tableGet_tableSet]
              split
              · simp
              · exact hk
            · intro _
              rw [tableGet_tableSet]
              simp
        obtain ⟨dt1, e1, e2, e3, e4, e5⟩ := hfirst
        obtain ⟨dt2, f1, f2, f3, f4⟩ := ihcs (fun d2 h => hsub d2 (by simp [h])) dt1
        refine ⟨dt2, ?_, ?_, ?_, ?_⟩
        · rw [List.foldlM_cons, e1]
          exact f1
        · intro key v hv
          rcases f2 key v hv with h | h
          · exact e2 key v h
          · exact Or.inr h
        · intro key hk
          exact f3 key (e3 key hk)
        · intro d2 hd2
          rcases List.mem_cons.1 hd2 with rfl | hd2
          · exact ⟨fun h => f3 _ (e4 h),
              fun h k2 ii2 d3 hr hg hm ht => f3 _ (e5 h k2 ii2 d3 hr hg hm ht)⟩
          · exact f4 d2 hd2
    obtain ⟨dt2, g1, g2, g3, g4⟩ := inner ii.Children (fun _ h => h) dt
    refine ⟨dt2, ?_, g2, g3, ?_⟩
    · simp only [buildDentryFuel, hget]
      exact g1
    · intro k2 ii2 d hr hg hm ht
      cases hr with
      | refl =>
        rw [hget] at hg
        cases hg
        exact (g4 d hm).1 ht
      | step hg0 hd0 ht0 hr0 =>
        rw [hget] at hg0
        cases hg0
        exact (g4 _ hd0).2 ht0 k2 ii2 d hr0 hg hm ht

/-- A walk whose inner inodes are all directories is a chain of directory
entries. -/
theorem dirReach_of_walk {st : BuildState} {C F : List GoString → Prop}
    {gp : Nat → List GoString} (hinv : TreeInv st C F gp) :
    ∀ (q : List GoString) (s k : Nat), walk st.inodeTable s q = some k →
      (∀ n, 0 < n → n ≤ q.length → ∀ m, walk st.inodeTable s (q.take n) = some m →
        ∃ mi, tableGet st.inodeTable m = some mi ∧ mi.Dir = true) →
      DirReach st.inodeTable s k := by
  intro q
  induction q with
  | nil =>
    intro s k hw _
    simp only [walk, Option.some.injEq] at hw
    subst hw
    exact DirReach.refl _
  | cons x xs ih =>
    intro s k hw hdirs
    obtain ⟨ii, c, hg, hc, hw2⟩ := walk_step hw
    obtain ⟨d, hd, hdx, hdc⟩ := findChildInode_ok hc
    have hwc : walk st.inodeTable s ((x :: xs).take 1) = some c := by
      simp [walk, hg, hc]
    obtain ⟨mi, hmi, hmd⟩ := hdirs 1 (by omega) (by simp) c hwc
    obtain ⟨ci, hci, hiff⟩ := hinv.kind _ _ hg d hd
    rw [hdc, hmi] at hci
    cases hci
    have htyp : d.Typ = DirentType.DT_Directory := hiff.2 hmd
    refine DirReach.step hg hd htyp ?_
    rw [hdc]
    apply ih c k hw2
    intro n hn hnl m hm
    apply hdirs (n + 1) (by omega) (by simpa using hnl) m
    simp only [List.take_succ_cons, walk, hg, hc]
    exact hm

/-! ## ReadFile -/

theorem le_paddedSize (n : Nat) : n ≤ paddedSize n := by
  simp only [paddedSize, blockSize]
  omega

/-- A read that ends at or before the first window boundary of the stream is
not short. -/
theorem gzipRead_full {pos want : Nat} (h : pos + want ≤ flateWindow) :
    gzipRead pos want = want := by
  simp only [gzipRead, flateWindow] at h ⊢
  omega

/-- The read loop on an archive of pairwise different normalized paths whose
stream ends at or before the first window boundary finds the member of the
given path and, with a buffer that holds the rest of its content, returns the
content from the offset on. -/
theorem readFileLoop_found (o dstLen : Nat) (th : TarEntry) :
    ∀ (archive : List TarEntry) (pos : Nat), DistinctPaths archive → th ∈ archive →
      th.Data.length - o ≤ dstLen → pos + streamLen archive ≤ flateWindow →
      readFileLoop (filepathClean th.Name) o dstLen pos archive = .ok (th.Data.drop o) := by
  intro archive
  induction archive with
  | nil => intro _ _ h; simp at h
  | cons a rest ih =>
    intro pos hd hth hlen hfit
    have hd2 : DistinctPaths rest := by
      unfold DistinctPaths at hd ⊢
      exact (List.nodup_cons.1 hd).2
    have hs : streamLen (a :: rest)
        = blockSize + paddedSize a.Data.length + streamLen rest := by
      simp [streamLen]
    rw [hs] at hfit
    by_cases hname : filepathClean a.Name = filepathClean th.Name
    · have hat : a = th := List.inj_on_of_nodup_map hd (by simp) hth hname
      subst hat
      have hpad := le_paddedSize a.Data.length
      have h1 : gzipRead (pos + blockSize) (min o a.Data.length) = min o a.Data.length :=
        gzipRead_full (by omega)
      have hdo : List.drop (min o a.Data.length) a.Data = List.drop o a.Data := by
        rcases Nat.le_total o a.Data.length with h | h
        · rw [Nat.min_eq_left h]
        · rw [Nat.min_eq_right h, List.drop_eq_nil_of_le (Nat.le_refl _),
            List.drop_eq_nil_of_le h]
      have hlt : (List.take (min o a.Data.length) a.Data).length = min o a.Data.length := by
        rw [List.length_take]; omega
      have hm : min dstLen (List.drop o a.Data).length = (List.drop o a.Data).length := by
        rw [List.length_drop]; omega
      have h2 : gzipRead (pos + blockSize + min o a.Data.length) (List.drop o a.Data).length
          = (List.drop o a.Data).length :=
        gzipRead_full (by rw [List.length_drop]; omega)
      simp only [readFileLoop, tarRead, if_true, h1, hdo, hlt, hm, h2,
        List.take_length, List.drop_length, List.isEmpty_nil]
    · have hmem : th ∈ rest := by
        rcases List.mem_cons.1 hth with h | h
        · exact absurd (by rw [h]) hname
        · exact h
      simp only [readFileLoop, hname, if_false]
      exact ih _ hd2 hmem hlen (by omega)
/-- The table of a finished build keeps the archive as its opener. -/
theorem buildInodeTable_opener {archive : List TarEntry} {t : Tgz}
    (h : buildInodeTable archive = some t) : t.opener = archive := by
  unfold buildInodeTable at h
  cases h1 : buildTree (sortSlice (scanEntries archive)) with
  | none => simp [h1] at h
  | some st =>
    simp only [h1] at h
    cases h2 : buildDentryFuel st.inodeTable.length st.inodeTable [] RootInodeID [] with
    | none => simp [h2] at h
    | some dt =>
      simp only [h2, Option.some.injEq] at h
      rw [← h]

/-- The read loop on a single member of the path asked for: the two reads of
lines 304 and 305, and EIO from the next `tr.Next()` when the second read does
not end the member. -/
theorem readFileLoop_single (th : TarEntry) (o dstLen pos : Nat) :
    readFileLoop (filepathClean th.Name) o dstLen pos [th]
      = if (tarRead (pos + blockSize + (tarRead (pos + blockSize) th.Data o).1.length)
            (tarRead (pos + blockSize) th.Data o).2.1 dstLen).2.2
        then .ok (tarRead (pos + blockSize + (tarRead (pos + blockSize) th.Data o).1.length)
            (tarRead (pos + blockSize) th.Data o).2.1 dstLen).1
        else .fail Failure.EIO := by
  simp only [readFileLoop, if_true]

/-- A read of `tr.Read` in terms of the number of bytes it delivers. -/
theorem tarRead_eq {pos n m : Nat} {left : GoString}
    (h : gzipRead pos (min n left.length) = m) :
    tarRead pos left n = (left.take m, left.drop m, (left.drop m).isEmpty) := by
  simp only [tarRead, h]

/-- A read into a buffer of length 0 delivers nothing. -/
theorem tarRead_zero (pos : Nat) (left : GoString) :
    tarRead pos left 0 = ([], left, left.isEmpty) := by
  simp [tarRead, gzipRead]

/-! ## More on the order of `strings.Compare` -/

theorem char_toNat_inj {a b : Char} (h : a.toNat = b.toNat) : a = b := by
  apply Char.ext
  cases a with
  | mk va ha =>
    cases b with
    | mk vb hb =>
      simp only [Char.toNat] at h
      exact UInt32.ext (by simpa [UInt32.toNat] using h)

theorem stringsCompare_antisymm (a b : GoString) :
    stringsCompare a b ≤ 0 → stringsCompare b a ≤ 0 → a = b := by
  induction a generalizing b with
  | nil =>
    cases b with
    | nil => intro _ _; rfl
    | cons d ds => intro _ h; simp [stringsCompare] at h
  | cons c cs ih =>
    cases b with
    | nil => intro h; simp [stringsCompare] at h
    | cons d ds =>
      simp only [stringsCompare]
      intro h1 h2
      by_cases hcd : c.toNat < d.toNat
      · have hdc : ¬ d.toNat < c.toNat := by omega
        simp [hcd, hdc] at h2
      · by_cases hdc : d.toNat < c.toNat
        · simp [hcd, hdc] at h1
        · simp only [hcd, hdc, if_false] at h1 h2
          have hc : c = d := char_toNat_inj (by omega)
          rw [hc, ih ds h1 h2]

/-- Sorted entries of pairwise different paths: the strict order of paths. -/
theorem sortSlice_strict (temp : List entry) (hn : (temp.map entry.filePath).Nodup) :
    (sortSlice temp).Pairwise
      (fun a b => lessEntry a b = true ∧ a.filePath ≠ b.filePath) := by
  have hs := sortSlice_sorted temp
  have hn1 : ((sortSlice temp).map entry.filePath).Nodup := by
    rw [((sortSlice_perm temp).map entry.filePath).nodup_iff]
    exact hn
  have hn2 : (sortSlice temp).Pairwise (fun a b => a.filePath ≠ b.filePath) := by
    unfold List.Nodup at hn1
    exact List.pairwise_map.1 hn1
  exact hs.and hn2

/-- The sort does not depend on the order of entries of pairwise different
paths. -/
theorem sortSlice_perm_eq {l1 l2 : List entry} (hp : l1.Perm l2)
    (hn : (l1.map entry.filePath).Nodup) : sortSlice l1 = sortSlice l2 := by
  have hn2 : (l2.map entry.filePath).Nodup := ((hp.map entry.filePath).nodup_iff).1 hn
  have h1 := sortSlice_strict l1 hn
  have h2 := sortSlice_strict l2 hn2
  have hperm : (sortSlice l1).Perm (sortSlice l2) :=
    (sortSlice_perm l1).trans (hp.trans (sortSlice_perm l2).symm)
  haveI : IsAntisymm entry (fun a b => lessEntry a b = true ∧ a.filePath ≠ b.filePath) :=
    ⟨by
      intro a b hab hba
      exfalso
      apply hab.2
      have e1 := hab.1
      have e2 := hba.1
      simp only [lessEntry, decide_eq_true_eq] at e1 e2
      exact stringsCompare_antisymm _ _ e1 e2⟩
  exact List.eq_of_perm_of_sorted hperm h1 h2

/-! ## The first segment of an entry under the root -/

/-- After `buildHelper` ran on the segments `x :: rest` from an inode, that
inode has a child named `x`. -/
theorem insertSegs_first_child (isDir : Bool) (size : Nat) (x : GoString)
    (rest : List GoString) (st st2 : BuildState) (inodeId : Nat) (hwf : WF st)
    (h : insertSegs isDir size st inodeId (x :: rest) = some st2) :
    ∃ ii d, tableGet st2.inodeTable inodeId = some ii ∧ d ∈ ii.Children ∧ d.Name = x := by
  cases hget : findInodeInfo st inodeId with
  | none =>
    cases rest <;> simp [insertSegs, hget] at h
  | some ii =>
    have hget2 : tableGet st.inodeTable inodeId = some ii := hget
    have hid := (hwf.mem_iff inodeId).1 ⟨ii, hget2⟩
    have hne : st.nextFuseInodeID ≠ inodeId := by omega
    cases rest with
    | nil =>
      simp only [insertSegs, hget, Option.some.injEq] at h
      subst h
      have hg := tableGet_addChild st inodeId ii x
        (if isDir then DirentType.DT_Directory else DirentType.DT_File)
        (leafInode { filePath := x, isDir := isDir, size := size }) inodeId
      simp only [hne, if_false, if_true] at hg
      exact ⟨_, _, hg, List.mem_append.2 (Or.inr (List.mem_singleton.2 rfl)), rfl⟩
    | cons y ys =>
      cases hf : findChild x ii.Children with
      | mk found c =>
        cases found with
        | true =>
          simp only [insertSegs, hget, hf] at h
          obtain ⟨d, hd, hdx, hc⟩ := findChild_true hf
          have hlt := hwf.child_lt _ _ hget2 d hd
          obtain ⟨st3, h3, _, hext⟩ := insertSegs_wf isDir size (y :: ys) st c (by simp) hwf
            ((hwf.mem_iff c).2 (by omega))
          rw [h] at h3
          cases h3
          obtain ⟨ii2, hg2, _, _, hp⟩ := hext.2 _ _ hget2
          exact ⟨ii2, d, hg2, hp.subset hd, hdx⟩
        | false =>
          simp only [insertSegs, hget, hf] at h
          have hwf2 := wf_addChild hwf hget2 x DirentType.DT_Directory impliedDirInode rfl
          obtain ⟨st3, h3, _, hext⟩ := insertSegs_wf isDir size (y :: ys) _ st.nextFuseInodeID
            (by simp) hwf2 ⟨impliedDirInode, by simp [tableGet_addChild]⟩
          rw [h] at h3
          cases h3
          have hg1 : tableGet
              (addChild st inodeId ii x DirentType.DT_Directory impliedDirInode).inodeTable
              inodeId = some { ii with Children := ii.Children ++
                [{ Offset := ii.Children.length + 1, Inode := st.nextFuseInodeID,
                   Name := x, Typ := DirentType.DT_Directory }] } := by
            rw [tableGet_addChild]
            simp only [hne, if_false, if_true]
          obtain ⟨ii2, hg2, _, _, hp⟩ := hext.2 _ _ hg1
          exact ⟨ii2, _, hg2,
            hp.subset (List.mem_append.2 (Or.inr (List.mem_singleton.2 rfl))), rfl⟩

/-- After the loop every entry has left a child of the root named by its
first segment. -/
theorem foldlM_first_child (temp : List entry) :
    ∀ (st st2 : BuildState), WF st →
      temp.foldlM (fun st ent => buildHelper st RootInodeID ent) st = some st2 →
      ∀ e ∈ temp, ∀ x rest, segsOf e = x :: rest →
        ∃ ii d, tableGet st2.inodeTable RootInodeID = some ii ∧ d ∈ ii.Children ∧
          d.Name = x := by
  induction temp with
  | nil => intro st st2 _ _ e he; simp at he
  | cons a as ih =>
    intro st st2 hwf hfold e he x rest hseg
    obtain ⟨st1, h1, hwf1, _⟩ := buildHelper_wf hwf a
    rw [List.foldlM_cons, h1] at hfold
    have hfold2 : as.foldlM (fun st ent => buildHelper st RootInodeID ent) st1 = some st2 :=
      hfold
    rcases List.mem_cons.1 he with rfl | he
    · rw [buildHelper_eq_insertSegs] at h1
      have hseg2 : splitSlash e.filePath = x :: rest := hseg
      rw [hseg2] at h1
      obtain ⟨ii, d, hg, hd, hdx⟩ :=
        insertSegs_first_child _ _ x rest st st1 RootInodeID hwf h1
      obtain ⟨st3, h3, _, hext⟩ := foldlM_buildHelper_wf as st1 hwf1
      rw [hfold2] at h3
      cases h3
      obtain ⟨ii2, hg2, _, _, hp⟩ := hext.2 _ _ hg
      exact ⟨ii2, d, hg2, hp.subset hd, hdx⟩
    · exact ih st1 st2 hwf1 hfold2 e he x rest hseg

/-- A normalized path with an empty segment is rooted. -/
theorem rooted_of_empty_segment (p : GoString) (h : [] ∈ splitSlash (filepathClean p)) :
    ∃ rest, splitSlash (filepathClean p) = [] :: rest := by
  by_cases hrel : (filepathClean p).head? = some '/'
  · obtain ⟨c, cs, hc⟩ : ∃ c cs, filepathClean p = c :: cs := by
      cases hp : filepathClean p with
      | nil => rw [hp] at hrel; simp at hrel
      | cons c cs => exact ⟨c, cs, rfl⟩
    rw [hc] at hrel ⊢
    simp only [List.head?_cons, Option.some.injEq] at hrel
    subst hrel
    exact ⟨splitSlash cs, by simp [splitSlash]⟩
  · exfalso
    rcases filepathClean_relative p hrel with h1 | ⟨segs, hne, hnorm, h1⟩
    · rw [h1] at h
      revert h
      decide
    · rw [h1, splitSlash_joinSlash segs hne hnorm.no_slash] at h
      exact hnorm.ne_nil_of_mem [] h rfl

/-! ## Every inode but the root has one parent -/

theorem allChildIds_tableSet_fresh (m : List (Nat × InodeInfo)) (k : Nat) (v : InodeInfo)
    (h : tableGet m k = none) :
    allChildIds (tableSet m k v) = allChildIds m ++ v.Children.map Dirent.Inode := by
  induction m with
  | nil => simp [tableSet, allChildIds]
  | cons p m ih =>
    obtain ⟨k1, v1⟩ := p
    simp only [tableGet] at h
    by_cases h1 : k1 = k
    · simp [h1] at h
    · simp only [h1, if_false] at h
      have := ih h
      simp only [allChildIds] at this ⊢
      simp [tableSet, h1, this]

theorem allChildIds_tableSet_append (m : List (Nat × InodeInfo)) (k : Nat) (v : InodeInfo)
    (cs : List Dirent) (h : tableGet m k = some v) :
    (allChildIds (tableSet m k { v with Children := v.Children ++ cs })).Perm
      (allChildIds m ++ cs.map Dirent.Inode) := by
  induction m with
  | nil => simp [tableGet] at h
  | cons p m ih =>
    obtain ⟨k1, v1⟩ := p
    simp only [tableGet] at h
    by_cases h1 : k1 = k
    · simp only [h1, if_true, Option.some.injEq] at h
      subst h
      simp only [tableSet, h1, if_true, allChildIds, List.flatMap_cons, List.map_append,
        List.append_assoc]
      exact List.Perm.append_left _ List.perm_append_comm
    · simp only [h1, if_false] at h
      have := ih h
      simp only [allChildIds] at this ⊢
      simp only [tableSet, h1, if_false, List.flatMap_cons, List.append_assoc]
      exact List.Perm.append_left _ this

theorem childIds_init :
    ChildIds { inodeTable := tableSet [] RootInodeID rootInode,
               nextFuseInodeID := RootInodeID + 1 } := by
  simp [ChildIds, allChildIds, tableSet, rootInode, RootInodeID]

theorem childIds_addChild {st : BuildState} (hwf : WF st) (h : ChildIds st) {inodeId : Nat}
    {ii : InodeInfo} (hget : tableGet st.inodeTable inodeId = some ii) (name : GoString)
    (typ : DirentType) (newInode : InodeInfo) (hnew : newInode.Children = []) :
    ChildIds (addChild st inodeId ii name typ newInode) := by
  have hge := hwf.next_ge
  have hfresh : tableGet
      (tableSet st.inodeTable inodeId { ii with Children := ii.Children ++
        [{ Offset := ii.Children.length + 1, Inode := st.nextFuseInodeID,
           Name := name, Typ := typ }] }) st.nextFuseInodeID = none := by
    rw [tableGet_tableSet]
    have hid := (hwf.mem_iff inodeId).1 ⟨ii, hget⟩
    have hne : ¬ inodeId = st.nextFuseInodeID := by omega
    simp only [hne, if_false]
    exact hwf.next_not_mem
  unfold ChildIds
  simp only [addChild]
  rw [allChildIds_tableSet_fresh _ _ _ hfresh, hnew]
  simp only [List.map_nil, List.append_nil]
  refine (allChildIds_tableSet_append _ _ _ _ hget).trans ?_
  have e1 : st.nextFuseInodeID + 1 - 2 = (st.nextFuseInodeID - 2) + 1 := by omega
  rw [e1, List.range'_1_concat]
  have e2 : 2 + (st.nextFuseInodeID - 2) = st.nextFuseInodeID := by omega
  rw [e2]
  exact List.Perm.append_right _ h

/-- A property of the build state that survives every new child survives
`buildHelper`. -/
theorem insertSegs_preserves (P : BuildState → Prop)
    (hadd : ∀ (st : BuildState) (inodeId : Nat) (ii : InodeInfo) (name : GoString)
      (typ : DirentType) (newInode : InodeInfo), WF st → P st →
      tableGet st.inodeTable inodeId = some ii → newInode.Children = [] →
      P (addChild st inodeId ii name typ newInode))
    (isDir : Bool) (size : Nat) :
    ∀ (segs : List GoString) (st st2 : BuildState) (inodeId : Nat), WF st → P st →
      insertSegs isDir size st inodeId segs = some st2 → P st2 := by
  intro segs
  induction segs with
  | nil => intro st st2 inodeId _ _ h; simp [insertSegs] at h
  | cons x rest ih =>
    intro st st2 inodeId hwf hP h
    cases hget : findInodeInfo st inodeId with
    | none => cases rest <;> simp [insertSegs, hget] at h
    | some ii =>
      have hget2 : tableGet st.inodeTable inodeId = some ii := hget
      cases rest with
      | nil =>
        simp only [insertSegs, hget, Option.some.injEq] at h
        subst h
        exact hadd _ _ _ _ _ _ hwf hP hget2 (leafInode_children _)
      | cons y ys =>
        cases hf : findChild x ii.Children with
        | mk found c =>
          cases found with
          | true =>
            simp only [insertSegs, hget, hf] at h
            exact ih st st2 c hwf hP h
          | false =>
            simp only [insertSegs, hget, hf] at h
            exact ih _ st2 _ (wf_addChild hwf hget2 x DirentType.DT_Directory impliedDirInode rfl)
              (hadd _ _ _ _ _ _ hwf hP hget2 rfl) h

theorem foldlM_buildHelper_preserves (P : BuildState → Prop)
    (hadd : ∀ (st : BuildState) (inodeId : Nat) (ii : InodeInfo) (name : GoString)
      (typ : DirentType) (newInode : InodeInfo), WF st → P st →
      tableGet st.inodeTable inodeId = some ii → newInode.Children = [] →
      P (addChild st inodeId ii name typ newInode)) (temp : List entry) :
    ∀ (st st2 : BuildState), WF st → P st →
      temp.foldlM (fun st ent => buildHelper st RootInodeID ent) st = some st2 → P st2 := by
  induction temp with
  | nil =>
    intro st st2 _ hP h
    simp only [List.foldlM_nil] at h
    cases h
    exact hP
  | cons e es ih =>
    intro st st2 hwf hP h
    obtain ⟨st1, h1, hwf1, _⟩ := buildHelper_wf hwf e
    rw [List.foldlM_cons, h1] at h
    have hP1 : P st1 := by
      rw [buildHelper_eq_insertSegs] at h1
      exact insertSegs_preserves P hadd _ _ _ st st1 RootInodeID hwf hP h1
    exact ih st1 st2 hwf1 hP1 h

theorem buildTree_childIds {temp : List entry} {st : BuildState}
    (h : buildTree temp = some st) : ChildIds st :=
  foldlM_buildHelper_preserves ChildIds
    (fun _ _ _ name typ newInode hwf hP hget hnew =>
      childIds_addChild hwf hP hget name typ newInode hnew)
    temp _ st wf_init childIds_init h

theorem tableGet_of_mem {β : Type} (m : List (Nat × β)) (hn : (m.map Prod.fst).Nodup)
    {k : Nat} {v : β} (h : (k, v) ∈ m) : tableGet m k = some v := by
  induction m with
  | nil => simp at h
  | cons p m ih =>
    obtain ⟨k1, v1⟩ := p
    simp only [List.map_cons, List.nodup_cons] at hn
    rcases List.mem_cons.1 h with h | h
    · cases h; simp [tableGet]
    · have hne : ¬ k1 = k := by
        intro e
        apply hn.1
        rw [e]
        exact List.mem_map.2 ⟨(k, v), h, rfl⟩
      simp only [tableGet, hne, if_false]
      exact ih hn.2 h

theorem WF.keys_nodup {st : BuildState} (h : WF st) : (st.inodeTable.map Prod.fst).Nodup := by
  rw [h.keys]; exact List.nodup_range' _ _

/-- Every inode but the root is the child of a stored inode. -/
theorem parent_exists {st : BuildState} (hwf : WF st) (hc : ChildIds st) {k : Nat}
    (h2 : 2 ≤ k) (hk : k < st.nextFuseInodeID) :
    ∃ p pinfo d, tableGet st.inodeTable p = some pinfo ∧ d ∈ pinfo.Children ∧ d.Inode = k := by
  have hmem : k ∈ allChildIds st.inodeTable := by
    rw [hc.mem_iff, List.mem_range'_1]; omega
  simp only [allChildIds, List.mem_flatMap, List.mem_map] at hmem
  obtain ⟨⟨p, pinfo⟩, hp, d, hd, hdk⟩ := hmem
  exact ⟨p, pinfo, d, tableGet_of_mem _ hwf.keys_nodup hp, hd, hdk⟩

theorem Reach.snoc {tbl : List (Nat × InodeInfo)} {a p : Nat} {pinfo : InodeInfo} {d : Dirent}
    (h : Reach tbl a p) (hp : tableGet tbl p = some pinfo) (hd : d ∈ pinfo.Children) :
    Reach tbl a d.Inode := by
  induction h with
  | refl k => exact Reach.step hp hd (Reach.refl _)
  | step hg hm _ ih => exact Reach.step hg hm (ih hp)

/-- Every stored inode is reached from the root. -/
theorem reach_root {st : BuildState} (hwf : WF st) (hc : ChildIds st) :
    ∀ n k, k < n → 1 ≤ k → k < st.nextFuseInodeID → Reach st.inodeTable RootInodeID k := by
  intro n
  induction n with
  | zero => intro k h; omega
  | succ n ih =>
    intro k hkn h1 hk
    by_cases hr : k = 1
    · subst hr; exact Reach.refl _
    · obtain ⟨p, pinfo, d, hp, hd, hdk⟩ := parent_exists hwf hc (by omega) hk
      have hlt := hwf.child_lt _ _ hp d hd
      have hpm := (hwf.mem_iff p).1 ⟨pinfo, hp⟩
      have := ih p (by omega) hpm.1 hpm.2
      rw [← hdk]
      exact this.snoc hp hd

/-! ## The invariant of every build -/

theorem pathInv_mono {st : BuildState} {C F C2 F2 : List GoString → Prop}
    {gp : Nat → List GoString} (h : PathInv st C F gp)
    (hC : ∀ q, C q → C2 q) (hF : ∀ q, F q → F2 q) : PathInv st C2 F2 gp :=
  { root := h.root
    child_path := h.child_path
    covered := fun k ii hk hr => ⟨hC _ (h.covered k ii hk hr).1, (h.covered k ii hk hr).2⟩
    file_inode := fun k ii hk hd => hF _ (h.file_inode k ii hk hd)
    kind := h.kind }

theorem TreeInv.toPathInv {st : BuildState} {C F : List GoString → Prop}
    {gp : Nat → List GoString} (h : TreeInv st C F gp) : PathInv st C F gp :=
  { root := h.root
    child_path := h.child_path
    covered := h.covered
    file_inode := h.file_inode
    kind := h.kind }

theorem pathInv_init :
    PathInv { inodeTable := tableSet [] RootInodeID rootInode,
              nextFuseInodeID := RootInodeID + 1 }
      (fun _ => False) (fun _ => False) (fun _ => []) :=
  treeInv_init.toPathInv

/-- Hanging a new child under an inode keeps the invariant of every build,
with the path of the new inode the path of the parent extended by the name. -/
theorem pathInv_addChild {st : BuildState} {C F : List GoString → Prop}
    {gp : Nat → List GoString} (hwf : WF st) (hinv : PathInv st C F gp)
    {inodeId : Nat} {ii : InodeInfo} (hget : tableGet st.inodeTable inodeId = some ii)
    (x : GoString) (typ : DirentType) (newInode : InodeInfo)
    (hnew : newInode.Children = [])
    (hcov : C (gp inodeId ++ [x]))
    (hkind : typ = DirentType.DT_Directory ↔ newInode.Dir = true)
    (hfile : newInode.Dir = false → F (gp inodeId ++ [x])) :
    PathInv (addChild st inodeId ii x typ newInode) C F
      (Function.update gp st.nextFuseInodeID (gp inodeId ++ [x])) := by
  have hid := (hwf.mem_iff inodeId).1 ⟨ii, hget⟩
  have hge := hwf.next_ge
  have hext := ext_addChild hwf hget x typ newInode
  have hgp_old : ∀ k, k < st.nextFuseInodeID →
      Function.update gp st.nextFuseInodeID (gp inodeId ++ [x]) k = gp k := by
    intro k hk
    exact Function.update_noteq (by omega) _ _
  have hgp_new : Function.update gp st.nextFuseInodeID (gp inodeId ++ [x]) st.nextFuseInodeID
      = gp inodeId ++ [x] := Function.update_same _ _ _
  have hold : ∀ k ii2, tableGet st.inodeTable k = some ii2 → k < st.nextFuseInodeID :=
    fun k ii2 hk => ((hwf.mem_iff k).1 ⟨ii2, hk⟩).2
  refine ⟨?_, ?_, ?_, ?_, ?_⟩
  · rw [hgp_old _ (by simp [RootInodeID]; omega)]; exact hinv.root
  · intro k ii2 hk d hd
    rw [tableGet_addChild] at hk
    split at hk
    · cases hk; simp [hnew] at hd
    · split at hk
      · cases hk
        rename_i hik
        subst hik
        rw [hgp_old _ hid.2]
        simp only [List.mem_append, List.mem_singleton] at hd
        rcases hd with hd | hd
        · rw [hgp_old _ (hwf.child_lt _ _ hget d hd).2]
          exact hinv.child_path _ _ hget d hd
        · subst hd; exact hgp_new
      · rw [hgp_old _ (hold k ii2 hk), hgp_old _ (hwf.child_lt _ _ hk d hd).2]
        exact hinv.child_path _ _ hk d hd
  · intro k ii2 hk hne
    rw [tableGet_addChild] at hk
    by_cases hkn : st.nextFuseInodeID = k
    · subst hkn
      rw [hgp_new]
      exact ⟨hcov, by simp⟩
    · simp only [hkn, if_false] at hk
      have hk3 : ∃ ii3, tableGet st.inodeTable k = some ii3 := by
        split at hk
        · rename_i hik; exact ⟨ii, hik ▸ hget⟩
        · exact ⟨_, hk⟩
      obtain ⟨ii3, hk3⟩ := hk3
      rw [hgp_old _ (hold k ii3 hk3)]
      exact hinv.covered _ _ hk3 hne
  · intro k ii2 hk hdir
    rw [tableGet_addChild] at hk
    by_cases hkn : st.nextFuseInodeID = k
    · subst hkn
      simp only [if_true, Option.some.injEq] at hk
      subst hk
      rw [hgp_new]
      exact hfile hdir
    · simp only [hkn, if_false] at hk
      split at hk
      · rename_i hik
        cases hk
        subst hik
        rw [hgp_old _ hid.2]
        exact hinv.file_inode _ _ hget hdir
      · rw [hgp_old _ (hold k ii2 hk)]
        exact hinv.file_inode _ _ hk hdir
  · intro k ii2 hk d hd
    have hnewget : tableGet (addChild st inodeId ii x typ newInode).inodeTable
        st.nextFuseInodeID = some newInode := by
      rw [tableGet_addChild]; simp
    have hpres : ∀ k2 (ii3 : InodeInfo) (d2 : Dirent), tableGet st.inodeTable k2 = some ii3 →
        d2 ∈ ii3.Children →
        ∃ ci, tableGet (addChild st inodeId ii x typ newInode).inodeTable d2.Inode = some ci ∧
          (d2.Typ = DirentType.DT_Directory ↔ ci.Dir = true) := by
      intro k2 ii3 d2 hk2 hd2
      obtain ⟨ci, hci, hiff⟩ := hinv.kind k2 ii3 hk2 d2 hd2
      obtain ⟨ci2, hci2, _, hdir2, _⟩ := hext.2 _ _ hci
      exact ⟨ci2, hci2, by rw [hdir2]; exact hiff⟩
    rw [tableGet_addChild] at hk
    split at hk
    · cases hk; simp [hnew] at hd
    · split at hk
      · cases hk
        simp only [List.mem_append, List.mem_singleton] at hd
        rcases hd with hd | hd
        · exact hpres _ _ _ hget hd
        · subst hd
          exact ⟨newInode, hnewget, hkind⟩
      · exact hpres _ _ _ hk hd

/-! ## Walks the way `buildHelper` descends -/

theorem findChild_append_new (x : GoString) (cs : List Dirent) (d : Dirent) :
    findChild x (cs ++ [d]) = if d.Name = x then (true, d.Inode) else findChild x cs := by
  simp [findChild, List.foldl_append]

theorem walkL_step {tbl : List (Nat × InodeInfo)} {s r : Nat} {x : GoString}
    {xs : List GoString} (h : walkL tbl s (x :: xs) = some r) :
    ∃ ii c, tableGet tbl s = some ii ∧ findChild x ii.Children = (true, c) ∧
      walkL tbl c xs = some r := by
  simp only [walkL] at h
  cases hg : tableGet tbl s with
  | none => simp [hg] at h
  | some ii =>
    simp only [hg] at h
    cases hc : findChild x ii.Children with
    | mk found c =>
      cases found with
      | false => simp [hc] at h
      | true =>
        simp only [hc] at h
        exact ⟨ii, c, rfl, hc, h⟩

theorem walkL_append (tbl : List (Nat × InodeInfo)) :
    ∀ (q r : List GoString) (s : Nat),
      walkL tbl s (q ++ r) = (walkL tbl s q).bind (fun k => walkL tbl k r) := by
  intro q
  induction q with
  | nil => intro r s; simp [walkL]
  | cons x xs ih =>
    intro r s
    simp only [List.cons_append, walkL]
    cases hg : tableGet tbl s with
    | none => simp
    | some ii =>
      cases hc : findChild x ii.Children with
      | mk found c =>
        cases found with
        | false => simp [hc]
        | true => simp only [hc]; exact ih r c

/-- A walk from a stored inode ends at a stored inode whose path is the path
of the start extended by the names walked. -/
theorem walkL_gp {st : BuildState} {C F : List GoString → Prop} {gp : Nat → List GoString}
    (hwf : WF st) (hinv : PathInv st C F gp) :
    ∀ (q : List GoString) (s k : Nat), (∃ ii, tableGet st.inodeTable s = some ii) →
      walkL st.inodeTable s q = some k →
      (∃ ii, tableGet st.inodeTable k = some ii) ∧ gp k = gp s ++ q := by
  intro q
  induction q with
  | nil =>
    intro s k hs hw
    simp only [walkL, Option.some.injEq] at hw
    subst hw
    exact ⟨hs, by simp⟩
  | cons x xs ih =>
    intro s k _ hw
    obtain ⟨ii, c, hg, hc, hw2⟩ := walkL_step hw
    obtain ⟨d, hd, hdx, hdc⟩ := findChild_true hc
    have hlt := hwf.child_lt _ _ hg d hd
    have hmem : ∃ ii2, tableGet st.inodeTable c = some ii2 :=
      (hwf.mem_iff c).2 (by omega)
    obtain ⟨h1, h2⟩ := ih c k hmem hw2
    refine ⟨h1, ?_⟩
    have hp := hinv.child_path _ _ hg d hd
    rw [hdx, hdc] at hp
    rw [h2, hp]
    simp

theorem tableGet_addChild_old {st : BuildState} {inodeId : Nat} {ii : InodeInfo}
    (hget : tableGet st.inodeTable inodeId = some ii) (x : GoString) (typ : DirentType)
    (newInode : InodeInfo) {k : Nat} {ik : InodeInfo} (hne : st.nextFuseInodeID ≠ k)
    (hk : tableGet (addChild st inodeId ii x typ newInode).inodeTable k = some ik) :
    ∃ i0, tableGet st.inodeTable k = some i0 ∧
      (ik.Children ≠ [] → k ≠ inodeId → i0.Children ≠ []) := by
  rw [tableGet_addChild] at hk
  simp only [hne, if_false] at hk
  split at hk
  · rename_i hik
    subst hik
    exact ⟨ii, hget, fun _ h => absurd rfl h⟩
  · exact ⟨ik, hk, fun h _ => h⟩

theorem prefix_append_singleton_self {α : Type} (p : List α) (x : α) : ¬ (p ++ [x] <+: p) := by
  intro h
  have := h.length_le
  simp at this

/-- A new child under `inodeId` named `x` does not change the walks that never
ask that inode for the name `x`. -/
theorem walkL_addChild_stable {st : BuildState} {C F : List GoString → Prop}
    {gp : Nat → List GoString} (hwf : WF st) (hinv : PathInv st C F gp)
    {inodeId : Nat} {ii : InodeInfo} (hget : tableGet st.inodeTable inodeId = some ii)
    (x : GoString) (typ : DirentType) (newInode : InodeInfo) :
    ∀ (q : List GoString) (s : Nat), (∃ si, tableGet st.inodeTable s = some si) →
      ¬ (gp inodeId ++ [x] <+: gp s ++ q) →
      walkL (addChild st inodeId ii x typ newInode).inodeTable s q
        = walkL st.inodeTable s q := by
  intro q
  induction q with
  | nil => intro s _ _; rfl
  | cons y ys ih =>
    intro s ⟨si, hs⟩ hnp
    have hsn : st.nextFuseInodeID ≠ s := by
      have := (hwf.mem_iff s).1 ⟨si, hs⟩
      omega
    have hnext : ∀ c, findChild y si.Children = (true, c) →
        walkL (addChild st inodeId ii x typ newInode).inodeTable c ys
          = walkL st.inodeTable c ys := by
      intro c hc
      obtain ⟨d, hd, hdy, hdc⟩ := findChild_true hc
      have hlt := hwf.child_lt _ _ hs d hd
      have hp := hinv.child_path _ _ hs d hd
      rw [hdy, hdc] at hp
      apply ih c ((hwf.mem_iff c).2 (by omega))
      rw [hp]
      simpa using hnp
    simp only [walkL, tableGet_addChild, hsn, if_false, hs]
    by_cases hsi : inodeId = s
    · subst hsi
      rw [hget] at hs
      cases hs
      simp only [if_true]
      have hxy : ¬ x = y := by
        intro e
        subst e
        apply hnp
        exact ⟨ys, by simp⟩
      rw [findChild_append_new]
      simp only [hxy, if_false]
      cases hc : findChild y ii.Children with
      | mk found c =>
        cases found with
        | false => simp only []
        | true => simp only []; exact hnext c hc
    · simp only [hsi, if_false, hs]
      cases hc : findChild y si.Children with
      | mk found c =>
        cases found with
        | false => simp only []
        | true => simp only []; exact hnext c hc

/-- Hanging a new child under the inode `buildHelper` has reached keeps the
order part of the invariant, and the walk along the new path finds the new
inode. -/
theorem lastInv_addChild {st : BuildState} {C F : List GoString → Prop}
    {cnt : List GoString → Nat} {gp : Nat → List GoString} (hwf : WF st)
    (hinv : PathInv st C F gp) (hl : LastInv st cnt gp)
    {inodeId : Nat} {ii : InodeInfo} (hget : tableGet st.inodeTable inodeId = some ii)
    (hwalk : walkL st.inodeTable RootInodeID (gp inodeId) = some inodeId)
    (x : GoString) (typ : DirentType) (newInode : InodeInfo) (hnew : newInode.Children = [])
    (hB : ∀ k ik, tableGet st.inodeTable k = some ik → ik.Children ≠ [] →
      ¬ (gp inodeId ++ [x] <+: gp k))
    (hA : ∀ m im, tableGet st.inodeTable m = some im → gp m = gp inodeId ++ [x] →
      2 ≤ cnt (gp inodeId ++ [x])) :
    LastInv (addChild st inodeId ii x typ newInode) cnt
        (Function.update gp st.nextFuseInodeID (gp inodeId ++ [x])) ∧
      walkL (addChild st inodeId ii x typ newInode).inodeTable RootInodeID
        (gp inodeId ++ [x]) = some st.nextFuseInodeID := by
  have hid := (hwf.mem_iff inodeId).1 ⟨ii, hget⟩
  have hne : st.nextFuseInodeID ≠ inodeId := by omega
  have hgp_old : ∀ k, k < st.nextFuseInodeID →
      Function.update gp st.nextFuseInodeID (gp inodeId ++ [x]) k = gp k := by
    intro k hk
    exact Function.update_noteq (by omega) _ _
  have hgp_new : Function.update gp st.nextFuseInodeID (gp inodeId ++ [x]) st.nextFuseInodeID
      = gp inodeId ++ [x] := Function.update_same _ _ _
  have hold : ∀ k ii2, tableGet st.inodeTable k = some ii2 → k < st.nextFuseInodeID :=
    fun k ii2 hk => ((hwf.mem_iff k).1 ⟨ii2, hk⟩).2
  have hstab : ∀ q, ¬ (gp inodeId ++ [x] <+: q) →
      walkL (addChild st inodeId ii x typ newInode).inodeTable RootInodeID q
        = walkL st.inodeTable RootInodeID q := by
    intro q hq
    apply walkL_addChild_stable hwf hinv hget x typ newInode q RootInodeID (wf_root_mem hwf)
    rw [hinv.root]
    simpa using hq
  have hwn : walkL (addChild st inodeId ii x typ newInode).inodeTable RootInodeID
      (gp inodeId) = some inodeId := by
    rw [hstab _ (prefix_append_singleton_self _ _)]
    exact hwalk
  have hwnew : walkL (addChild st inodeId ii x typ newInode).inodeTable RootInodeID
      (gp inodeId ++ [x]) = some st.nextFuseInodeID := by
    rw [walkL_append, hwn]
    simp only [Option.some_bind, walkL, tableGet_addChild, hne, if_false, if_true]
    rw [findChild_append_new]
    simp
  refine ⟨⟨?_, ?_⟩, hwnew⟩
  · intro k ik hk hch
    by_cases hkn : st.nextFuseInodeID = k
    · subst hkn
      rw [tableGet_addChild] at hk
      simp only [if_true, Option.some.injEq] at hk
      subst hk
      exact absurd hnew hch
    · obtain ⟨i0, hk0, hch0⟩ := tableGet_addChild_old hget x typ newInode hkn hk
      rw [hgp_old _ (hold k i0 hk0)]
      by_cases hki : k = inodeId
      · subst hki; exact hwn
      · have hc0 := hch0 hch hki
        rw [hstab _ (hB k i0 hk0 hc0)]
        exact hl.lastwalk k i0 hk0 hc0
  · intro k1 k2 i1 i2 hk1 hk2 hgp hne12
    by_cases h1 : st.nextFuseInodeID = k1
    · subst h1
      have h2 : st.nextFuseInodeID ≠ k2 := hne12
      obtain ⟨j2, hj2, _⟩ := tableGet_addChild_old hget x typ newInode h2 hk2
      rw [hgp_new, hgp_old _ (hold k2 j2 hj2)] at hgp
      rw [hgp_new]
      exact hA k2 j2 hj2 hgp.symm
    · obtain ⟨j1, hj1, _⟩ := tableGet_addChild_old hget x typ newInode h1 hk1
      rw [hgp_old _ (hold k1 j1 hj1)] at hgp ⊢
      by_cases h2 : st.nextFuseInodeID = k2
      · subst h2
        rw [hgp_new] at hgp
        rw [hgp]
        exact hA k1 j1 hj1 hgp
      · obtain ⟨j2, hj2, _⟩ := tableGet_addChild_old hget x typ newInode h2 hk2
        rw [hgp_old _ (hold k2 j2 hj2)] at hgp
        exact hl.uniq k1 k2 j1 j2 hj1 hj2 hgp hne12

theorem lastInv_mono {st : BuildState} {cnt cnt2 : List GoString → Nat}
    {gp : Nat → List GoString} (h : LastInv st cnt gp) (hc : ∀ q, cnt q ≤ cnt2 q) :
    LastInv st cnt2 gp :=
  { lastwalk := h.lastwalk
    uniq := fun k1 k2 i1 i2 h1 h2 hg hne =>
      Nat.le_trans (h.uniq k1 k2 i1 i2 h1 h2 hg hne) (hc _) }

theorem lastInv_init (cnt : List GoString → Nat) :
    LastInv { inodeTable := tableSet [] RootInodeID rootInode,
              nextFuseInodeID := RootInodeID + 1 } cnt (fun _ => []) := by
  have hget : ∀ k ii, tableGet (tableSet [] RootInodeID rootInode) k = some ii →
      k = RootInodeID ∧ ii = rootInode := by
    intro k ii hk
    simp only [tableSet, tableGet] at hk
    split at hk
    · rename_i h; cases hk; exact ⟨h.symm, rfl⟩
    · cases hk
  refine ⟨?_, ?_⟩
  · intro k ii hk hch
    obtain ⟨_, rfl⟩ := hget k ii hk
    simp [rootInode] at hch
  · intro k1 k2 i1 i2 h1 h2 _ hne
    exact absurd ((hget k1 i1 h1).1.trans (hget k2 i2 h2).1.symm) hne

theorem prefix_antisymm {α : Type} {a b : List α} (h1 : a <+: b) (h2 : b <+: a) : a = b := by
  obtain ⟨t, rfl⟩ := h1
  have := h2.length_le
  simp only [List.length_append] at this
  have ht : t = [] := List.length_eq_zero.1 (by omega)
  simp [ht]

/-- One descent of `buildHelper` for an entry with path `S`, where no path on
the way to an earlier entry properly extends `S`: it returns and keeps both
parts of the invariant. -/
theorem insertSegs_sortInv (ent : entry) (S : List GoString)
    (C F : List GoString → Prop) (cnt : List GoString → Nat)
    (hext : ∀ q, C q → S <+: q → q = S) (hcnt : C S → 2 ≤ cnt S) :
    ∀ (rest : List GoString) (st : BuildState) (inodeId : Nat) (gp : Nat → List GoString),
      rest ≠ [] → WF st → ChildIds st →
      PathInv st (fun q => C q ∨ (q <+: S ∧ q ≠ S))
        (fun q => F q ∨ (ent.isDir = false ∧ q = S)) gp →
      LastInv st cnt gp →
      (∃ ii, tableGet st.inodeTable inodeId = some ii) →
      walkL st.inodeTable RootInodeID (gp inodeId) = some inodeId →
      gp inodeId ++ rest = S →
      ∃ st2 gp2, insertSegs ent.isDir ent.size st inodeId rest = some st2 ∧ WF st2 ∧
        Ext st st2 ∧ ChildIds st2 ∧
        PathInv st2 (fun q => C q ∨ q <+: S) (fun q => F q ∨ (ent.isDir = false ∧ q = S)) gp2 ∧
        LastInv st2 cnt gp2 ∧
        (∀ k, k < st.nextFuseInodeID → gp2 k = gp k) ∧
        (∃ k ii, gp2 k = S ∧ tableGet st2.inodeTable k = some ii ∧
          ii.Attributes = (leafInode ent).Attributes ∧ ii.Dir = ent.isDir) := by
  intro rest
  induction rest with
  | nil => intro st inodeId gp h; exact absurd rfl h
  | cons x rest ih =>
    intro st inodeId gp _ hwf hci hinv hl ⟨ii, hget⟩ hwalk hS
    have hid := (hwf.mem_iff inodeId).1 ⟨ii, hget⟩
    have hnotroot : ∀ k, gp inodeId ++ [x] <+: gp k → k ≠ RootInodeID := by
      intro k hk e
      rw [e, hinv.root] at hk
      have := hk.length_le
      simp at this
    cases rest with
    | nil =>
      have hB : ∀ k ik, tableGet st.inodeTable k = some ik → ik.Children ≠ [] →
          ¬ (gp inodeId ++ [x] <+: gp k) := by
        intro k ik hk hch hpre
        have hkr := hnotroot k hpre
        rw [hS] at hpre
        have hkS : gp k = S := by
          rcases (hinv.covered _ _ hk hkr).1 with hc | hc
          · exact hext _ hc hpre
          · exact prefix_antisymm hc.1 hpre
        obtain ⟨d, hd⟩ := List.exists_mem_of_ne_nil _ hch
        have hlt := hwf.child_lt _ _ hk d hd
        obtain ⟨ci, hci2⟩ := (hwf.mem_iff d.Inode).2 ⟨by omega, hlt.2⟩
        have hp := hinv.child_path _ _ hk d hd
        rw [hkS] at hp
        have hkm := (hwf.mem_iff k).1 ⟨ik, hk⟩
        have hdr : d.Inode ≠ RootInodeID := by simp only [RootInodeID]; omega
        rcases (hinv.covered _ _ hci2 hdr).1 with hc | hc
        · have := hext _ hc (by rw [hp]; exact List.prefix_append _ _)
          rw [hp] at this
          have := congrArg List.length this
          simp at this
        · rw [hp] at hc
          exact prefix_append_singleton_self _ _ hc.1
      have hA : ∀ m im, tableGet st.inodeTable m = some im → gp m = gp inodeId ++ [x] →
          2 ≤ cnt (gp inodeId ++ [x]) := by
        intro m im hm hgm
        have hmr : m ≠ RootInodeID := hnotroot m (by rw [hgm])
        rw [hS] at hgm ⊢
        rcases (hinv.covered _ _ hm hmr).1 with hc | hc
        · rw [hgm] at hc; exact hcnt hc
        · exact absurd hgm hc.2
      have hinv2 : PathInv st (fun q => C q ∨ q <+: S)
          (fun q => F q ∨ (ent.isDir = false ∧ q = S)) gp :=
        pathInv_mono hinv (fun q hq => hq.imp id (fun h => h.1)) (fun _ h => h)
      have hnewInv := pathInv_addChild hwf hinv2 hget x
        (if ent.isDir then DirentType.DT_Directory else DirentType.DT_File)
        (leafInode { filePath := x, isDir := ent.isDir, size := ent.size })
        (leafInode_children _)
        (Or.inr (by rw [hS]))
        (by rw [leafInode_dir]; cases ent.isDir <;> simp)
        (by intro h; rw [leafInode_dir] at h; exact Or.inr ⟨h, hS⟩)
      have hnewL := (lastInv_addChild hwf hinv hl hget hwalk x
        (if ent.isDir then DirentType.DT_Directory else DirentType.DT_File)
        (leafInode { filePath := x, isDir := ent.isDir, size := ent.size })
        (leafInode_children _) hB hA).1
      refine ⟨_, _, by simp [insertSegs, findInodeInfo, hget], ?_, ?_, ?_, hnewInv, hnewL,
        ?_, ?_⟩
      · exact wf_addChild hwf hget _ _ _ (leafInode_children _)
      · exact ext_addChild hwf hget _ _ _
      · exact childIds_addChild hwf hci hget _ _ _ (leafInode_children _)
      · intro k hk
        exact Function.update_noteq (by omega) _ _
      · refine ⟨st.nextFuseInodeID,
          leafInode { filePath := x, isDir := ent.isDir, size := ent.size }, ?_, ?_, ?_, ?_⟩
        · rw [Function.update_same, hS]
        · rw [tableGet_addChild]; simp
        · rw [leafInode_congr]
        · rw [leafInode_congr, leafInode_dir]
    | cons y rest =>
      cases hf : findChild x ii.Children with
      | mk found c =>
        cases found with
        | true =>
          obtain ⟨d, hd, hdx, hc⟩ := findChild_true hf
          have hlt := hwf.child_lt _ _ hget d hd
          have hmem : ∃ ii2, tableGet st.inodeTable c = some ii2 :=
            (hwf.mem_iff c).2 (by omega)
          have hp := hinv.child_path _ _ hget d hd
          rw [hdx, hc] at hp
          have hwc : walkL st.inodeTable RootInodeID (gp c) = some c := by
            rw [hp, walkL_append, hwalk]
            simp [walkL, hget, hf]
          obtain ⟨st2, gp2, h1, h2, h3, h4, h5, h6, h7, h8⟩ :=
            ih st c gp (by simp) hwf hci hinv hl hmem hwc (by rw [hp, ← hS]; simp)
          exact ⟨st2, gp2, by simp [insertSegs, findInodeInfo, hget, hf, h1], h2, h3, h4, h5,
            h6, h7, h8⟩
        | false =>
          have hname := findChild_false hf
          have hB : ∀ k ik, tableGet st.inodeTable k = some ik → ik.Children ≠ [] →
              ¬ (gp inodeId ++ [x] <+: gp k) := by
            intro k ik hk hch hpre
            have hw := hl.lastwalk k ik hk hch
            obtain ⟨r, hr⟩ := hpre
            rw [← hr, List.append_assoc, walkL_append, hwalk] at hw
            simp only [Option.some_bind, List.singleton_append] at hw
            obtain ⟨ii2, c2, hg2, hc2, _⟩ := walkL_step hw
            rw [hget] at hg2
            cases hg2
            rw [hf] at hc2
            cases hc2
          have hA : ∀ m im, tableGet st.inodeTable m = some im → gp m = gp inodeId ++ [x] →
              2 ≤ cnt (gp inodeId ++ [x]) := by
            intro m im hm hgm
            exfalso
            have hmr : m ≠ RootInodeID := hnotroot m (by rw [hgm])
            have hmm := (hwf.mem_iff m).1 ⟨im, hm⟩
            simp only [RootInodeID] at hmr
            obtain ⟨p, pinfo, d, hp, hd, hdm⟩ := parent_exists hwf hci (k := m) (by omega) hmm.2
            have hcp := hinv.child_path _ _ hp d hd
            rw [hdm, hgm] at hcp
            have hinj := List.append_inj' hcp rfl
            have hw := hl.lastwalk p pinfo hp (List.ne_nil_of_mem hd)
            rw [← hinj.1, hwalk] at hw
            cases hw
            rw [hget] at hp
            cases hp
            have hx : d.Name = x := by simpa using hinj.2.symm
            exact hname d hd hx
          have hwf2 := wf_addChild hwf hget x DirentType.DT_Directory impliedDirInode rfl
          have hext := ext_addChild hwf hget x DirentType.DT_Directory impliedDirInode
          have hci2 := childIds_addChild hwf hci hget x DirentType.DT_Directory
            impliedDirInode rfl
          have hinv2 := pathInv_addChild hwf hinv hget x DirentType.DT_Directory
            impliedDirInode rfl
            (Or.inr ⟨⟨y :: rest, by rw [← hS]; simp⟩, by
              intro h
              have := congrArg List.length h
              rw [← hS] at this
              simp at this⟩)
            (by simp [impliedDirInode])
            (by simp [impliedDirInode])
          obtain ⟨hl2, hw2⟩ := lastInv_addChild hwf hinv hl hget hwalk x
            DirentType.DT_Directory impliedDirInode rfl hB hA
          have hmem : ∃ ii2, tableGet
              (addChild st inodeId ii x DirentType.DT_Directory impliedDirInode).inodeTable
              st.nextFuseInodeID = some ii2 :=
            ⟨impliedDirInode, by simp [tableGet_addChild]⟩
          obtain ⟨st2, gp2, h1, h2, h3, h4, h5, h6, h7, h8⟩ :=
            ih _ st.nextFuseInodeID _ (by simp) hwf2 hci2 hinv2 hl2 hmem
              (by rw [Function.update_same]; exact hw2)
              (by rw [Function.update_same, ← hS]; simp)
          refine ⟨st2, gp2, by simp [insertSegs, findInodeInfo, hget, hf, h1], h2,
            ext_trans hext h3, h4, h5, h6, ?_, h8⟩
          intro k hk
          rw [h7 k (by simp only [addChild]; omega)]
          exact Function.update_noteq (by omega) _ _

theorem cntBy_append_le (done : List entry) (e : entry) (q : List GoString) :
    cntBy done q ≤ cntBy (done ++ [e]) q := by
  simp only [cntBy, List.filter_append, List.length_append]
  omega

/-- An entry that sorts before another one and lies on its way or beyond has
the same path. -/
theorem segs_eq_of_sorted_prefix {a e : entry} (hle : lessEntry a e = true)
    (hpre : segsOf e <+: segsOf a) : segsOf a = segsOf e := by
  simp only [lessEntry, decide_eq_true_eq] at hle
  by_cases hp : a.filePath = e.filePath
  · simp only [segsOf, hp]
  · exact absurd hpre (not_prefix_of_sorted hle hp)

/-- The loop over sorted entries keeps both parts of the invariant and gives
every entry its inode, for every archive. -/
theorem foldlM_buildHelper_sortInv :
    ∀ (rest done : List entry) (st : BuildState) (gp : Nat → List GoString),
      (done ++ rest).Pairwise (fun a b => lessEntry a b = true) → WF st → ChildIds st →
      PathInv st (covBy done) (fileBy done) gp → LastInv st (cntBy done) gp →
      (∀ e ∈ done, Resolved st gp e) →
      ∃ st2 gp2, rest.foldlM (fun st ent => buildHelper st RootInodeID ent) st = some st2 ∧
        WF st2 ∧ ChildIds st2 ∧
        PathInv st2 (covBy (done ++ rest)) (fileBy (done ++ rest)) gp2 ∧
        LastInv st2 (cntBy (done ++ rest)) gp2 ∧
        ∀ e ∈ done ++ rest, Resolved st2 gp2 e := by
  intro rest
  induction rest with
  | nil =>
    intro done st gp _ hwf hci hinv hl hres
    exact ⟨st, gp, rfl, hwf, hci, by simpa using hinv, by simpa using hl, by simpa using hres⟩
  | cons e rest ih =>
    intro done st gp hpw hwf hci hinv hl hres
    have hsame : ∀ a ∈ done, segsOf e <+: segsOf a → segsOf a = segsOf e := by
      intro a ha hpre
      exact segs_eq_of_sorted_prefix ((List.pairwise_append.1 hpw).2.2 a ha e (by simp)) hpre
    have hext : ∀ q, covBy done q → segsOf e <+: q → q = segsOf e := by
      rintro q ⟨a, ha, hq⟩ hpre
      have := hsame a ha (hpre.trans hq)
      rw [this] at hq
      exact prefix_antisymm hq hpre
    have hcnt : covBy done (segsOf e) → 2 ≤ cntBy (done ++ [e]) (segsOf e) := by
      rintro ⟨a, ha, hq⟩
      have hsa := hsame a ha hq
      have h1 : 0 < (done.filter fun b => decide (segsOf b = segsOf e)).length :=
        List.length_pos_of_mem (List.mem_filter.2 ⟨ha, by simpa using hsa⟩)
      simp only [cntBy, List.filter_append, List.length_append]
      simp only [List.filter_cons, decide_True, if_true, List.filter_nil, List.length_singleton]
      omega
    have hroot : walkL st.inodeTable RootInodeID (gp RootInodeID) = some RootInodeID := by
      rw [hinv.root]; rfl
    obtain ⟨st1, gp1, h1, hwf1, hext1, hci1, hinv1, hl1, hgp1, hres1⟩ :=
      insertSegs_sortInv e (segsOf e) (covBy done) (fileBy done) (cntBy (done ++ [e]))
        hext hcnt (segsOf e) st RootInodeID gp (splitSlash_ne_nil _) hwf hci
        (pathInv_mono hinv (fun _ h => Or.inl h) (fun _ h => Or.inl h))
        (lastInv_mono hl (cntBy_append_le done e)) (wf_root_mem hwf) hroot
        (by rw [hinv.root]; rfl)
    have hinv1b : PathInv st1 (covBy (done ++ [e])) (fileBy (done ++ [e])) gp1 := by
      refine pathInv_mono hinv1 ?_ ?_
      · rintro q (⟨a, ha, hq⟩ | hq)
        · exact ⟨a, by simp [ha], hq⟩
        · exact ⟨e, by simp, hq⟩
      · rintro q (⟨a, ha, hq⟩ | ⟨hd, hq⟩)
        · exact ⟨a, by simp [ha], hq⟩
        · exact ⟨e, by simp, hd, hq.symm⟩
    have hres1b : ∀ a ∈ done ++ [e], Resolved st1 gp1 a := by
      intro a ha
      rcases List.mem_append.1 ha with ha | ha
      · exact resolved_ext hwf hext1 hgp1 (hres a ha)
      · simp only [List.mem_singleton] at ha
        subst ha
        obtain ⟨k, ii, hk1, hk2, hk3, hk4⟩ := hres1
        exact ⟨k, ii, hk1, hk2, hk3, hk4⟩
    obtain ⟨st2, gp2, h2, hwf2, hci2, hinv2, hl2, hres2⟩ :=
      ih (done ++ [e]) st1 gp1 (by simpa using hpw) hwf1 hci1 hinv1b hl1 hres1b
    refine ⟨st2, gp2, ?_, hwf2, hci2, by simpa using hinv2, by simpa using hl2,
      by simpa using hres2⟩
    rw [List.foldlM_cons, buildHelper_eq_insertSegs]
    simp only [segsOf] at h1
    rw [h1]
    exact h2

/-- The build on any archive: the tree is well-shaped, every inode but the
root has one parent, both parts of the invariant hold for the sorted entries,
and every entry has its inode. -/
theorem buildInodeTable_sortInv (archive : List TarEntry) :
    ∃ st dt gp, buildTree (sortSlice (scanEntries archive)) = some st ∧ WF st ∧
      ChildIds st ∧
      PathInv st (covBy (sortSlice (scanEntries archive)))
        (fileBy (sortSlice (scanEntries archive))) gp ∧
      LastInv st (cntBy (sortSlice (scanEntries archive))) gp ∧
      (∀ e ∈ sortSlice (scanEntries archive), Resolved st gp e) ∧
      buildDentryFuel st.inodeTable.length st.inodeTable [] RootInodeID [] = some dt ∧
      buildInodeTable archive
        = some { opener := archive, inodeTable := st.inodeTable, direntTable := dt } := by
  obtain ⟨st, dt, hst, hwf, hdt, hb⟩ := buildInodeTable_total archive
  obtain ⟨st2, gp, h1, _, h3, h4, h5, h6⟩ :=
    foldlM_buildHelper_sortInv (sortSlice (scanEntries archive)) [] _ (fun _ => [])
      (by simpa using sortSlice_sorted (scanEntries archive)) wf_init childIds_init
      (pathInv_mono pathInv_init (fun _ h => h.elim) (fun _ h => h.elim))
      (lastInv_init _) (by simp)
  have heq : st2 = st := by
    have : buildTree (sortSlice (scanEntries archive)) = some st2 := h1
    rw [hst] at this
    exact (Option.some.inj this).symm
  subst heq
  exact ⟨st2, dt, gp, hst, hwf, h3, by simpa using h4, by simpa using h5, by simpa using h6,
    hdt, hb⟩

/-! ## The path index of every build -/

/-- The walk of `buildDentry` on the tree of any archive, started with the
rebuilt path of an inode: it returns; every key it writes is the id of a
non-directory child entry and the value is the rebuilt path of that id; it
drops no key; and it writes a key for every non-directory child entry of every
inode reached through directory entries. -/
theorem buildDentryFuel_index {st : BuildState} {C F : List GoString → Prop}
    {gp : Nat → List GoString} (hwf : WF st) (hinv : PathInv st C F gp) :
    ∀ (fuel k : Nat) (dt : List (Nat × GoString)),
      1 ≤ k → k < st.nextFuseInodeID → st.nextFuseInodeID - k ≤ fuel →
      ∃ dt2, buildDentryFuel fuel st.inodeTable (recon (gp k)) k dt = some dt2 ∧
        (∀ key v, tableGet dt2 key = some v → tableGet dt key = some v ∨
          (v = recon (gp key) ∧ ∃ n ni d, tableGet st.inodeTable n = some ni ∧
            d ∈ ni.Children ∧ d.Inode = key ∧ d.Typ ≠ DirentType.DT_Directory)) ∧
        (∀ key, tableGet dt key ≠ none → tableGet dt2 key ≠ none) ∧
        (∀ k2 ii2 d, DirReach st.inodeTable k k2 → tableGet st.inodeTable k2 = some ii2 →
          d ∈ ii2.Children → d.Typ ≠ DirentType.DT_Directory →
          tableGet dt2 d.Inode ≠ none) := by
  intro fuel
  induction fuel with
  | zero => intro k dt h1 h2 h3; omega
  | succ fuel ih =>
    intro k dt h1 h2 h3
    obtain ⟨ii, hget⟩ := (hwf.mem_iff k).2 ⟨h1, h2⟩
    have inner : ∀ (cs : List Dirent), (∀ d ∈ cs, d ∈ ii.Children) →
        ∀ dt0 : List (Nat × GoString),
        ∃ dt2, cs.foldlM
            (fun dt d =>
              if d.Typ = DirentType.DT_Directory then
                buildDentryFuel fuel st.inodeTable (filepathJoin (recon (gp k)) d.Name) d.Inode dt
              else some (tableSet dt d.Inode (filepathJoin (recon (gp k)) d.Name))) dt0
            = some dt2 ∧
          (∀ key v, tableGet dt2 key = some v →
            tableGet dt0 key = some v ∨
            (v = recon (gp key) ∧ ∃ n ni d, tableGet st.inodeTable n = some ni ∧
              d ∈ ni.Children ∧ d.Inode = key ∧ d.Typ ≠ DirentType.DT_Directory)) ∧
          (∀ key, tableGet dt0 key ≠ none → tableGet dt2 key ≠ none) ∧
          (∀ d ∈ cs,
            (d.Typ ≠ DirentType.DT_Directory → tableGet dt2 d.Inode ≠ none) ∧
            (d.Typ = DirentType.DT_Directory →
              ∀ k2 ii2 d2, DirReach st.inodeTable d.Inode k2 →
                tableGet st.inodeTable k2 = some ii2 → d2 ∈ ii2.Children →
                d2.Typ ≠ DirentType.DT_Directory → tableGet dt2 d2.Inode ≠ none)) := by
      intro cs
      induction cs with
      | nil =>
        intro _ dt0
        exact ⟨dt0, rfl, fun _ _ h => Or.inl h, fun _ h => h, by simp⟩
      | cons d ds ihcs =>
        intro hsub dt0
        have hd : d ∈ ii.Children := hsub d (by simp)
        have hlt := hwf.child_lt _ _ hget d hd
        have hpath : filepathJoin (recon (gp k)) d.Name = recon (gp d.Inode) := by
          rw [hinv.child_path _ _ hget d hd, recon_snoc]
        have hfirst : ∃ dt1,
            (if d.Typ = DirentType.DT_Directory then
                buildDentryFuel fuel st.inodeTable (filepathJoin (recon (gp k)) d.Name) d.Inode dt0
              else some (tableSet dt0 d.Inode (filepathJoin (recon (gp k)) d.Name))) = some dt1 ∧
            (∀ key v, tableGet dt1 key = some v →
              tableGet dt0 key = some v ∨
              (v = recon (gp key) ∧ ∃ n ni d, tableGet st.inodeTable n = some ni ∧
                d ∈ ni.Children ∧ d.Inode = key ∧ d.Typ ≠ DirentType.DT_Directory)) ∧
            (∀ key, tableGet dt0 key ≠ none → tableGet dt1 key ≠ none) ∧
            (d.Typ ≠ DirentType.DT_Directory → tableGet dt1 d.Inode ≠ none) ∧
            (d.Typ = DirentType.DT_Directory →
              ∀ k2 ii2 d2, DirReach st.inodeTable d.Inode k2 →
                tableGet st.inodeTable k2 = some ii2 → d2 ∈ ii2.Children →
                d2.Typ ≠ DirentType.DT_Directory → tableGet dt1 d2.Inode ≠ none) := by
          by_cases ht : d.Typ = DirentType.DT_Directory
          · obtain ⟨dt1, e1, e2, e3, e4⟩ := ih d.Inode dt0 (by omega) hlt.2 (by omega)
            refine ⟨dt1, ?_, e2, e3, fun h => absurd ht h, fun _ => e4⟩
            rw [if_pos ht, hpath]
            exact e1
          · refine ⟨tableSet dt0 d.Inode (recon (gp d.Inode)), ?_, ?_, ?_, ?_, fun h => absurd h ht⟩
            · rw [if_neg ht, hpath]
            · intro key v hv
              rw [tableGet_tableSet] at hv
              split at hv
              · rename_i hk
                subst hk
                right
                exact ⟨(Option.some.inj hv).symm, k, ii, d, hget, hd, rfl, ht⟩
              · exact Or.inl hv
            · intro key hk
              rw [tableGet_tableSet]
              split
              · simp
              · exact hk
            · intro _
              rw [tableGet_tableSet]
              simp
        obtain ⟨dt1, e1, e2, e3, e4, e5⟩ := hfirst
        obtain ⟨dt2, f1, f2, f3, f4⟩ := ihcs (fun d2 h => hsub d2 (by simp [h])) dt1
        refine ⟨dt2, ?_, ?_, ?_, ?_⟩
        · rw [List.foldlM_cons, e1]
          exact f1
        · intro key v hv
          rcases f2 key v hv with h | h
          · exact e2 key v h
          · exact Or.inr h
        · intro key hk
          exact f3 key (e3 key hk)
        · intro d2 hd2
          rcases List.mem_cons.1 hd2 with rfl | hd2
          · exact ⟨fun h => f3 _ (e4 h),
              fun h k2 ii2 d3 hr hg hm ht => f3 _ (e5 h k2 ii2 d3 hr hg hm ht)⟩
          · exact f4 d2 hd2
    obtain ⟨dt2, g1, g2, g3, g4⟩ := inner ii.Children (fun _ h => h) dt
    refine ⟨dt2, ?_, g2, g3, ?_⟩
    · simp only [buildDentryFuel, hget]
      exact g1
    · intro k2 ii2 d hr hg hm ht
      cases hr with
      | refl =>
        rw [hget] at hg
        cases hg
        exact (g4 d hm).1 ht
      | step hg0 hd0 ht0 hr0 =>
        rw [hget] at hg0
        cases hg0
        exact (g4 _ hd0).2 ht0 k2 ii2 d hr0 hg hm ht

theorem dirReach_snoc {tbl : List (Nat × InodeInfo)} {a p : Nat} {pinfo : InodeInfo}
    {d : Dirent} (h : DirReach tbl a p) (hp : tableGet tbl p = some pinfo)
    (hd : d ∈ pinfo.Children) (ht : d.Typ = DirentType.DT_Directory) :
    DirReach tbl a d.Inode := by
  induction h with
  | refl k => exact DirReach.step hp hd ht (DirReach.refl _)
  | step hg hm htm _ ih => exact DirReach.step hg hm htm (ih hp)

/-- An inode all of whose ancestors, and itself, are directories is reached
from the root through directory entries. -/
theorem dirReach_of_dirs {st : BuildState} {C F : List GoString → Prop}
    {gp : Nat → List GoString} (hwf : WF st) (hci : ChildIds st) (hinv : PathInv st C F gp) :
    ∀ n k, k < n → ∀ ki, tableGet st.inodeTable k = some ki →
      (∀ m mi, tableGet st.inodeTable m = some mi → gp m <+: gp k → m ≠ RootInodeID →
        mi.Dir = true) →
      DirReach st.inodeTable RootInodeID k := by
  intro n
  induction n with
  | zero => intro k h; omega
  | succ n ih =>
    intro k hkn ki hk hdirs
    have hkm := (hwf.mem_iff k).1 ⟨ki, hk⟩
    by_cases hr : k = 1
    · subst hr; exact DirReach.refl _
    · obtain ⟨p, pinfo, d, hp, hd, hdk⟩ := parent_exists hwf hci (k := k) (by omega) hkm.2
      have hlt := hwf.child_lt _ _ hp d hd
      have hcp := hinv.child_path _ _ hp d hd
      rw [hdk] at hcp
      have hpre : gp p <+: gp k := by rw [hcp]; exact List.prefix_append _ _
      have hrp := ih p (by omega) pinfo hp
        (fun m mi hm hmp hmr => hdirs m mi hm (hmp.trans hpre) hmr)
      obtain ⟨ci, hci2, hiff⟩ := hinv.kind _ _ hp d hd
      rw [hdk, hk] at hci2
      cases hci2
      have hkd := hdirs k ki hk (List.prefix_refl _) (by simp only [RootInodeID]; exact hr)
      rw [← hdk]
      exact dirReach_snoc hrp hp hd (hiff.2 hkd)

/-! ## Inodes and their paths -/

theorem pathTo_gp {st : BuildState} {C F : List GoString → Prop} {gp : Nat → List GoString}
    (hwf : WF st) (hinv : PathInv st C F gp) {k : Nat} {q : List GoString}
    (h : PathTo st.inodeTable k q) :
    (∃ ii, tableGet st.inodeTable k = some ii) ∧ gp k = q := by
  induction h with
  | root => exact ⟨wf_root_mem hwf, hinv.root⟩
  | step _ hg hd ih =>
    have hlt := hwf.child_lt _ _ hg _ hd
    refine ⟨(hwf.mem_iff _).2 ⟨by omega, hlt.2⟩, ?_⟩
    rw [hinv.child_path _ _ hg _ hd, ih.2]

theorem pathTo_of_mem {st : BuildState} {C F : List GoString → Prop}
    {gp : Nat → List GoString} (hwf : WF st) (hci : ChildIds st) (hinv : PathInv st C F gp) :
    ∀ n k, k < n → 1 ≤ k → k < st.nextFuseInodeID → PathTo st.inodeTable k (gp k) := by
  intro n
  induction n with
  | zero => intro k h; omega
  | succ n ih =>
    intro k hkn h1 hk
    by_cases hr : k = 1
    · subst hr
      have := hinv.root
      simp only [RootInodeID] at this
      rw [this]
      exact PathTo.root
    · obtain ⟨p, pinfo, d, hp, hd, hdk⟩ := parent_exists hwf hci (k := k) (by omega) hk
      have hlt := hwf.child_lt _ _ hp d hd
      have hpm := (hwf.mem_iff p).1 ⟨pinfo, hp⟩
      have hpp := ih p (by omega) hpm.1 hpm.2
      have hcp := hinv.child_path _ _ hp d hd
      rw [← hdk, hcp]
      exact PathTo.step hpp hp hd

theorem root_is_dir {st : BuildState} {L : List entry} {gp : Nat → List GoString}
    (hinv : PathInv st (covBy L) (fileBy L) gp) {ri : InodeInfo}
    (h : tableGet st.inodeTable RootInodeID = some ri) : ri.Dir = true := by
  cases hd : ri.Dir with
  | true => rfl
  | false =>
    exfalso
    obtain ⟨f, _, _, hf⟩ := hinv.file_inode _ _ h hd
    rw [hinv.root] at hf
    exact splitSlash_ne_nil _ hf

/-- A non-directory inode none of whose proper ancestors is a file has its
id in the path index, with the rebuilt path of its path of names. -/
theorem indexed_of_file {st : BuildState} {L : List entry} {gp : Nat → List GoString}
    {dt : List (Nat × GoString)} (hwf : WF st) (hci : ChildIds st)
    (hinv : PathInv st (covBy L) (fileBy L) gp)
    (hdt : buildDentryFuel st.inodeTable.length st.inodeTable [] RootInodeID [] = some dt)
    {k : Nat} {info : InodeInfo} (hk : tableGet st.inodeTable k = some info)
    (hdir : info.Dir = false)
    (hanc : ∀ m mi, tableGet st.inodeTable m = some mi → gp m <+: gp k → gp m ≠ gp k →
      m ≠ RootInodeID → mi.Dir = true) :
    tableGet dt k = some (recon (gp k)) := by
  have hge := hwf.next_ge
  obtain ⟨dt2, b1, b2, _, b4⟩ := buildDentryFuel_index hwf hinv st.inodeTable.length
    RootInodeID [] (by simp [RootInodeID]) (by simp [RootInodeID]; omega)
    (by rw [hwf.length_eq]; simp [RootInodeID])
  have hr : recon (gp RootInodeID) = [] := by rw [hinv.root]; rfl
  rw [hr, hdt] at b1
  cases b1
  have hkm := (hwf.mem_iff k).1 ⟨info, hk⟩
  have hkr : k ≠ 1 := by
    intro e
    subst e
    have := root_is_dir hinv hk
    rw [hdir] at this
    cases this
  obtain ⟨p, pinfo, d, hp, hd, hdk⟩ := parent_exists hwf hci (k := k) (by omega) hkm.2
  have hpm := (hwf.mem_iff p).1 ⟨pinfo, hp⟩
  have hcp := hinv.child_path _ _ hp d hd
  rw [hdk] at hcp
  obtain ⟨ci, hci2, hiff⟩ := hinv.kind _ _ hp d hd
  rw [hdk, hk] at hci2
  cases hci2
  have htyp : d.Typ ≠ DirentType.DT_Directory := by
    intro h
    have := hiff.1 h
    rw [hdir] at this
    cases this
  have hreach : DirReach st.inodeTable RootInodeID p := by
    apply dirReach_of_dirs hwf hci hinv (p + 1) p (by omega) pinfo hp
    intro m mi hm hmp hmr
    apply hanc m mi hm
    · rw [hcp]; exact hmp.trans (List.prefix_append _ _)
    · intro e
      have h1 := hmp.length_le
      have h2 := congrArg List.length e
      rw [hcp] at h2
      simp only [List.length_append, List.length_singleton] at h2
      omega
    · exact hmr
  have hkey := b4 p pinfo d hreach hp hd htyp
  rw [hdk] at hkey
  cases hv : tableGet dt k with
  | none => exact absurd hv hkey
  | some v =>
    rcases b2 k v hv with h | h
    · simp [tableGet] at h
    · rw [h.1]

/-! ## One inode for an explicit directory -/

theorem childNodup_init :
    ChildNodup { inodeTable := tableSet [] RootInodeID rootInode,
                 nextFuseInodeID := RootInodeID + 1 } := by
  intro k ii hk
  simp only [tableSet, tableGet] at hk
  split at hk
  · cases hk; simp [rootInode]
  · cases hk

theorem childNodup_addChild {st : BuildState} (hwf : WF st) (h : ChildNodup st)
    {inodeId : Nat} {ii : InodeInfo} (hget : tableGet st.inodeTable inodeId = some ii)
    (name : GoString) (typ : DirentType) (newInode : InodeInfo)
    (hnew : newInode.Children = []) :
    ChildNodup (addChild st inodeId ii name typ newInode) := by
  intro k ik hk
  rw [tableGet_addChild] at hk
  split at hk
  · cases hk; simp [hnew]
  · split at hk
    · cases hk
      simp only [List.map_append, List.map_cons, List.map_nil]
      refine List.Nodup.append (h _ _ hget) (List.nodup_singleton _) ?_
      intro a ha hb
      simp only [List.mem_singleton] at hb
      subst hb
      obtain ⟨d, hd, hda⟩ := List.mem_map.1 ha
      have := (hwf.child_lt _ _ hget d hd).2
      omega
    · exact h _ _ hk

theorem buildTree_childNodup {temp : List entry} {st : BuildState}
    (h : buildTree temp = some st) : ChildNodup st :=
  foldlM_buildHelper_preserves ChildNodup
    (fun _ _ _ name typ newInode hwf hP hget hnew =>
      childNodup_addChild hwf hP hget name typ newInode hnew)
    temp _ st wf_init childNodup_init h

theorem eq_singleton_of_nodup {l : List Nat} {k : Nat} (hn : l.Nodup)
    (hall : ∀ a ∈ l, a = k) (hne : l ≠ []) : l = [k] := by
  cases l with
  | nil => exact absurd rfl hne
  | cons a t =>
    have ha := hall a (by simp)
    subst ha
    cases t with
    | nil => rfl
    | cons b u =>
      have hb := hall b (by simp)
      subst hb
      simp at hn

/-- The ancestor of an inode at any prefix of its path. -/
theorem ancestor_at {st : BuildState} {C F : List GoString → Prop}
    {gp : Nat → List GoString} (hwf : WF st) (hci : ChildIds st) (hinv : PathInv st C F gp) :
    ∀ n ke, ke < n → ∀ kei, tableGet st.inodeTable ke = some kei →
      ∀ q r, gp ke = q ++ r →
      ∃ k0 k0i, tableGet st.inodeTable k0 = some k0i ∧ gp k0 = q ∧
        Reach st.inodeTable k0 ke := by
  intro n
  induction n with
  | zero => intro ke h; omega
  | succ n ih =>
    intro ke hkn kei hke q r hqr
    rcases List.eq_nil_or_concat r with hr | ⟨r2, z, hr⟩
    · subst hr
      exact ⟨ke, kei, hke, by simpa using hqr, Reach.refl _⟩
    · simp only [List.concat_eq_append] at hr
      subst hr
      have hkm := (hwf.mem_iff ke).1 ⟨kei, hke⟩
      have hkr : ke ≠ 1 := by
        intro e
        subst e
        have := hinv.root
        simp only [RootInodeID] at this
        rw [this] at hqr
        have := congrArg List.length hqr
        simp only [List.length_nil, List.length_append, List.length_singleton] at this
        omega
      obtain ⟨p, pinfo, d, hp, hd, hdk⟩ := parent_exists hwf hci (k := ke) (by omega) hkm.2
      have hlt := hwf.child_lt _ _ hp d hd
      have hcp := hinv.child_path _ _ hp d hd
      rw [hdk, hqr, ← List.append_assoc] at hcp
      have hinj := List.append_inj' hcp rfl
      obtain ⟨k0, k0i, h1, h2, h3⟩ := ih p (by omega) pinfo hp q r2 hinj.1.symm
      refine ⟨k0, k0i, h1, h2, ?_⟩
      rw [← hdk]
      exact h3.snoc hp hd

theorem cntBy_sortSlice_scan (archive : List TarEntry) (q : List GoString) :
    cntBy (sortSlice (scanEntries archive)) q
      = (archive.filter fun th => decide (memberSegs th = q)).length := by
  simp only [cntBy]
  rw [((sortSlice_perm (scanEntries archive)).filter _).length_eq]
  simp only [scanEntries, List.filter_map, List.length_map]
  rfl

/-! ## The claims -/

/-- C1 (failing input): on the archive of the one file `a` with content `hi`,
`readFile` on the inode of `a` with offset 0 and a buffer of one byte does not
return the byte `h`; it fails with EIO, because the read loop only returns at
the end of the member's content. -/
theorem readFile_short_buffer_fails :
    buildInodeTable oneFile = some oneFileTgz ∧
    tableGet oneFileTgz.direntTable 2 = some "a".toList ∧
    ReadFile oneFileTgz 2 0 1 = .fail Failure.EIO := by
  decide

/-- C3: for a known directory inode with children `cs` and a start offset
`s ≤ |cs|`, `readDirectory` serialises `cs[s], ..., cs[s+m-1]` in this order,
reports the sum of their serialised sizes as bytes written, and `m` is the
number of leading entries of `cs[s..]` that fit: their sizes fit into the
buffer, and either no entry is left or the next one would not fit. -/
theorem readDir_contiguous_slice (t : Tgz) (inode s dstLen : Nat) (info : InodeInfo)
    (hget : tableGet t.inodeTable inode = some info) (hdir : info.Dir = true)
    (hs : s ≤ info.Children.length) :
    ∃ m, s + m ≤ info.Children.length ∧
      ReadDir t inode s dstLen
        = .ok ((info.Children.drop s).take m,
              (((info.Children.drop s).take m).map direntLen).sum) ∧
      (((info.Children.drop s).take m).map direntLen).sum ≤ dstLen ∧
      ∀ h : s + m < info.Children.length,
        dstLen < (((info.Children.drop s).take m).map direntLen).sum
                  + direntLen (info.Children.get ⟨s + m, h⟩) := by
  obtain ⟨m, hm, hrun, hsum, hnext⟩ :=
    readDirLoop_spec dstLen (info.Children.drop s) [] 0 (Nat.zero_le _)
  have hlen : (info.Children.drop s).length = info.Children.length - s := by simp
  refine ⟨m, by omega, ?_, by simpa using hsum, ?_⟩
  · have hns : ¬ info.Children.length < s := by omega
    simp [ReadDir, hget, hdir, hns, hrun]
  · intro h
    have h1 : m < (info.Children.drop s).length := by omega
    have := hnext h1
    simpa [List.get_eq_getElem, List.getElem_drop] using this

/-- Witness of C3: the directory `a` of scenario 1, read from offset 1 into a
buffer of 40 bytes. -/
theorem readDir_contiguous_slice_witness :
    ∃ m, 1 + m ≤ 2 ∧
      ReadDir scenario1Tgz 2 1 40
        = .ok (((scenario1Tgz.inodeTable.get ⟨1, by decide⟩).2.Children.drop 1).take m,
              ((((scenario1Tgz.inodeTable.get ⟨1, by decide⟩).2.Children.drop 1).take m).map
                direntLen).sum) :=
  (readDir_contiguous_slice scenario1Tgz 2 1 40 (scenario1Tgz.inodeTable.get ⟨1, by decide⟩).2
    (by decide) (by decide) (by decide)).imp fun _ h => ⟨h.1, h.2.1⟩

/-- C4 (counterexample): the root of the one-file archive has the single child
`a` with offset field 1; `readDirectory` with start offset 1 and a large
buffer returns no entry, although the offset of `a` is >= 1. -/
theorem readDir_skips_offset_equal :
    buildInodeTable oneFile = some oneFileTgz ∧
    ReadDir oneFileTgz RootInodeID 1 4096 = .ok ([], 0) ∧
    (tableGet oneFileTgz.inodeTable RootInodeID).map
        (fun info => info.Children.filter (fun d => decide (1 ≤ d.Offset)))
      = some [{ Offset := 1, Inode := 2, Name := "a".toList, Typ := DirentType.DT_File }] := by
  decide

/-- C4 (amended): in the tree built from any archive, for a directory inode
and a start offset not above its child count, a buffer with room for them
receives exactly the children whose offset field is greater than the start
offset, in stored order. -/
theorem readDir_offsets_above (archive : List TarEntry) :
    ∃ t, buildInodeTable archive = some t ∧
      ∀ (inode s dstLen : Nat) (info : InodeInfo),
        tableGet t.inodeTable inode = some info → info.Dir = true →
        s ≤ info.Children.length →
        ((info.Children.filter (fun d => decide (s < d.Offset))).map direntLen).sum ≤ dstLen →
        ReadDir t inode s dstLen
          = .ok (info.Children.filter (fun d => decide (s < d.Offset)),
                ((info.Children.filter (fun d => decide (s < d.Offset))).map direntLen).sum) := by
  obtain ⟨st, dt, _, hwf, _, hb⟩ := buildInodeTable_total archive
  refine ⟨_, hb, ?_⟩
  intro inode s dstLen info hget hdir hs hroom
  have hoff := filter_offset_eq_drop s info.Children 0
    (by intro i h; simpa using hwf.offsets _ _ hget i h)
  simp only [Nat.sub_zero] at hoff
  rw [hoff] at hroom ⊢
  have hns : ¬ info.Children.length < s := by omega
  have hall := readDirLoop_all dstLen (info.Children.drop s) [] 0 (by simpa using hroom)
  simp only [ReadDir]
  rw [hget]
  simp [hdir, hns, hall]

/-- C5: for a known inode with `n` children `readDirectory` fails with EIO
when the inode is not a directory or the start offset exceeds `n`; for a
directory and start offset `n` it returns no entry and writes zero bytes; for
a directory and a start offset of at most `n` it succeeds. -/
theorem readDir_failure_cases (t : Tgz) (inode s dstLen : Nat) (info : InodeInfo)
    (hget : tableGet t.inodeTable inode = some info) :
    ((info.Dir = false ∨ info.Children.length < s) →
        ReadDir t inode s dstLen = .fail Failure.EIO) ∧
    (info.Dir = true → s = info.Children.length →
        ReadDir t inode s dstLen = .ok ([], 0)) ∧
    (info.Dir = true → s ≤ info.Children.length →
        ∃ r, ReadDir t inode s dstLen = .ok r) := by
  refine ⟨?_, ?_, ?_⟩
  · rintro (h | h)
    · simp [ReadDir, hget, h]
    · by_cases hd : info.Dir = true
      · simp [ReadDir, hget, hd, h]
      · simp [ReadDir, hget, hd]
  · intro hd hs
    subst hs
    simp [ReadDir, hget, hd, readDirLoop]
  · intro hd hs
    have hns : ¬ info.Children.length < s := by omega
    exact ⟨readDirLoop dstLen (info.Children.drop s) [] 0, by simp [ReadDir, hget, hd, hns]⟩

/-- Witness of C5: the directory `a` of scenario 1 has two children; start
offset 2 gives no entry, start offset 3 gives EIO. -/
theorem readDir_failure_cases_witness :
    ReadDir scenario1Tgz 2 3 4096 = .fail Failure.EIO ∧ ReadDir scenario1Tgz 2 2 4096 = .ok ([], 0) :=
  ⟨(readDir_failure_cases scenario1Tgz 2 3 4096 (scenario1Tgz.inodeTable.get ⟨1, by decide⟩).2
      (by decide)).1 (Or.inr (by decide)),
   (readDir_failure_cases scenario1Tgz 2 2 4096 (scenario1Tgz.inodeTable.get ⟨1, by decide⟩).2
      (by decide)).2.1 (by decide) (by decide)⟩

/-- C6: in the tree built from any archive, `lookup(parent, name)` fails with
NotFound exactly when `parent` has no inode or no child of `parent` has that
name; otherwise it returns the id of a child entry of that name together
with the attributes the inode table stores for that id. -/
theorem lookUpInode_notFound_iff (archive : List TarEntry) :
    ∃ t, buildInodeTable archive = some t ∧
      ∀ (parent : Nat) (name : GoString),
        (LookUpInode t parent name = .fail .ENOENT ↔
          (tableGet t.inodeTable parent = none ∨
            ∃ pinfo, tableGet t.inodeTable parent = some pinfo ∧
              ∀ d ∈ pinfo.Children, d.Name ≠ name)) ∧
        (LookUpInode t parent name ≠ .fail .ENOENT →
          ∃ pinfo d cinfo, tableGet t.inodeTable parent = some pinfo ∧ d ∈ pinfo.Children ∧
            d.Name = name ∧ tableGet t.inodeTable d.Inode = some cinfo ∧
            LookUpInode t parent name = .ok (d.Inode, cinfo.Attributes)) := by
  obtain ⟨st, dt, _, hwf, _, hb⟩ := buildInodeTable_total archive
  refine ⟨_, hb, ?_⟩
  intro parent name
  cases hp : tableGet st.inodeTable parent with
  | none =>
    have hval : LookUpInode { opener := archive, inodeTable := st.inodeTable, direntTable := dt }
        parent name = .fail .ENOENT := by
      simp [LookUpInode, hp]
    rw [hval]
    simp
  | some pinfo =>
    cases hc : findChildInode name pinfo.Children with
    | fail e =>
      obtain ⟨he, hno⟩ := findChildInode_fail hc
      subst he
      have hval : LookUpInode { opener := archive, inodeTable := st.inodeTable, direntTable := dt }
          parent name = .fail .ENOENT := by
        simp [LookUpInode, hp, hc]
      rw [hval]
      simp only [true_iff, ne_eq, not_true_eq_false, false_implies, and_true]
      exact Or.inr ⟨pinfo, rfl, hno⟩
    | ok c =>
      obtain ⟨d, hd, hn, hi⟩ := findChildInode_ok hc
      have hlt := hwf.child_lt _ _ hp d hd
      obtain ⟨cinfo, hcg⟩ := (hwf.mem_iff d.Inode).2 ⟨by omega, hlt.2⟩
      subst hi
      have hval : LookUpInode { opener := archive, inodeTable := st.inodeTable, direntTable := dt }
          parent name = .ok (d.Inode, cinfo.Attributes) := by
        simp [LookUpInode, hp, hc, hcg]
      rw [hval]
      refine ⟨?_, ?_⟩
      · constructor
        · intro h; cases h
        · rintro (h | ⟨pinfo2, h2, hno⟩)
          · cases h
          · cases h2
            exact absurd hn (hno d hd)
      · intro _
        exact ⟨pinfo, d, cinfo, rfl, hd, hn, hcg, rfl⟩

/-- C7 (failing input): in scenario 1 the directory `a` exists only as an
intermediate path segment; `getAttributes` on its inode reports the directory
mode but link count 0, not 1. -/
theorem implied_dir_link_count_zero :
    buildInodeTable scenario1 = some scenario1Tgz ∧
    LookUpInode scenario1Tgz RootInodeID "a".toList
      = .ok (2, { Size := 0, Nlink := 0, Mode := 0o555 ||| ModeDir }) ∧
    GetInodeAttributes scenario1Tgz 2
      = .ok { Size := 0, Nlink := 0, Mode := 0o555 ||| ModeDir } := by
  decide

/-- C10: scenario 1 builds exactly the table `scenario1Tgz` (root with the one
child `a`, `a` with `b.txt` and `c` in this order, `c` with `d.txt`; both files
of size 2), and `readFile` on the inode of `b.txt` with offset 0 and capacity 2
returns `hi`. -/
theorem scenario1_tree :
    buildInodeTable scenario1 = some scenario1Tgz ∧
    LookUpInode scenario1Tgz RootInodeID "a".toList
      = .ok (2, { Size := 0, Nlink := 0, Mode := 0o555 ||| ModeDir }) ∧
    LookUpInode scenario1Tgz 2 "b.txt".toList = .ok (3, { Size := 2, Nlink := 1, Mode := 0o444 }) ∧
    ReadFile scenario1Tgz 3 0 2 = .ok "hi".toList := by
  decide

/-- C8: for an archive of pairwise different normalized paths the build
returns, and for every member the lookups along the segments of its normalized
path, from the root on, all succeed and end at an inode of the member's kind:
for a file the attributes are mode 0444, link count 1 and the member's size;
for a directory the inode is a directory with the directory mode, link count
1 and size 0. -/
theorem resolve_entry_paths (archive : List TarEntry) (hd : DistinctPaths archive) :
    ∃ t, buildInodeTable archive = some t ∧
      ∀ th ∈ archive, ∃ (k : Nat) (info : InodeInfo),
        resolvePath t RootInodeID (memberSegs th) = .ok (k, info.Attributes) ∧
        tableGet t.inodeTable k = some info ∧ info.Dir = th.IsDir ∧
        (th.IsDir = false →
          info.Attributes = { Size := th.Size, Nlink := 1, Mode := 0o444 }) ∧
        (th.IsDir = true →
          info.Attributes = { Size := 0, Nlink := 1, Mode := 0o555 ||| ModeDir }) := by
  obtain ⟨st, dt, gp, _, _, hinv, hres, _, hb⟩ := buildInodeTable_treeInv archive hd
  refine ⟨_, hb, ?_⟩
  intro th hth
  obtain ⟨k, ii, hk, hg, hattr, hdir⟩ := hres _ (mem_sortSlice_scan.2 ⟨th, hth, rfl⟩)
  have hw := hinv.reach _ _ hg
  rw [hk] at hw
  refine ⟨k, ii, ?_, hg, hdir, ?_, ?_⟩
  · exact resolvePath_of_walk { opener := archive, inodeTable := st.inodeTable, direntTable := dt }
      _ _ _ ii (splitSlash_ne_nil _) hw hg
  · intro h
    rw [hattr]
    simp [leafInode, h]
  · intro h
    rw [hattr]
    simp [leafInode, h]

/-- Witness of C8: scenario 1. -/
theorem resolve_entry_paths_witness :
    DistinctPaths scenario1 ∧
    ∃ t, buildInodeTable scenario1 = some t ∧
      ∀ th ∈ scenario1, ∃ (k : Nat) (info : InodeInfo),
        resolvePath t RootInodeID (memberSegs th) = .ok (k, info.Attributes) ∧
        tableGet t.inodeTable k = some info ∧ info.Dir = th.IsDir ∧
        (th.IsDir = false →
          info.Attributes = { Size := th.Size, Nlink := 1, Mode := 0o444 }) ∧
        (th.IsDir = true →
          info.Attributes = { Size := 0, Nlink := 1, Mode := 0o555 ||| ModeDir }) :=
  ⟨by decide, resolve_entry_paths scenario1 (by decide)⟩

/-- C9 (counterexample): two directory members of the same name give 3 inodes
where `1 + D + F` is 2, and a file with a second file below it gives 3 inodes
where `1 + D + F` is 4. -/
theorem inode_count_mismatch :
    ((buildInodeTable twoDirs).map fun t => t.inodeTable.length) = some 3 ∧
    1 + countD twoDirs + countF twoDirs = 2 ∧
    ((buildInodeTable fileAsDir).map fun t => t.inodeTable.length) = some 3 ∧
    1 + countD fileAsDir + countF fileAsDir = 4 := by
  decide

/-- C9 (amended): for an archive whose normalized paths are pairwise different
and in which no file's path is a directory on the way to another member, the
inode table holds exactly `1 + D + F` inodes. -/
theorem inode_count (archive : List TarEntry) (hd : DistinctPaths archive)
    (hnf : NoFileAsDir archive) :
    ∃ t, buildInodeTable archive = some t ∧
      t.inodeTable.length = 1 + countD archive + countF archive := by
  obtain ⟨st, dt, gp, _, hwf, hinv, hres, _, hb⟩ := buildInodeTable_treeInv archive hd
  refine ⟨_, hb, ?_⟩
  obtain ⟨hn1, hm1⟩ := inode_paths_spec hwf hinv hres
  obtain ⟨hn2, hm2⟩ := target_paths_spec archive hd hnf
  have hperm := (List.perm_ext_iff_of_nodup hn1 hn2).2 (by
    intro q
    rw [hm1, hm2, covBy_sortSlice_scan])
  have hlen := hperm.length_eq
  simp only [List.length_map, List.length_range', List.length_append] at hlen
  have hge := hwf.next_ge
  simp only [countD, countF]
  rw [hwf.length_eq]
  omega

/-- Witness of C9: scenario 1 has `D = 2` and `F = 2`. -/
theorem inode_count_witness :
    DistinctPaths scenario1 ∧ NoFileAsDir scenario1 ∧
    ∃ t, buildInodeTable scenario1 = some t ∧
      t.inodeTable.length = 1 + countD scenario1 + countF scenario1 :=
  ⟨by decide, by decide, inode_count scenario1 (by decide) (by decide)⟩

/-- C2: the archive of the one file `big` of 40000 bytes (35000 bytes `x`,
then 5000 bytes `y`) builds with the file at inode 2, indexed under `big`.
Reading inode 2 at offset 0 with a buffer of 40000 bytes fails with EIO: the
one `tr.Read` delivers the 32256 bytes up to the window boundary of the
inflater, which is not the end of the member.  Reading at offset 35000 with a
buffer of 10000 bytes returns 7744 bytes, the content from byte 32256 on,
where the content from byte 35000 on is the 5000 bytes `y`. -/
theorem readFile_round_trip_short_read :
    ((buildInodeTable bigFile).map fun t => t.direntTable) = some [(2, "big".toList)] ∧
    ((buildInodeTable bigFile).map fun t => ReadFile t 2 0 40000)
      = some (.fail Failure.EIO) ∧
    ((buildInodeTable bigFile).map fun t => ReadFile t 2 35000 10000)
      = some (.ok (List.replicate 2744 'x' ++ List.replicate 5000 'y')) ∧
    (bigFile.map fun th => th.Data.drop 35000) = [List.replicate 5000 'y'] := by
  have h1 : ((buildInodeTable bigFile).map fun t => t.direntTable)
      = some [(2, "big".toList)] := by decide
  have hname : filepathClean bigMember.Name = "big".toList := by decide
  have hdata : bigMember.Data = List.replicate 35000 'x' ++ List.replicate 5000 'y' := rfl
  have hlen : (List.replicate 35000 'x' ++ List.replicate 5000 'y').length = 40000 := by
    rw [List.length_append, List.length_replicate, List.length_replicate]
  have hd1 : List.drop 32256 (List.replicate 35000 'x' ++ List.replicate 5000 'y')
      = List.replicate 2744 'x' ++ List.replicate 5000 'y' := by
    rw [List.drop_append_of_le_length (by rw [List.length_replicate]; decide),
      List.drop_replicate]
  have hd2 : List.drop 35000 (List.replicate 35000 'x' ++ List.replicate 5000 'y')
      = List.replicate 5000 'y' := by
    rw [List.drop_append_of_le_length (by rw [List.length_replicate]),
      List.drop_replicate, Nat.sub_self, List.replicate_zero, List.nil_append]
  have hlen1 : (List.replicate 2744 'x' ++ List.replicate 5000 'y').length = 7744 := by
    rw [List.length_append, List.length_replicate, List.length_replicate]
  have hne : (List.replicate 2744 'x' ++ List.replicate 5000 'y').isEmpty = false := by
    cases h : List.replicate 2744 'x' ++ List.replicate 5000 'y' with
    | nil => rw [h] at hlen1; cases hlen1
    | cons _ _ => rfl
  -- the skip of 0 bytes, then the one read, short by the window boundary
  have hs0 : tarRead (0 + blockSize) bigMember.Data 0
      = ([], bigMember.Data, bigMember.Data.isEmpty) :=
    tarRead_zero _ _
  have hr0 : tarRead (0 + blockSize + 0) bigMember.Data 40000
      = (bigMember.Data.take 32256, List.replicate 2744 'x' ++ List.replicate 5000 'y',
          false) := by
    rw [tarRead_eq (m := 32256) (by rw [hdata, hlen]; decide), hdata, hd1, hne]
  -- the skip of 35000 bytes, short as well, then the read to the end of the member
  have hs1 : tarRead (0 + blockSize) bigMember.Data 35000
      = (bigMember.Data.take 32256, List.replicate 2744 'x' ++ List.replicate 5000 'y',
          false) := by
    rw [tarRead_eq (m := 32256) (by rw [hdata, hlen]; decide), hdata, hd1, hne]
  have htl : (List.take 32256 bigMember.Data).length = 32256 := by
    rw [List.length_take, hdata, hlen]; decide
  have hr1 : tarRead (0 + blockSize + 32256)
        (List.replicate 2744 'x' ++ List.replicate 5000 'y') 10000
      = (List.replicate 2744 'x' ++ List.replicate 5000 'y', [], true) := by
    rw [tarRead_eq (m := 7744) (by rw [hlen1]; decide)]
    rw [List.take_of_length_le (by rw [hlen1]), List.drop_eq_nil_of_le (by rw [hlen1]),
      List.isEmpty_nil]
  cases hb : buildInodeTable bigFile with
  | none => rw [hb] at h1; cases h1
  | some t =>
    rw [hb] at h1
    simp only [Option.map_some', Option.some.injEq] at h1
    have ho := buildInodeTable_opener hb
    have hg : tableGet t.direntTable 2 = some "big".toList := by rw [h1]; decide
    have hloop := readFileLoop_single bigMember
    rw [hname] at hloop
    refine ⟨congrArg some h1, ?_, ?_, ?_⟩
    · simp only [Option.map_some', ReadFile, hg, ho, bigFile]
      rw [hloop, hs0]
      simp only [List.length_nil]
      rw [hr0]
      simp only [Bool.false_eq_true, if_false]
    · simp only [Option.map_some', ReadFile, hg, ho, bigFile]
      rw [hloop, hs1]
      rw [htl, hr1]
      simp only [if_true]
    · simp only [bigFile, List.map_cons, List.map_nil, hdata, hd2]

/-- Reads by path: of two file members named `a` with contents `x` and
`y` both inodes of the path index read `x`, and no inode at all returns `y`;
a file `a/b` below the file `a` gets inode 3, which has no entry in the path
index, and reading it gives ENOENT; the file with the rooted name `/a` is
indexed under the path `a`, which matches no member, and reading it gives
EIO. -/
theorem readFile_round_trip_fails :
    (((buildInodeTable twoFiles).map fun t => t.direntTable)
        = some [(2, "a".toList), (3, "a".toList)] ∧
      ((buildInodeTable twoFiles).map fun t => ReadFile t 2 0 1) = some (.ok "x".toList) ∧
      ((buildInodeTable twoFiles).map fun t => ReadFile t 3 0 1) = some (.ok "x".toList) ∧
      ((buildInodeTable fileAsDir).map fun t => t.direntTable) = some [(2, "a".toList)] ∧
      ((buildInodeTable fileAsDir).map fun t =>
          resolvePath t RootInodeID [ "a".toList, "b".toList])
        = some (.ok (3, { Size := 1, Nlink := 1, Mode := 0o444 })) ∧
      ((buildInodeTable fileAsDir).map fun t => ReadFile t 3 0 1) = some (.fail .ENOENT) ∧
      ((buildInodeTable rootedFile).map fun t => t.direntTable) = some [(3, "a".toList)] ∧
      ((buildInodeTable rootedFile).map fun t => resolvePath t RootInodeID [ [], "a".toList])
        = some (.ok (3, { Size := 1, Nlink := 1, Mode := 0o444 })) ∧
      ((buildInodeTable rootedFile).map fun t => ReadFile t 3 0 1)
        = some (.fail Failure.EIO)) ∧
    ∀ k, ((buildInodeTable twoFiles).map fun t => ReadFile t k 0 1)
      ≠ some (.ok "y".toList) := by
  refine ⟨by decide, ?_⟩
  intro k h
  have h1 : ((buildInodeTable twoFiles).map fun t => t.direntTable)
      = some [(2, "a".toList), (3, "a".toList)] := by decide
  have h2 : ((buildInodeTable twoFiles).map fun t => ReadFile t 2 0 1)
      = some (.ok "x".toList) := by decide
  have h3 : ((buildInodeTable twoFiles).map fun t => ReadFile t 3 0 1)
      = some (.ok "x".toList) := by decide
  cases hb : buildInodeTable twoFiles with
  | none => rw [hb] at h; cases h
  | some t =>
    rw [hb] at h h1 h2 h3
    simp only [Option.map_some', Option.some.injEq] at h h1 h2 h3
    by_cases hk2 : k = 2
    · subst hk2; rw [h2] at h; cases h
    · by_cases hk3 : k = 3
      · subst hk3; rw [h3] at h; cases h
      · have hne2 : ¬ 2 = k := fun e => hk2 e.symm
        have hne3 : ¬ 3 = k := fun e => hk3 e.symm
        simp [ReadFile, h1, tableGet, hne2, hne3] at h

/-- Round trip below the first window boundary: for an archive of pairwise
different normalized paths whose stream is no longer than the window of the
inflater, and a file member whose normalized path is relative and has no file
member's path as a directory on its way, the lookups along the member's path
end at an inode on which `readFile`, for every offset and every capacity of
at least the rest of the content, returns the content from the offset on. -/
theorem readFile_round_trip (archive : List TarEntry) (hd : DistinctPaths archive)
    (hfit : streamLen archive ≤ flateWindow)
    (th : TarEntry) (hth : th ∈ archive) (hfile : th.IsDir = false)
    (hrel : (filepathClean th.Name).head? ≠ some '/')
    (hnf : ∀ f ∈ archive, f.IsDir = false →
      ¬ (memberSegs f <+: memberSegs th ∧ memberSegs f ≠ memberSegs th)) :
    ∃ (t : Tgz) (k : Nat) (info : InodeInfo), buildInodeTable archive = some t ∧
      resolvePath t RootInodeID (memberSegs th) = .ok (k, info.Attributes) ∧
      ∀ o dstLen, o ≤ th.Data.length → th.Data.length - o ≤ dstLen →
        ReadFile t k o dstLen = .ok (th.Data.drop o) := by
  obtain ⟨st, dt, gp, _, hwf, hinv, hres, hdt, hb⟩ := buildInodeTable_treeInv archive hd
  obtain ⟨k, ii, hk, hg, _, hdir⟩ := hres _ (mem_sortSlice_scan.2 ⟨th, hth, rfl⟩)
  have hk2 : gp k = memberSegs th := hk
  simp only [hfile] at hdir
  have hw := hinv.reach _ _ hg
  rw [hk2] at hw
  have hge := hwf.next_ge
  -- the path index
  obtain ⟨dt2, b1, b2, _, b4⟩ := buildDentryFuel_spec hwf hinv st.inodeTable.length
    RootInodeID [] (by simp [RootInodeID]) (by simp [RootInodeID]; omega)
    (by rw [hwf.length_eq]; simp [RootInodeID])
  have hr : recon (gp RootInodeID) = [] := by rw [hinv.root]; rfl
  rw [hr, hdt] at b1
  cases b1
  -- the parent of the inode and the entry that leads to it
  obtain ⟨q, x, hqx⟩ : ∃ q x, memberSegs th = q ++ [x] := by
    rcases List.eq_nil_or_concat (memberSegs th) with h | ⟨q, x, h⟩
    · exact absurd h (splitSlash_ne_nil _)
    · exact ⟨q, x, by simpa using h⟩
  rw [hqx, walk_append] at hw
  cases hwq : walk st.inodeTable RootInodeID q with
  | none => simp [hwq] at hw
  | some p =>
    simp only [hwq, Option.some_bind] at hw
    obtain ⟨pinfo, c, hpg, hc, hw3⟩ := walk_step hw
    simp only [walk, Option.some.injEq] at hw3
    subst hw3
    obtain ⟨d, hdm, _, hdc⟩ := findChildInode_ok hc
    obtain ⟨ci, hci, hiff⟩ := hinv.kind _ _ hpg d hdm
    rw [hdc, hg] at hci
    cases hci
    have htyp : d.Typ ≠ DirentType.DT_Directory := by
      intro h
      have := hiff.1 h
      rw [hdir] at this
      cases this
    have hreach : DirReach st.inodeTable RootInodeID p := by
      apply dirReach_of_walk hinv q RootInodeID p hwq
      intro n hn hnl m hm
      obtain ⟨⟨mi, hmi⟩, hgm⟩ := walk_gp hwf hinv _ RootInodeID m (wf_root_mem hwf) hm
      rw [hinv.root, List.nil_append] at hgm
      refine ⟨mi, hmi, ?_⟩
      cases hmd : mi.Dir with
      | true => rfl
      | false =>
        exfalso
        obtain ⟨f, hf, hfd, hfs⟩ := hinv.file_inode _ _ hmi hmd
        obtain ⟨fm, hfm, rfl⟩ := mem_sortSlice_scan.1 hf
        apply hnf fm hfm hfd
        have hseg : memberSegs fm = q.take n := by
          rw [← hgm]; exact hfs
        rw [hseg, hqx]
        refine ⟨⟨q.drop n ++ [x], by rw [← List.append_assoc, List.take_append_drop]⟩, ?_⟩
        intro h
        have := congrArg List.length h
        simp only [List.length_take, List.length_append, List.length_singleton] at this
        omega
    have hkey := b4 p pinfo d hreach hpg hdm htyp
    rw [hdc] at hkey
    cases hv : tableGet dt c with
    | none => exact absurd hv hkey
    | some v =>
      have hval : v = filepathClean th.Name := by
        rcases b2 c v hv with h | h
        · simp [tableGet] at h
        · rw [h, hk2]
          exact recon_clean th.Name hrel
      subst hval
      have hw4 : walk st.inodeTable RootInodeID (memberSegs th) = some c := by
        rw [hqx, walk_append, hwq]
        simp [walk, hpg, hc]
      refine ⟨_, c, ii, hb, ?_, ?_⟩
      · exact resolvePath_of_walk
          { opener := archive, inodeTable := st.inodeTable, direntTable := dt }
          _ _ _ ii (splitSlash_ne_nil _) hw4 hg
      · intro o dstLen _ hlen
        simp only [ReadFile, hv]
        exact readFileLoop_found o dstLen th archive 0 hd hth hlen (by omega)

/-- The round trip of the file `a/b.txt` of scenario 1. -/
theorem readFile_round_trip_witness :
    ∃ (t : Tgz) (k : Nat) (info : InodeInfo), buildInodeTable scenario1 = some t ∧
      resolvePath t RootInodeID (memberSegs (scenario1.get ⟨0, by decide⟩))
        = .ok (k, info.Attributes) ∧
      ∀ o dstLen, o ≤ (scenario1.get ⟨0, by decide⟩).Data.length →
        (scenario1.get ⟨0, by decide⟩).Data.length - o ≤ dstLen →
        ReadFile t k o dstLen = .ok ((scenario1.get ⟨0, by decide⟩).Data.drop o) :=
  readFile_round_trip scenario1 (by decide) (by decide) (scenario1.get ⟨0, by decide⟩)
    (by decide) (by decide) (by decide) (by decide)

/-- C11 (counterexample): two members of the same normalized path `a`, of
sizes 1 and 2 in scan order, leave the sort in the order 2, 1. -/
theorem sort_reverses_ties :
    scanEntries tiedFiles
      = [ { filePath := "a".toList, isDir := false, size := 1 },
          { filePath := "a".toList, isDir := false, size := 2 } ] ∧
    sortSlice (scanEntries tiedFiles)
      = [ { filePath := "a".toList, isDir := false, size := 2 },
          { filePath := "a".toList, isDir := false, size := 1 } ] := by
  decide

/-- C11 (amended): the output of the indexer is a permutation of the scanned
entries and non-decreasing in the bytewise lexicographic order of the
normalized paths. -/
theorem indexer_sorted_perm (archive : List TarEntry) :
    (sortSlice (scanEntries archive)).Perm (scanEntries archive) ∧
    (sortSlice (scanEntries archive)).Pairwise
      (fun a b => stringsCompare a.filePath b.filePath ≤ 0) := by
  refine ⟨sortSlice_perm _, (sortSlice_sorted _).imp ?_⟩
  intro a b h
  simpa [lessEntry] using h

/-- C12 (counterexample): the archive of the one file `/a`, whose normalized
path starts with an empty segment, builds without an error, and the root gets
a directory entry with the empty name. -/
theorem rooted_entry_builds :
    ((buildInodeTable rootedFile).map fun t => tableGet t.inodeTable RootInodeID)
      = some (some
          { Attributes := { Size := 0, Nlink := 1, Mode := 0o555 ||| ModeDir }, Dir := true,
            Children := [{ Offset := 1, Inode := 2, Name := [],
                           Typ := DirentType.DT_Directory }] }) := by
  decide

/-- C12 (amended): tree construction returns an inode table for every entry
list, and for every entry whose normalized path has an empty segment the root
holds a directory entry with the empty name. -/
theorem build_keeps_empty_segments (archive : List TarEntry) :
    ∃ t, buildInodeTable archive = some t ∧
      ∀ th ∈ archive, [] ∈ memberSegs th →
        ∃ rinfo d, tableGet t.inodeTable RootInodeID = some rinfo ∧ d ∈ rinfo.Children ∧
          d.Name = [] := by
  obtain ⟨st, dt, hst, _, _, hb⟩ := buildInodeTable_total archive
  refine ⟨_, hb, ?_⟩
  intro th hth hempty
  obtain ⟨rest, hrest⟩ := rooted_of_empty_segment th.Name hempty
  exact foldlM_first_child _ _ st wf_init hst
    { filePath := filepathClean th.Name, isDir := th.IsDir, size := th.Size }
    (mem_sortSlice_scan.2 ⟨th, hth, rfl⟩) [] rest hrest

/-- C13 (counterexample): for two file members named `a` the root holds two
child entries named `a`. -/
theorem duplicate_child_names :
    ((buildInodeTable twoFiles).map fun t =>
        (tableGet t.inodeTable RootInodeID).map fun info => info.Children.map Dirent.Name)
      = some (some [ "a".toList, "a".toList]) := by
  decide

/-- C13 (amended): for an archive of pairwise different normalized paths no
two entries of the child list of any inode of the built tree have the same
name. -/
theorem child_names_unique (archive : List TarEntry) (hd : DistinctPaths archive) :
    ∃ t, buildInodeTable archive = some t ∧
      ∀ k info, tableGet t.inodeTable k = some info →
        (info.Children.map Dirent.Name).Nodup := by
  obtain ⟨st, dt, gp, _, _, hinv, _, _, hb⟩ := buildInodeTable_treeInv archive hd
  exact ⟨_, hb, fun k info hk => hinv.names k info hk⟩

/-- Witness of C13: scenario 1. -/
theorem child_names_unique_witness :
    ∃ t, buildInodeTable scenario1 = some t ∧
      ∀ k info, tableGet t.inodeTable k = some info →
        (info.Children.map Dirent.Name).Nodup :=
  child_names_unique scenario1 (by decide)

/-- C17: in the tree built from any archive the entry at position `i` (from
0) of the child list of any inode has offset `i + 1`. -/
theorem offsets_sequential (archive : List TarEntry) :
    ∃ t, buildInodeTable archive = some t ∧
      ∀ k info, tableGet t.inodeTable k = some info →
        ∀ i (h : i < info.Children.length), (info.Children.get ⟨i, h⟩).Offset = i + 1 := by
  obtain ⟨st, dt, _, hwf, _, hb⟩ := buildInodeTable_total archive
  exact ⟨_, hb, fun k info hk => hwf.offsets k info hk⟩

/-- C19: two archives that are permutations of one another and have pairwise
different normalized paths build the same inode table and the same path
index. -/
theorem build_perm_invariant (archive1 archive2 : List TarEntry)
    (hp : archive1.Perm archive2) (hd : DistinctPaths archive1) :
    ∃ t1 t2, buildInodeTable archive1 = some t1 ∧ buildInodeTable archive2 = some t2 ∧
      t1.inodeTable = t2.inodeTable ∧ t1.direntTable = t2.direntTable := by
  have hsort : sortSlice (scanEntries archive1) = sortSlice (scanEntries archive2) := by
    apply sortSlice_perm_eq
    · exact hp.map _
    · rw [scanEntries_paths]; exact hd
  obtain ⟨st1, dt1, hst1, _, hdt1, hb1⟩ := buildInodeTable_total archive1
  obtain ⟨st2, dt2, hst2, _, hdt2, hb2⟩ := buildInodeTable_total archive2
  rw [hsort, hst2] at hst1
  cases hst1
  rw [hdt2] at hdt1
  cases hdt1
  exact ⟨_, _, hb1, hb2, rfl, rfl⟩

/-- Witness of C19: scenario 1 and the same two members in the other order. -/
theorem build_perm_invariant_witness :
    ∃ t1 t2, buildInodeTable scenario1 = some t1 ∧ buildInodeTable scenario1Rev = some t2 ∧
      t1.inodeTable = t2.inodeTable ∧ t1.direntTable = t2.direntTable :=
  build_perm_invariant scenario1 scenario1Rev (by decide) (by decide)

/-- C20: after any number of entries of the loop over the sorted entries the
build has not panicked and every child id stored in a child list is a key of
the inode table; the same holds for the finished tree, on which `lookup`
never reads the attributes of a missing inode. -/
theorem child_ids_are_keys (archive : List TarEntry) :
    (∀ n, ∃ st, buildTree ((sortSlice (scanEntries archive)).take n) = some st ∧
      ∀ k ii, tableGet st.inodeTable k = some ii → ∀ d ∈ ii.Children,
        ∃ ci, tableGet st.inodeTable d.Inode = some ci) ∧
    ∃ t, buildInodeTable archive = some t ∧
      (∀ k ii, tableGet t.inodeTable k = some ii → ∀ d ∈ ii.Children,
        ∃ ci, tableGet t.inodeTable d.Inode = some ci) ∧
      ∀ parent name, LookUpInode t parent name ≠ .fail .Panic := by
  have hkeys : ∀ st : BuildState, WF st →
      ∀ k ii, tableGet st.inodeTable k = some ii → ∀ d ∈ ii.Children,
        ∃ ci, tableGet st.inodeTable d.Inode = some ci := by
    intro st hwf k ii hk d hd
    have hlt := hwf.child_lt _ _ hk d hd
    exact (hwf.mem_iff d.Inode).2 ⟨by omega, hlt.2⟩
  refine ⟨?_, ?_⟩
  · intro n
    obtain ⟨st, hst, hwf⟩ := buildTree_wf ((sortSlice (scanEntries archive)).take n)
    exact ⟨st, hst, hkeys st hwf⟩
  · obtain ⟨st, dt, _, hwf, _, hb⟩ := buildInodeTable_total archive
    refine ⟨_, hb, hkeys st hwf, ?_⟩
    intro parent name
    cases hp : tableGet st.inodeTable parent with
    | none => simp [LookUpInode, hp]
    | some pinfo =>
      cases hc : findChildInode name pinfo.Children with
      | fail e =>
        obtain ⟨he, _⟩ := findChildInode_fail hc
        subst he
        simp [LookUpInode, hp, hc]
      | ok c =>
        obtain ⟨d, hd, _, hi⟩ := findChildInode_ok hc
        obtain ⟨ci, hci⟩ := hkeys st hwf _ _ hp d hd
        rw [hi] at hci
        simp [LookUpInode, hp, hc, hci]

/-- C18: the tree built from any archive is rooted at the root id: the root id
occurs in no child list, every other id of the inode table is the child id of
exactly one directory entry over all child lists, every child id is greater
than the id of the inode whose list holds it, and every inode is reached from
the root. -/
theorem tree_rooted (archive : List TarEntry) :
    ∃ t, buildInodeTable archive = some t ∧
      (allChildIds t.inodeTable).count RootInodeID = 0 ∧
      (∀ k info, tableGet t.inodeTable k = some info → k ≠ RootInodeID →
        (allChildIds t.inodeTable).count k = 1) ∧
      (∀ k info, tableGet t.inodeTable k = some info → ∀ d ∈ info.Children, k < d.Inode) ∧
      ∀ k info, tableGet t.inodeTable k = some info → Reach t.inodeTable RootInodeID k := by
  obtain ⟨st, dt, hst, hwf, _, hb⟩ := buildInodeTable_total archive
  have hc := buildTree_childIds hst
  have hge := hwf.next_ge
  refine ⟨_, hb, ?_, ?_, ?_, ?_⟩
  · rw [List.count_eq_zero, hc.mem_iff, List.mem_range'_1]
    simp [RootInodeID]
  · intro k info hk hne
    have hkm := (hwf.mem_iff k).1 ⟨info, hk⟩
    simp only [RootInodeID] at hne
    rw [hc.count_eq]
    exact List.count_eq_one_of_mem (List.nodup_range' _ _)
      (by rw [List.mem_range'_1]; omega)
  · intro k info hk d hd
    exact (hwf.child_lt _ _ hk d hd).1
  · intro k info hk
    have hkm := (hwf.mem_iff k).1 ⟨info, hk⟩
    exact reach_root hwf hc (k + 1) k (by omega) hkm.1 hkm.2

/-- C14 (counterexample): the file `a/b` below the file `a` gets inode 3, a
non-directory inode without an entry in the path index. -/
theorem file_below_file_not_indexed :
    ((buildInodeTable fileAsDir).map fun t => (tableGet t.inodeTable 3).map fun i => i.Dir)
      = some (some false) ∧
    ((buildInodeTable fileAsDir).map fun t => tableGet t.direntTable 3) = some none := by
  decide

/-- C14 (amended): for an archive in which no file's path is a directory on
the way to another member, an inode id of the built inode table has an entry
in the path index exactly when its inode is not a directory. -/
theorem path_index_domain (archive : List TarEntry) (hnf : NoFileAsDir archive) :
    ∃ t, buildInodeTable archive = some t ∧
      ∀ k info, tableGet t.inodeTable k = some info →
        ((∃ v, tableGet t.direntTable k = some v) ↔ info.Dir = false) := by
  obtain ⟨st, dt, gp, _, hwf, hci, hinv, _, _, hdt, hb⟩ := buildInodeTable_sortInv archive
  refine ⟨_, hb, ?_⟩
  intro k info hk
  have hge := hwf.next_ge
  constructor
  · rintro ⟨v, hv⟩
    obtain ⟨dt2, b1, b2, _, _⟩ := buildDentryFuel_index hwf hinv st.inodeTable.length
      RootInodeID [] (by simp [RootInodeID]) (by simp [RootInodeID]; omega)
      (by rw [hwf.length_eq]; simp [RootInodeID])
    have hr : recon (gp RootInodeID) = [] := by rw [hinv.root]; rfl
    rw [hr, hdt] at b1
    cases b1
    rcases b2 k v hv with h | ⟨_, n, ni, d, hn, hd, hdk, htyp⟩
    · simp [tableGet] at h
    · obtain ⟨ci, hci2, hiff⟩ := hinv.kind _ _ hn d hd
      rw [hdk] at hci2
      have hk2 : tableGet st.inodeTable k = some info := hk
      rw [hk2] at hci2
      cases hci2
      cases hdir : info.Dir with
      | false => rfl
      | true => exact absurd (hiff.2 hdir) htyp
  · intro hdir
    have hk2 : tableGet st.inodeTable k = some info := hk
    have hkm := (hwf.mem_iff k).1 ⟨info, hk2⟩
    have hkr : k ≠ RootInodeID := by
      intro e
      subst e
      have := root_is_dir hinv hk2
      rw [hdir] at this
      cases this
    refine ⟨recon (gp k), indexed_of_file hwf hci hinv hdt hk2 hdir ?_⟩
    intro m mi hm hmp hne _
    cases hmd : mi.Dir with
    | true => rfl
    | false =>
      exfalso
      obtain ⟨f, hf, hfd, hfs⟩ := hinv.file_inode _ _ hm hmd
      obtain ⟨fm, hfm, rfl⟩ := mem_sortSlice_scan.1 hf
      obtain ⟨⟨e, he, hke⟩, _⟩ := hinv.covered _ _ hk2 hkr
      obtain ⟨em, hem, rfl⟩ := mem_sortSlice_scan.1 he
      apply hnf fm hfm hfd em hem
      have hseg : memberSegs fm = gp m := hfs
      rw [hseg]
      refine ⟨hmp.trans hke, ?_⟩
      intro e2
      apply hne
      exact prefix_antisymm hmp (by rw [e2]; exact hke)

/-- Witness of C14: scenario 1. -/
theorem path_index_domain_witness :
    ∃ t, buildInodeTable scenario1 = some t ∧
      ∀ k info, tableGet t.inodeTable k = some info →
        ((∃ v, tableGet t.direntTable k = some v) ↔ info.Dir = false) :=
  path_index_domain scenario1 (by decide)

/-- C15 (counterexample): the file with the rooted name `/a` has the
normalized path `/a` and its inode 3 lies at the names `""`, `a` below the
root, but the path index maps inode 3 to `a`; and the file `a/b` below the
file `a` has inode 3, which the path index does not map at all. -/
theorem path_index_value_fails :
    filepathClean "/a".toList = "/a".toList ∧
    ((buildInodeTable rootedFile).map fun t => resolvePath t RootInodeID [ [], "a".toList])
      = some (.ok (3, { Size := 1, Nlink := 1, Mode := 0o444 })) ∧
    ((buildInodeTable rootedFile).map fun t => tableGet t.direntTable 3)
      = some (some "a".toList) ∧
    ((buildInodeTable fileAsDir).map fun t =>
        resolvePath t RootInodeID [ "a".toList, "b".toList])
      = some (.ok (3, { Size := 1, Nlink := 1, Mode := 0o444 })) ∧
    ((buildInodeTable fileAsDir).map fun t => tableGet t.direntTable 3) = some none := by
  decide

/-- C15 (amended): for every archive and every file member whose normalized
path is relative and has no file member's path as a directory on its way, the
built tree has a non-directory inode at the member's path of names with the
member's attributes, the path index maps every non-directory inode at that
path of names to exactly the member's normalized path, and the child names of
that path joined by the separator are the normalized path. -/
theorem path_index_value (archive : List TarEntry) (th : TarEntry) (hth : th ∈ archive)
    (hfile : th.IsDir = false) (hrel : (filepathClean th.Name).head? ≠ some '/')
    (hnf : ∀ f ∈ archive, f.IsDir = false →
      ¬ (memberSegs f <+: memberSegs th ∧ memberSegs f ≠ memberSegs th)) :
    ∃ t, buildInodeTable archive = some t ∧
      (∃ k info, PathTo t.inodeTable k (memberSegs th) ∧ tableGet t.inodeTable k = some info ∧
        info.Dir = false ∧ info.Attributes = { Size := th.Size, Nlink := 1, Mode := 0o444 }) ∧
      (∀ k info, PathTo t.inodeTable k (memberSegs th) →
        tableGet t.inodeTable k = some info → info.Dir = false →
        tableGet t.direntTable k = some (filepathClean th.Name)) ∧
      joinSlash (memberSegs th) = filepathClean th.Name := by
  obtain ⟨st, dt, gp, _, hwf, hci, hinv, _, hres, hdt, hb⟩ := buildInodeTable_sortInv archive
  refine ⟨_, hb, ?_, ?_, joinSlash_splitSlash _⟩
  · obtain ⟨k, ii, hk, hg, hattr, hdir⟩ := hres _ (mem_sortSlice_scan.2 ⟨th, hth, rfl⟩)
    have hk2 : gp k = memberSegs th := hk
    have hkm := (hwf.mem_iff k).1 ⟨ii, hg⟩
    refine ⟨k, ii, ?_, hg, by simpa [hfile] using hdir, ?_⟩
    · rw [← hk2]
      exact pathTo_of_mem hwf hci hinv (k + 1) k (by omega) hkm.1 hkm.2
    · rw [hattr]
      simp [leafInode, hfile]
  · intro k info hpath hk hdir
    have hk2 : tableGet st.inodeTable k = some info := hk
    obtain ⟨_, hgp⟩ := pathTo_gp hwf hinv hpath
    have hidx := indexed_of_file hwf hci hinv hdt hk2 hdir (by
      intro m mi hm hmp hne _
      cases hmd : mi.Dir with
      | true => rfl
      | false =>
        exfalso
        obtain ⟨f, hf, hfd, hfs⟩ := hinv.file_inode _ _ hm hmd
        obtain ⟨fm, hfm, rfl⟩ := mem_sortSlice_scan.1 hf
        apply hnf fm hfm hfd
        have hseg : memberSegs fm = gp m := hfs
        rw [hseg, ← hgp]
        exact ⟨hmp, hne⟩)
    rw [hgp] at hidx
    have hrc : recon (memberSegs th) = filepathClean th.Name := recon_clean th.Name hrel
    rw [hrc] at hidx
    exact hidx

/-- Witness of C15: the file `a/c/d.txt` of scenario 1. -/
theorem path_index_value_witness :
    ∃ t, buildInodeTable scenario1 = some t ∧
      (∃ k info, PathTo t.inodeTable k (memberSegs (scenario1.get ⟨1, by decide⟩)) ∧
        tableGet t.inodeTable k = some info ∧ info.Dir = false ∧
        info.Attributes
          = { Size := (scenario1.get ⟨1, by decide⟩).Size, Nlink := 1, Mode := 0o444 }) ∧
      (∀ k info, PathTo t.inodeTable k (memberSegs (scenario1.get ⟨1, by decide⟩)) →
        tableGet t.inodeTable k = some info → info.Dir = false →
        tableGet t.direntTable k = some (filepathClean (scenario1.get ⟨1, by decide⟩).Name)) ∧
      joinSlash (memberSegs (scenario1.get ⟨1, by decide⟩))
        = filepathClean (scenario1.get ⟨1, by decide⟩).Name :=
  path_index_value scenario1 (scenario1.get ⟨1, by decide⟩) (by decide) (by decide)
    (by decide) (by decide)

/-- C16: for every archive with a directory member whose normalized path `p`
no other member has, the built tree has exactly one inode at the path of
names `p`; it is the directory the explicit member created (directory mode,
link count 1); the inode that holds its entry lies at the path of `p` without
its last name and has exactly one child of that last name, which leads to this
inode; every member whose path continues `p` has its inode beneath this inode,
and so has every inode whose path of names continues `p`. -/
theorem explicit_dir_single_inode (archive : List TarEntry) (dm : TarEntry)
    (hdm : dm ∈ archive) (hdir : dm.IsDir = true)
    (hone : (archive.filter fun th => decide (memberSegs th = memberSegs dm)).length = 1) :
    ∃ (t : Tgz) (k : Nat) (info : InodeInfo), buildInodeTable archive = some t ∧
      PathTo t.inodeTable k (memberSegs dm) ∧
      (∀ k2, PathTo t.inodeTable k2 (memberSegs dm) → k2 = k) ∧
      tableGet t.inodeTable k = some info ∧ info.Dir = true ∧
      info.Attributes = { Size := 0, Nlink := 1, Mode := 0o555 ||| ModeDir } ∧
      (∃ (p : Nat) (pinfo : InodeInfo) (d : Dirent) (q : List GoString),
        PathTo t.inodeTable p q ∧ memberSegs dm = q ++ [d.Name] ∧
        tableGet t.inodeTable p = some pinfo ∧ d ∈ pinfo.Children ∧ d.Inode = k ∧
        (pinfo.Children.filter fun c => decide (c.Name = d.Name)).map Dirent.Inode = [k]) ∧
      (∀ e ∈ archive, memberSegs dm <+: memberSegs e →
        ∃ (ke : Nat) (einfo : InodeInfo), PathTo t.inodeTable ke (memberSegs e) ∧
          tableGet t.inodeTable ke = some einfo ∧ einfo.Dir = e.IsDir ∧
          Reach t.inodeTable k ke) ∧
      (∀ ke q, PathTo t.inodeTable ke q → memberSegs dm <+: q → Reach t.inodeTable k ke) := by
  obtain ⟨st, dt, gp, hst, hwf, hci, hinv, hl, hres, _, hb⟩ := buildInodeTable_sortInv archive
  have hcn := buildTree_childNodup hst
  obtain ⟨k, ii, hk, hg, hattr, hkd⟩ := hres _ (mem_sortSlice_scan.2 ⟨dm, hdm, rfl⟩)
  have hk2 : gp k = memberSegs dm := hk
  have hkm := (hwf.mem_iff k).1 ⟨ii, hg⟩
  have hpath : PathTo st.inodeTable k (memberSegs dm) := by
    rw [← hk2]
    exact pathTo_of_mem hwf hci hinv (k + 1) k (by omega) hkm.1 hkm.2
  have huniq : ∀ k2 i2, tableGet st.inodeTable k2 = some i2 → gp k2 = memberSegs dm →
      k2 = k := by
    intro k2 i2 h2 hg2
    by_contra hne
    have := hl.uniq k2 k i2 ii h2 hg (by rw [hg2, hk2]) hne
    rw [hg2, cntBy_sortSlice_scan, hone] at this
    omega
  have hbelow : ∀ ke kei, tableGet st.inodeTable ke = some kei →
      memberSegs dm <+: gp ke → Reach st.inodeTable k ke := by
    intro ke kei hke hpre
    obtain ⟨r, hr⟩ := hpre
    obtain ⟨k0, k0i, h1, h2, h3⟩ :=
      ancestor_at hwf hci hinv (ke + 1) ke (by omega) kei hke (memberSegs dm) r hr.symm
    rw [huniq k0 k0i h1 h2] at h3
    exact h3
  have hkr : k ≠ 1 := by
    intro e
    subst e
    have := hinv.root
    simp only [RootInodeID] at this
    rw [this] at hk2
    exact splitSlash_ne_nil _ hk2.symm
  obtain ⟨p, pinfo, d, hp, hd, hdk⟩ := parent_exists hwf hci (k := k) (by omega) hkm.2
  have hpm := (hwf.mem_iff p).1 ⟨pinfo, hp⟩
  have hcp := hinv.child_path _ _ hp d hd
  rw [hdk, hk2] at hcp
  refine ⟨_, k, ii, hb, hpath, ?_, hg, by simpa [hdir] using hkd, ?_, ?_, ?_, ?_⟩
  · intro k2 hp2
    obtain ⟨⟨i2, hi2⟩, hg2⟩ := pathTo_gp hwf hinv hp2
    exact huniq k2 i2 hi2 hg2
  · rw [hattr]
    simp [leafInode, hdir]
  · refine ⟨p, pinfo, d, gp p, pathTo_of_mem hwf hci hinv (p + 1) p (by omega) hpm.1 hpm.2,
      hcp, hp, hd, hdk, ?_⟩
    apply eq_singleton_of_nodup
    · exact ((List.filter_sublist _).map Dirent.Inode).nodup (hcn _ _ hp)
    · intro a ha
      obtain ⟨c, hc, hca⟩ := List.mem_map.1 ha
      obtain ⟨hcm, hcn2⟩ := List.mem_filter.1 hc
      simp only [decide_eq_true_eq] at hcn2
      have hlt := hwf.child_lt _ _ hp c hcm
      obtain ⟨ci, hci2⟩ := (hwf.mem_iff c.Inode).2 ⟨by omega, hlt.2⟩
      have hcp2 := hinv.child_path _ _ hp c hcm
      rw [hcn2, ← hcp] at hcp2
      rw [← hca]
      exact huniq _ ci hci2 hcp2
    · intro hnil
      have hmem : d.Inode ∈ (pinfo.Children.filter fun c => decide (c.Name = d.Name)).map
          Dirent.Inode :=
        List.mem_map.2 ⟨d, List.mem_filter.2 ⟨hd, by simp⟩, rfl⟩
      rw [hnil] at hmem
      simp at hmem
  · intro e he hpre
    obtain ⟨ke, kei, hke1, hke2, _, hke4⟩ := hres _ (mem_sortSlice_scan.2 ⟨e, he, rfl⟩)
    have hke1b : gp ke = memberSegs e := hke1
    have hkem := (hwf.mem_iff ke).1 ⟨kei, hke2⟩
    refine ⟨ke, kei, ?_, hke2, hke4, hbelow ke kei hke2 (by rw [hke1b]; exact hpre)⟩
    rw [← hke1b]
    exact pathTo_of_mem hwf hci hinv (ke + 1) ke (by omega) hkem.1 hkem.2
  · intro ke q hpq hpre
    obtain ⟨⟨kei, hkei⟩, hgq⟩ := pathTo_gp hwf hinv hpq
    exact hbelow ke kei hkei (by rw [hgq]; exact hpre)

/-- Witness of C16: the directory member `d/` that follows its file `d/f` in
the archive. -/
theorem explicit_dir_single_inode_witness :
    ∃ (t : Tgz) (k : Nat), buildInodeTable nestedFirst = some t ∧
      PathTo t.inodeTable k (memberSegs (nestedFirst.get ⟨1, by decide⟩)) ∧
      ∀ k2, PathTo t.inodeTable k2 (memberSegs (nestedFirst.get ⟨1, by decide⟩)) → k2 = k :=
  (explicit_dir_single_inode nestedFirst (nestedFirst.get ⟨1, by decide⟩) (by decide)
    (by decide) (by decide)).elim
    fun t h => h.elim fun k h => h.elim fun _ h => ⟨t, k, h.1, h.2.1, h.2.2.1⟩

end Tgzfs
